import Mathlib

/-! go-mosaic: a verification development over `mosaic.go`.

The definitions below are a shallow embedding of the parts of `mosaic.go`
that the checked properties speak about.  Conventions:

* `uint8` values are `Fin 256`; Go `int` values are `Int` (64-bit wrap-around
  is written out where it matters).
* Go strings are Lean `String`s.
* float64 arithmetic is embedded exactly where the source uses it: every
  float64 that occurs is either a non-negative integer (kept as a `Nat`), the
  square root of an exact integer (kept by its radicand, see `Sqrt64`) or a
  correctly rounded quotient (see `f64divTrunc`).
-/

namespace Mosaic

/-! ## Data model -/

deriving instance DecidableEq for Except

/-- Go `uint8`. -/
abbrev uint8 := Fin 256

/-- Go `type FileInfo struct` (mosaic.go:197-203). -/
structure FileInfo where
  Filename : String
  R : uint8
  G : uint8
  B : uint8
  Hash : String
deriving DecidableEq, Repr

/-- Go `color.RGBA`. -/
structure RGBA where
  R : uint8
  G : uint8
  B : uint8
  A : uint8
deriving DecidableEq, Repr

/-! ## Colour distance (mosaic.go:989-993) -/

/-- A float64 that is `math.Sqrt` of an exactly represented non-negative
integer, kept by that integer (the radicand).  `math.Sqrt` is correctly rounded
and the radicands that occur are `0 .. 3 * 255 ^ 2` and the square of
`math.MaxFloat64`; on these the rounded square root is strictly increasing
(two distinct radicands up to `195075` have square roots more than `1 / 884`
apart, the float64 spacing below `512` is at most `2 ^ (-44)`), so the float64
comparisons `<`, `<=` and `==` of the source are the comparisons of the
radicands. -/
structure Sqrt64 where
  radicand : Nat
deriving DecidableEq, Repr

instance : LT Sqrt64 := ⟨fun a b => a.radicand < b.radicand⟩

instance : LE Sqrt64 := ⟨fun a b => a.radicand ≤ b.radicand⟩

instance (a b : Sqrt64) : Decidable (a < b) :=
  inferInstanceAs (Decidable (a.radicand < b.radicand))

instance (a b : Sqrt64) : Decidable (a ≤ b) :=
  inferInstanceAs (Decidable (a.radicand ≤ b.radicand))

/-- The constant `math.MaxFloat64 = 2^1024 - 2^971`, as the square root of its
square. -/
def MaxFloat64 : Sqrt64 := ⟨(2 ^ 1024 - 2 ^ 971) ^ 2⟩

/-- Go `ColorDistance` (mosaic.go:989-993): the square root of the sum of the
squared channel differences.  The differences, their squares and the sum are
integers below `2 ^ 53`, so the float64 operations under the root are exact. -/
def ColorDistance (c1 c2 : RGBA) : Sqrt64 :=
  let dR : Int := (c1.R.val : Int) - (c2.R.val : Int)
  let dG : Int := (c1.G.val : Int) - (c2.G.val : Int)
  let dB : Int := (c1.B.val : Int) - (c2.B.val : Int)
  ⟨(dR * dR + dG * dG + dB * dB).toNat⟩

/-! ## The nearest-colour scan of `gen_target_pixel` (mosaic.go:853-888) -/

/-- The three locals the scan updates: `mindiff`, `mindiffnames`, `minfi`. -/
structure ScanState where
  mindiff : Sqrt64
  mindiffnames : List String
  minfi : FileInfo
deriving DecidableEq, Repr

/-- The locals as declared before the scan (mosaic.go:853-855):
`mindiff := math.MaxFloat64`, `var mindiffnames []string`, `var minfi FileInfo`
(the zero value: empty strings, `R = G = B = 0`). -/
def scanInit : ScanState :=
  { mindiff := MaxFloat64, mindiffnames := [], minfi := ⟨"", 0, 0, 0, ""⟩ }

/-- One call of the `ForEach` callback on a decoded record `fi`
(mosaic.go:871-885). -/
def scanStep (src : RGBA) (st : ScanState) (fi : FileInfo) : ScanState :=
  if st.minfi.R = fi.R ∧ st.minfi.G = fi.G ∧ st.minfi.B = fi.B then
    { st with mindiffnames := st.mindiffnames ++ [fi.Filename] }
  else
    let tmp : RGBA := ⟨fi.R, fi.G, fi.B, 0⟩
    let diff := ColorDistance src tmp
    if diff < st.mindiff then
      { mindiff := diff, mindiffnames := [fi.Filename], minfi := fi }
    else
      st

/-- The whole scan: the callback folded over the stored records in the
iteration order of the bucket. -/
def scan (src : RGBA) (records : List FileInfo) : ScanState :=
  records.foldl (scanStep src) scanInit

/-- The average colour of a stored record, as the scan builds it
(`color.RGBA{fi.R, fi.G, fi.B, 0}`). -/
def FileInfo.color (fi : FileInfo) : RGBA := ⟨fi.R, fi.G, fi.B, 0⟩

/-- Two records have the same average colour (the test of mosaic.go:871). -/
def sameColor (m fi : FileInfo) : Bool :=
  decide (m.R = fi.R ∧ m.G = fi.G ∧ m.B = fi.B)

/-- The distance from the source colour to the average colour of a record. -/
def distTo (src : RGBA) (fi : FileInfo) : Sqrt64 := ColorDistance src fi.color

/-- The candidate list as the specification words it: the first record in
scan order whose distance to the source colour is minimal among all stored
records, and then the filenames of all stored records of exactly that
colour. -/
def nearestSpec (src : RGBA) (records : List FileInfo) : List String :=
  match records.find? (fun r => records.all (fun q => decide (distTo src r ≤ distTo src q))) with
  | none => []
  | some m => (records.filter (sameColor m)).map FileInfo.Filename

/-- A library whose first record in scan order is a black tile. -/
def blackFirstLibrary : List FileInfo :=
  [⟨"/lib/a.png", 0, 0, 0, "1"⟩, ⟨"/lib/c.png", 100, 100, 100, "2"⟩]

/-- The invariant of the scan once `minfi` holds a real record: `minfi` is the
first record seen at distance `mindiff`, no record seen is nearer, and the
candidate list is the filenames of the records seen of the colour of
`minfi`. -/
structure ScanInv (src : RGBA) (seen : List FileInfo) (st : ScanState) : Prop where
  first : ∃ pre post, seen = pre ++ st.minfi :: post ∧ ∀ r ∈ pre, st.mindiff < distTo src r
  dist_eq : st.mindiff = distTo src st.minfi
  le : ∀ r ∈ seen, st.mindiff ≤ distTo src r
  names : st.mindiffnames = (seen.filter (sameColor st.minfi)).map FileInfo.Filename

/-! ## float64 values that are non-negative integers -/

/-- The integer nearest to `n / d`, ties to the even one (the IEEE 754 default
rounding, on a quotient of naturals, `d > 0`). -/
def roundHalfEven (n d : Nat) : Nat :=
  let q := n / d
  let r := n % d
  if 2 * r < d then q
  else if d < 2 * r then q + 1
  else if q % 2 = 0 then q
  else q + 1

/-- The float64 nearest to the non-negative integer `x` (`float64(x)` of an
integer, and the rounding of an integer-valued sum), for `x < 2 ^ 1024`: below
`2 ^ 53` every integer is a float64; from there on the float64 values are the
multiples of `2 ^ s`, `s = floor(log2 x) - 52`, and `x` rounds to the nearest
one, ties to the even significand. -/
def f64round (x : Nat) : Nat :=
  if x < 2 ^ 53 then x
  else
    let s := Nat.log2 x - 52
    roundHalfEven x (2 ^ s) * 2 ^ s

/-! ## Lane routing of the thread pool (mosaic.go:1031-1048) -/

/-- Go `absInt` (mosaic.go:1031-1033): `int(math.Abs(float64(x)))`.
`float64(x)` rounds `x` to the nearest float64 and rounding is symmetric, so
`math.Abs(float64(x))` is `f64round |x|`.  The conversion back to `int` is exact
when the value is below `2 ^ 63`; otherwise the Go specification leaves the
result to the implementation, and it is the parameter `ovf` here (on amd64 it
is `-2 ^ 63`). -/
def absInt (ovf : Int) (x : Int) : Int :=
  let f : Nat := f64round x.natAbs
  if f < 2 ^ 63 then (f : Int) else ovf

/-- The channel index `absInt(hash) % len(tp.ca)` that `AddJob`
(mosaic.go:1036-1037) and `AddJobTimeout` (mosaic.go:1042-1043) use, for a
pool of `n` lanes.  Go's `%` truncates towards zero. -/
def laneIndex (ovf : Int) (hash : Int) (n : Nat) : Int :=
  Int.tmod (absInt ovf hash) (n : Int)

/-! ## The output size cap of `gen_target` (mosaic.go:752-763) -/

/-- The value a 64-bit Go `int` holds after an arithmetic result `x`
(two's complement wrap-around). -/
def wrap64 (x : Int) : Int := (x + 2 ^ 63) % 2 ^ 64 - 2 ^ 63

/-- The assignment `outputfilesize := lenx * leny * 4 / 1024 / 1024 / 1024`
(mosaic.go:755), on the canvas sides `lenx`, `leny`; every product wraps to 64
bits and Go's `/` truncates towards zero. -/
def outputfilesize (lenx leny : Int) : Int :=
  Int.tdiv (Int.tdiv (Int.tdiv (wrap64 (wrap64 (lenx * leny) * 4)) 1024) 1024) 1024

/-- The start of `gen_target` (mosaic.go:752-763) for a source image of width
`W = bounds.Dx()` and height `H = bounds.Dy()`: the canvas sides, the size
check, and on success the sides of the canvas rectangle
`image.Rectangle{(0,0),(lenx,leny)}` that is allocated next. -/
def gen_target_canvas (W H pixelsize maxsize : Int) : Except String (Int × Int) :=
  let lenx := wrap64 (W * pixelsize)
  let leny := wrap64 (H * pixelsize)
  if outputfilesize lenx leny > maxsize then
    .error "too big"
  else
    .ok (lenx, leny)

/-! ## Images (the part of the `image` and `draw` packages the code uses) -/

/-- Go `image.Rectangle`: `Min = (MinX, MinY)`, `Max = (MaxX, MaxY)`. -/
structure Rectangle where
  MinX : Int
  MinY : Int
  MaxX : Int
  MaxY : Int
deriving DecidableEq, Repr

/-- Go `Rectangle.Dx`. -/
def Rectangle.Dx (r : Rectangle) : Int := r.MaxX - r.MinX

/-- Go `Rectangle.Dy`. -/
def Rectangle.Dy (r : Rectangle) : Int := r.MaxY - r.MinY

/-- The result of `color.Color.RGBA()`: four channels in `[0, 0xffff]`. -/
structure Color16 where
  r : Fin 65536
  g : Fin 65536
  b : Fin 65536
  a : Fin 65536
deriving DecidableEq, Repr

/-- Go `image.Image`: its bounds and its pixels (`At(x, y).RGBA()`). -/
structure Image where
  Bounds : Rectangle
  At : Int → Int → Color16

/-- The two operations of `golang.org/x/image/draw` the code calls, for the
scaler selected by `getScaler`.  Both fill a freshly allocated `*image.RGBA`;
the pixels they produce are the library's business and stay a parameter:
`Copy src sr` is the pixel function of the destination after
`draw.Copy(dst, image.Point{0, 0}, src, sr, draw.Over, nil)`, and
`Scale dr src sr` the one after `scaler.Scale(dst, dr, src, sr, draw.Over, nil)`. -/
structure Draw where
  Copy : Image → Rectangle → Int → Int → Color16
  Scale : Rectangle → Image → Rectangle → Int → Int → Color16

/-- Go `minInt` (mosaic.go:957-962). -/
def minInt (x y : Int) : Int := if x < y then x else y

/-- Go `maxInt` (mosaic.go:950-955). -/
def maxInt (x y : Int) : Int := if x > y then x else y

/-! ## Tile preparation: `calc_img` (mosaic.go:576-611) -/

/-- The source rectangle of the crop (mosaic.go:579-583):
`(startx, starty) - (endx, endy)`. -/
def cropRect (bounds : Rectangle) : Rectangle :=
  let len := minInt bounds.Dx bounds.Dy
  let startx := bounds.MinX + Int.tdiv (bounds.Dx - len) 2
  let starty := bounds.MinY + Int.tdiv (bounds.Dy - len) 2
  let endx := minInt (startx + len) bounds.MaxX
  let endy := minInt (starty + len) bounds.MaxY
  ⟨startx, starty, endx, endy⟩

/-- The image after the crop step (mosaic.go:577-589): the source itself when
the crop rectangle is the whole image, otherwise a new `len` by `len` image at
the origin that `draw.Copy` filled from the crop rectangle. -/
def cropSquare (d : Draw) (src : Image) : Image :=
  let bounds := src.Bounds
  let len := minInt bounds.Dx bounds.Dy
  let c := cropRect bounds
  if c.MinX ≠ bounds.MinX ∨ c.MinY ≠ bounds.MinY ∨ c.MaxX ≠ bounds.MaxX ∨ c.MaxY ≠ bounds.MaxY then
    { Bounds := ⟨0, 0, len, len⟩, At := d.Copy src c }
  else
    src

/-- Go `calc_img` (mosaic.go:576-611). -/
def calc_img (d : Draw) (src : Image) (pixelsize : Int) : Except String Image :=
  let src := cropSquare d src
  let bounds := src.Bounds
  if bounds.Dx ≠ bounds.Dy then
    .error "bounds error"
  else
    let len := minInt bounds.Dx bounds.Dy
    if len < pixelsize then
      .error "too small"
    else if len > pixelsize then
      let rect : Rectangle := ⟨0, 0, pixelsize, pixelsize⟩
      .ok { Bounds := rect, At := d.Scale rect src src.Bounds }
    else
      .ok src

/-! ## The environment of `load_lib`: files, codecs, the keyed store -/

/-- Raw bytes (the content of a file). -/
abbrev Bytes := List Nat

/-- What the code reaches outside itself, as functions: the file system (a path
has content or does not exist), the gob codec of `FileInfo` (`V` is the type of
the stored values), the xxhash of a file's content, the image decoders and the
drawing package. -/
structure Env (V : Type) where
  fs : String → Option Bytes
  gobDecode : V → Option FileInfo
  gobEncode : FileInfo → V
  GetXXHashString : Bytes → String
  imageDecode : Bytes → Option Image
  draw : Draw

/-- The bolt bucket: its entries `(key, value)` in iteration order. -/
abbrev Store (V : Type) := List (String × V)

/-- The call `b.Get(k)`. -/
def Store.Get {V : Type} (b : Store V) (k : String) : Option V :=
  (b.find? (fun e => e.1 == k)).map Prod.snd

/-- The call `b.Delete(k)`. -/
def Store.Delete {V : Type} (b : Store V) (k : String) : Store V :=
  b.filter (fun e => e.1 != k)

/-- The call `b.Put(k, v)`: the value of an existing key is replaced, a new key
is added (its place in the iteration order is not modelled). -/
def Store.Put {V : Type} (b : Store V) (k : String) (v : V) : Store V :=
  if b.any (fun e => e.1 == k) then b.map (fun e => if e.1 == k then (k, v) else e)
  else b ++ [(k, v)]

/-! ## The validation pass of `load_lib` (mosaic.go:274-376) -/

/-- The job of the validation pool on one entry with value `v`
(mosaic.go:283-338): `true` when the job appends the entry's key to
`need_del`.  In the abstract file system a path either does not exist
(`os.Stat` fails with `IsNotExist`) or has content that can be opened and
read. -/
def validate_job {V : Type} (env : Env V) (checkhash : Bool) (v : V) : Bool :=
  match env.gobDecode v with
  | none => true
  | some fi =>
    match env.fs fi.Filename with
    | none => true
    | some bytes =>
      if checkhash then
        if env.GetXXHashString bytes ≠ fi.Hash then true else false
      else
        false

/-- The list `need_del` once every entry of the bucket has been through its job
(mosaic.go:340-369), the jobs taken in iteration order. -/
def need_del {V : Type} (env : Env V) (checkhash : Bool) (b : Store V) : List String :=
  b.foldl (fun acc e => if validate_job env checkhash e.2 then acc ++ [e.1] else acc) []

/-- The batch of deletes after the iteration (mosaic.go:371-373). -/
def delete_all {V : Type} (b : Store V) (dels : List String) : Store V :=
  dels.foldl Store.Delete b

/-- The bucket after the validation pass. -/
def load_lib_validate {V : Type} (env : Env V) (checkhash : Bool) (b : Store V) : Store V :=
  delete_all b (need_del env checkhash b)

/-- The eviction condition as the specification words it, for a stored value
`v`: the value cannot be decoded as a record, or the referenced file does not
exist, or `checkhash` is on and the hash of the file's current bytes differs
from the stored hash. -/
def evictCond {V : Type} (env : Env V) (checkhash : Bool) (v : V) : Prop :=
  env.gobDecode v = none ∨
  ∃ fi, env.gobDecode v = some fi ∧
    (env.fs fi.Filename = none ∨
      (checkhash = true ∧ ∃ bytes, env.fs fi.Filename = some bytes ∧
        env.GetXXHashString bytes ≠ fi.Hash))

/-! ## Fingerprinting: `calc_avg_color` (mosaic.go:613-684) -/

/-- Go `type CalFileInfo struct` (mosaic.go:205-209). -/
structure CalFileInfo where
  fi : FileInfo
  ok : Bool
  done : Bool
deriving DecidableEq, Repr

/-- The pixels of an image in the order of the two nested loops
(mosaic.go:651-652): rows from `Min.Y` to `Max.Y`, in a row from `Min.X` to
`Max.X`. -/
def Image.pixels (img : Image) : List Color16 :=
  (List.range img.Bounds.Dy.toNat).flatMap fun (j : Nat) =>
    (List.range img.Bounds.Dx.toNat).map fun (i : Nat) =>
      img.At (img.Bounds.MinX + (i : Int)) (img.Bounds.MinY + (j : Int))

/-- The four float64 accumulators `sumR, sumG, sumB, count` (mosaic.go:649).
They only ever hold non-negative integers. -/
structure Sums where
  sumR : Nat
  sumG : Nat
  sumB : Nat
  count : Nat
deriving DecidableEq, Repr

/-- The loop body on one pixel (mosaic.go:653-660): the 16-bit channels are
shifted down to 8 bits and added; every float64 addition rounds its exact
result. -/
def sumStep (s : Sums) (c : Color16) : Sums :=
  { sumR := f64round (s.sumR + c.r.val / 256)
    sumG := f64round (s.sumG + c.g.val / 256)
    sumB := f64round (s.sumB + c.b.val / 256)
    count := f64round (s.count + 1) }

/-- The accumulators after the loops over all pixels. -/
def sumPixels (px : List Color16) : Sums :=
  px.foldl sumStep ⟨0, 0, 0, 0⟩

/-- The integer part of the float64 quotient `n / d` of two float64 values
that are positive integers below `2 ^ 1024`.  The exact quotient is scaled by
`2 ^ 1100`, so that its integer part has more than 53 bits; `s` is then the
number of bits beyond the 53 of the significand, the significand is the exact
scaled quotient divided by `2 ^ s` and rounded to the nearest integer, ties to
even, and the float64 quotient is `significand * 2 ^ s / 2 ^ 1100`. -/
def f64divTrunc (n d : Nat) : Nat :=
  if n = 0 then 0
  else
    let N := n * 2 ^ 1100
    let s := Nat.log2 (N / d) - 52
    roundHalfEven N (d * 2 ^ s) * 2 ^ s / 2 ^ 1100

/-- The conversion `uint8(sum / count)` (mosaic.go:677-679).  The conversion
truncates; when the quotient is not a number (`count = 0`) or does not fit, the
Go specification leaves the result to the implementation, and it is `ovf`. -/
def avgChannel (ovf : uint8) (sum count : Nat) : uint8 :=
  if h : count ≠ 0 ∧ f64divTrunc sum count < 256 then ⟨f64divTrunc sum count, h.2⟩ else ovf

/-- The average colour `calc_avg_color` stores for a prepared tile with pixels
`px` (mosaic.go:647-662 and 677-679). -/
def avgColor (ovf : uint8) (px : List Color16) : uint8 × uint8 × uint8 :=
  let s := sumPixels px
  (avgChannel ovf s.sumR s.count, avgChannel ovf s.sumG s.count, avgChannel ovf s.sumB s.count)

/-- Go `calc_avg_color` (mosaic.go:613-684) on one entry of the file list: the
entry afterwards.  `ovf` is the implementation's result of an out-of-range
float64 to `uint8` conversion.  The file is read twice (decode, hash); the file
system does not change in between. -/
def calc_avg_color {V : Type} (env : Env V) (ovf : uint8) (pixelsize : Int)
    (cfi : CalFileInfo) : CalFileInfo :=
  match env.fs cfi.fi.Filename with
  | none => { cfi with done := true }
  | some bytes =>
    match env.imageDecode bytes with
    | none => { cfi with done := true }
    | some img =>
      match calc_img env.draw img pixelsize with
      | .error _ => { cfi with done := true }
      | .ok tile =>
        let avg := avgColor ovf tile.pixels
        { fi := { cfi.fi with R := avg.1, G := avg.2.1, B := avg.2.2,
                              Hash := env.GetXXHashString bytes }
          ok := true
          done := true }

/-! ## The library scan of `load_lib` (mosaic.go:274-461) and `save_to_database` -/

/-- The file list `imagefilelist` (mosaic.go:381-413).  `walk` is the list of
absolute paths of the files under the library directory that have a supported
extension, in the order `filepath.Walk` visits them; a path goes on the list
when the bucket has no value under it. -/
def imagefilelist {V : Type} (walk : List String) (b : Store V) : List CalFileInfo :=
  (walk.filter fun p => (b.Get p).isNone).map fun p => ⟨⟨p, 0, 0, 0, ""⟩, false, false⟩

/-- The file list after the fingerprint jobs (mosaic.go:430-459): every entry
has been through `calc_avg_color`. -/
def fingerprintAll {V : Type} (env : Env V) (ovf : uint8) (pixelsize : Int)
    (list : List CalFileInfo) : List CalFileInfo :=
  list.map (calc_avg_color env ovf pixelsize)

/-- Go `save_to_database` (mosaic.go:686-724) on the finished file list: the
entries are taken in list order and each `ok` one is stored under its
filename. -/
def save_to_database {V : Type} (env : Env V) (list : List CalFileInfo) (b : Store V) :
    Store V :=
  list.foldl (fun b cfi => if cfi.ok then b.Put cfi.fi.Filename (env.gobEncode cfi.fi) else b) b

/-- The fingerprints one scan stores: the `ok` entries of the finished file
list built against the validated bucket. -/
def newFingerprints {V : Type} (env : Env V) (ovf : uint8) (checkhash : Bool) (pixelsize : Int)
    (walk : List String) (b : Store V) : List CalFileInfo :=
  (fingerprintAll env ovf pixelsize
    (imagefilelist walk (load_lib_validate env checkhash b))).filter fun cfi => cfi.ok

/-- One library scan of `load_lib`: validation, the file list against the
validated bucket, fingerprinting of the listed files, persistence.  The result
is the bucket afterwards. -/
def load_lib_scan {V : Type} (env : Env V) (ovf : uint8) (checkhash : Bool) (pixelsize : Int)
    (walk : List String) (b : Store V) : Store V :=
  let b1 := load_lib_validate env checkhash b
  save_to_database env (fingerprintAll env ovf pixelsize (imagefilelist walk b1)) b1

/-! ## A small concrete library -/

/-- A drawing package for the examples: `Copy` reads the source at the offset
of the source rectangle, `Scale` is nearest-neighbour sampling. -/
def demoDraw : Draw where
  Copy := fun src sr x y => src.At (sr.MinX + x) (sr.MinY + y)
  Scale := fun dr src sr x y =>
    src.At (sr.MinX + (x - dr.MinX) * sr.Dx / dr.Dx) (sr.MinY + (y - dr.MinY) * sr.Dy / dr.Dy)

/-- A 2 by 2 image of one colour. -/
def uniformImage (c : Color16) : Image := { Bounds := ⟨0, 0, 2, 2⟩, At := fun _ _ => c }

/-- An environment for the examples: two image files, a codec that stores the
record itself (`none` is an undecodable value), a hash that spells the bytes. -/
def demoEnv : Env (Option FileInfo) where
  fs := fun p =>
    if p = "/lib/a.png" then some [1] else if p = "/lib/b.png" then some [2] else none
  gobDecode := id
  gobEncode := some
  GetXXHashString := fun bytes => String.mk (bytes.map Char.ofNat)
  imageDecode := fun bytes =>
    match bytes with
    | [1] => some (uniformImage ⟨65535, 0, 0, 65535⟩)
    | [2] => some (uniformImage ⟨0, 0, 65535, 65535⟩)
    | _ => none
  draw := demoDraw

/-- A bucket for the examples: a valid entry, an entry whose file is gone, an
undecodable entry. -/
def demoStore : Store (Option FileInfo) :=
  [("/lib/a.png", some ⟨"/lib/a.png", 255, 0, 0, String.mk [Char.ofNat 1]⟩),
   ("/lib/gone.png", some ⟨"/lib/gone.png", 1, 2, 3, "x"⟩),
   ("/lib/bad", none)]

/-- The walked file list for the examples. -/
def demoWalk : List String := ["/lib/a.png", "/lib/b.png", "/lib/c.png"]

/-! ## Cache keys and the match cache (mosaic.go:84-88, 134-166, 572-574) -/

/-- The function `strconv.Itoa` on a non-negative value: the decimal
digits. -/
def Itoa (n : Nat) : String := String.mk (Nat.toDigits 10 n)

/-- Go `make_string` (mosaic.go:572-574). -/
def make_string (r g b : uint8) : String :=
  "r " ++ Itoa r.val ++ " g " ++ Itoa g.val ++ " b " ++ Itoa b.val

/-- Go `type CacheInfo struct` (mosaic.go:84-88); the mutex is not part of the
sequential model. -/
structure CacheInfo where
  num : Int
  img : List Image

/-- The `sync.Map` from cache key to `*CacheInfo`, as its entries. -/
abbrev CacheMap := List (String × CacheInfo)

/-- The call `cachemap.Load(key)`. -/
def CacheMap.Load (m : CacheMap) (key : String) : Option CacheInfo :=
  (m.find? (fun e => e.1 == key)).map Prod.snd

/-- The call `cachemap.Store(key, ci)`. -/
def CacheMap.Store (m : CacheMap) (key : String) (ci : CacheInfo) : CacheMap :=
  if m.any (fun e => e.1 == key) then m.map (fun e => if e.1 == key then (key, ci) else e)
  else m ++ [(key, ci)]

/-- The assignment `ci.img = imgs` through the pointer stored under `key`
(mosaic.go:915-919): nothing happens when the key has no entry. -/
def CacheMap.setImg (m : CacheMap) (key : String) (imgs : List Image) : CacheMap :=
  m.map (fun e => if e.1 == key then (e.1, { e.2 with img := imgs }) else e)

/-- The 8-bit colour the code takes from a pixel: each 16-bit channel shifted
right by 8 (mosaic.go:137-138, 780-784); alpha is set to 0. -/
def Color16.toRGBA (c : Color16) : RGBA :=
  ⟨⟨c.r.val / 256, by have := c.r.isLt; omega⟩, ⟨c.g.val / 256, by have := c.g.isLt; omega⟩,
   ⟨c.b.val / 256, by have := c.b.isLt; omega⟩, 0⟩

/-- The cache key of a pixel. -/
def Color16.key (c : Color16) : String :=
  make_string c.toRGBA.R c.toRGBA.G c.toRGBA.B

/-- The statement `pixelnum[key]++` on the map `pixelnum`, kept as its
entries. -/
def incr (pixelnum : List (String × Int)) (key : String) : List (String × Int) :=
  if pixelnum.any (fun e => e.1 == key) then
    pixelnum.map (fun e => if e.1 == key then (e.1, e.2 + 1) else e)
  else pixelnum ++ [(key, 1)]

/-- The map `pixelnum` after the counting loops (mosaic.go:134-142). -/
def countPixels (img : Image) : List (String × Int) :=
  img.pixels.foldl (fun m c => incr m c.key) []

/-- The inner loop of the selection (mosaic.go:148-155): `(maxpixel,
maxpixelnum)` after ranging over the map, in the order of the entries. -/
def maxEntry (pixelnum : List (String × Int)) : String × Int :=
  pixelnum.foldl (fun acc e => if e.2 > acc.2 then (e.1, e.2) else acc) ("", 0)

/-- The statement `pixelnum[maxpixel] = 0` (mosaic.go:165). -/
def setZero (pixelnum : List (String × Int)) (key : String) : List (String × Int) :=
  if pixelnum.any (fun e => e.1 == key) then
    pixelnum.map (fun e => if e.1 == key then (e.1, 0) else e)
  else pixelnum ++ [(key, 0)]

/-- The selection loop `for { ... }` (mosaic.go:147-166), with a bound on the
number of iterations: `none` when the bound is used up before the loop breaks.
The counters `top` and `num` only feed the log. -/
def selectLoop : Nat → List (String × Int) → CacheMap → Option CacheMap
  | 0, _, _ => none
  | fuel + 1, pixelnum, cachemap =>
    let m := maxEntry pixelnum
    if m.2 ≥ 16 then
      selectLoop fuel (setZero pixelnum m.1) (cachemap.Store m.1 { num := m.2, img := [] })
    else
      some cachemap

/-- The cache map `parse_src` returns for the (possibly downscaled) source
image (mosaic.go:127-166): one more iteration than there are colours is
enough for the loop. -/
def parse_src_cache (img : Image) : Option CacheMap :=
  selectLoop ((countPixels img).length + 1) (countPixels img) []

/-! ## Candidate lookup of `gen_target_pixel` (mosaic.go:835-930) -/

/-- The stored records in iteration order, as the scan decodes them
(mosaic.go:859-869): `none` when a value does not decode (the code exits). -/
def decodeAll {V : Type} (env : Env V) : Store V → Option (List FileInfo)
  | [] => some []
  | e :: rest =>
    match env.gobDecode e.2 with
    | none => none
    | some fi => (decodeAll env rest).map (fun l => fi :: l)

/-- The loop over the candidate names (mosaic.go:890-913): open, decode,
`calc_img`, append.  `none` when a file cannot be opened (the code exits) or
does not decode or `calc_img` fails (the function returns). -/
def loadTiles {V : Type} (env : Env V) (pixelsize : Int) : List String → Option (List Image)
  | [] => some []
  | name :: rest =>
    match env.fs name with
    | none => none
    | some bytes =>
      match env.imageDecode bytes with
      | none => none
      | some img =>
        match calc_img env.draw img pixelsize with
        | .error _ => none
        | .ok tile => (loadTiles env pixelsize rest).map (fun l => tile :: l)

/-- What one call of `gen_target_pixel` did up to the choice of the tile: the
cache map afterwards, the candidate list `minimgs` it draws from, whether the
nearest-colour scan ran, which files it opened and decoded, and whether it
counted a cache hit (`cached`). -/
structure PixelResult where
  cachemap : CacheMap
  minimgs : List Image
  scanned : Bool
  decoded : List String
  cachedHit : Bool

/-- Go `gen_target_pixel` up to the choice of the tile (mosaic.go:836-934), run
alone, for the source colour `src`, bucket `b` and cache map `cachemap`.
`none`: the call does not get to draw (exit, early return, or the panic of
`rand.Int31n(0)` on an empty candidate list).  The second test
`len(minimgs) <= 0` (mosaic.go:851) reads the same local as the first and
holds whenever the first does. -/
def gen_target_pixel_lookup {V : Type} (env : Env V) (b : Store V) (pixelsize : Int)
    (src : RGBA) (cachemap : CacheMap) : Option PixelResult :=
  let key := make_string src.R src.G src.B
  let minimgs : List Image :=
    match cachemap.Load key with
    | some ci => ci.img
    | none => []
  if minimgs.length ≤ 0 then
    match decodeAll env b with
    | none => none
    | some records =>
      let mindiffnames := (scan src records).mindiffnames
      match loadTiles env pixelsize mindiffnames with
      | none => none
      | some imgs =>
        if imgs.length = 0 then none
        else
          some { cachemap := cachemap.setImg key imgs, minimgs := imgs, scanned := true,
                 decoded := mindiffnames, cachedHit := false }
  else
    some { cachemap := cachemap, minimgs := minimgs, scanned := false, decoded := [],
           cachedHit := true }

/-- How the loop over the candidate names ends (mosaic.go:890-913): with the
list of prepared tiles, with `os.Exit(1)` when a file cannot be opened
(mosaic.go:892-895), or with `return` when a file does not decode or `calc_img`
fails (mosaic.go:898-910). -/
inductive TileLoad where
  | tiles (imgs : List Image)
  | exit
  | ret

/-- The loop over the candidate names (mosaic.go:890-913) with its three ways
to end told apart; `loadTiles` gives the tiles when the loop runs through. -/
def loadTilesEnd {V : Type} (env : Env V) (pixelsize : Int) : List String → TileLoad
  | [] => .tiles []
  | name :: rest =>
    match env.fs name with
    | none => .exit
    | some bytes =>
      match env.imageDecode bytes with
      | none => .ret
      | some img =>
        match calc_img env.draw img pixelsize with
        | .error _ => .ret
        | .ok tile =>
          match loadTilesEnd env pixelsize rest with
          | .tiles l => .tiles (tile :: l)
          | .exit => .exit
          | .ret => .ret

/-- How one call of `gen_target_pixel` ends: it gets to the choice of the tile
with a non-empty candidate list; it returns early (mosaic.go:898-910), which
ends this job only; it waits for ever at `ci.lock.Lock()` (mosaic.go:848) for a
mutex that an early return left held; or the program ends (`os.Exit(1)`, or
the panic of `rand.Int31n(0)` on an empty candidate list, mosaic.go:934). -/
inductive PixelEnd where
  | drew (r : PixelResult)
  | returned
  | blocked
  | stopped

/-- What calls of `gen_target_pixel` leave behind for later calls: the cache
map, and the keys whose mutex `ci.lock` is held. -/
structure PixelState where
  cachemap : CacheMap
  held : List String

/-- Go `gen_target_pixel` up to the choice of the tile (mosaic.go:836-934) as
one call in a sequence of calls: how the call ends, and the state it leaves.
The mutex is taken only when the key has an entry (mosaic.go:846-849) and is
released after the scan (mosaic.go:924-927); the early returns of
mosaic.go:898-910 skip the release.  The assignment `ci.img = minimgs`
(mosaic.go:915-919) goes through the entry, so it does nothing for a key
without one. -/
def gen_target_pixel_call {V : Type} (env : Env V) (b : Store V) (pixelsize : Int)
    (src : RGBA) (st : PixelState) : PixelEnd × PixelState :=
  let key := make_string src.R src.G src.B
  let entry := st.cachemap.Load key
  let minimgs : List Image :=
    match entry with
    | some ci => ci.img
    | none => []
  if minimgs.length ≤ 0 then
    if entry.isSome = true ∧ key ∈ st.held then (.blocked, st)
    else
      match decodeAll env b with
      | none => (.stopped, st)
      | some records =>
        let mindiffnames := (scan src records).mindiffnames
        match loadTilesEnd env pixelsize mindiffnames with
        | .exit => (.stopped, st)
        | .ret => (.returned, if entry.isSome = true then { st with held := key :: st.held } else st)
        | .tiles imgs =>
          if imgs.length = 0 then
            (.stopped, { st with cachemap := st.cachemap.setImg key imgs })
          else
            (.drew { cachemap := st.cachemap.setImg key imgs, minimgs := imgs, scanned := true,
                     decoded := mindiffnames, cachedHit := false },
             { st with cachemap := st.cachemap.setImg key imgs })
  else
    (.drew { cachemap := st.cachemap, minimgs := minimgs, scanned := false, decoded := [],
             cachedHit := true }, st)

/-- A sequence of calls of `gen_target_pixel`, one after the other: the state
after the last one.  A call that returns early ends only its own job, and a
call that waits for a mutex hangs only its own lane: in both cases the later
calls still run.  `none` when a call ends the program, after which there is no
later call. -/
def runPixels {V : Type} (env : Env V) (b : Store V) (pixelsize : Int) :
    List RGBA → PixelState → Option PixelState
  | [], st => some st
  | src :: rest, st =>
    match gen_target_pixel_call env b pixelsize src st with
    | (.stopped, _) => none
    | (_, st2) => runPixels env b pixelsize rest st2

/-- The bucket of the example library after a scan. -/
def demoScanned : Store (Option FileInfo) :=
  [("/lib/a.png", some ⟨"/lib/a.png", 255, 0, 0, String.mk [Char.ofNat 1]⟩),
   ("/lib/b.png", some ⟨"/lib/b.png", 0, 0, 255, String.mk [Char.ofNat 2]⟩)]

/-- A source image of `w` by `h` pixels of one colour. -/
def uniformSource (w h : Int) (c : Color16) : Image :=
  { Bounds := ⟨0, 0, w, h⟩, At := fun _ _ => c }

/-- The cache map `parse_src` returns for a source with at least 16 red
pixels and no other frequent colour. -/
def demoCache : CacheMap := [("r 255 g 0 b 0", { num := 16, img := [] })]

/-- The record of the first call of `gen_target_pixel` for red on the example
library with the cache map `demoCache`. -/
def demoFirstCall : PixelResult :=
  { cachemap := [("r 255 g 0 b 0", { num := 16, img := [uniformImage ⟨65535, 0, 0, 65535⟩] })]
    minimgs := [uniformImage ⟨65535, 0, 0, 65535⟩]
    scanned := true
    decoded := ["/lib/a.png"]
    cachedHit := false }

/-- The example environment with one more file, `/lib/bad.png`, that exists
but does not decode as an image. -/
def brokenEnv : Env (Option FileInfo) :=
  { demoEnv with fs := fun p => if p = "/lib/bad.png" then some [3] else demoEnv.fs p }

/-- The bucket of the example library with a record for `/lib/bad.png`, stored
as green when the file was still an image. -/
def brokenScanned : Store (Option FileInfo) :=
  demoScanned ++ [("/lib/bad.png", some ⟨"/lib/bad.png", 0, 255, 0, "x"⟩)]

/-- A cache map with empty entries for red and green. -/
def twoColourCache : CacheMap :=
  [("r 255 g 0 b 0", { num := 16, img := [] }), ("r 0 g 255 b 0", { num := 20, img := [] })]

/-- The record of a call of `gen_target_pixel` for red on the example library
when red has no cache entry. -/
def demoRareCall : PixelResult :=
  { cachemap := []
    minimgs := [uniformImage ⟨65535, 0, 0, 65535⟩]
    scanned := true
    decoded := ["/lib/a.png"]
    cachedHit := false }

/-- The record of the first call of `gen_target_pixel` for red on the library
of `brokenEnv` with the cache map `twoColourCache`. -/
def brokenFirstCall : PixelResult :=
  { cachemap := [("r 255 g 0 b 0", { num := 16, img := [uniformImage ⟨65535, 0, 0, 65535⟩] }),
                 ("r 0 g 255 b 0", { num := 20, img := [] })]
    minimgs := [uniformImage ⟨65535, 0, 0, 65535⟩]
    scanned := true
    decoded := ["/lib/a.png"]
    cachedHit := false }

/-! ## Composition: the jobs of `gen_target` and the blit of `gen_target_pixel`
(mosaic.go:738-790, 932-946) -/

/-- Go `type GenInfo struct` (mosaic.go:765-769). -/
structure GenInfo where
  x : Int
  y : Int
  c : RGBA
deriving DecidableEq, Repr

/-- The block coordinates in the order of the two nested loops of `gen_target`
(mosaic.go:778-779): `y` from `starty` to `endy`, `x` from `startx` to `endx`,
where `(startx, starty) = bounds.Min` and `(endx, endy) = bounds.Max`. -/
def blocks (bounds : Rectangle) : List (Int × Int) :=
  (List.range bounds.Dy.toNat).flatMap fun (j : Nat) =>
    (List.range bounds.Dx.toNat).map fun (i : Nat) =>
      (bounds.MinX + (i : Int), bounds.MinY + (j : Int))

/-- The jobs `gen_target` submits (mosaic.go:778-789), in submission order.  The
inner `for` repeats `AddJobTimeout` until it returns `true`, so every block is
queued exactly once. -/
def gen_target_jobs (srcimg : Image) : List GenInfo :=
  (blocks srcimg.Bounds).map fun p => ⟨p.1, p.2, (srcimg.At p.1 p.2).toRGBA⟩

/-- The canvas `dst` (mosaic.go:763): `image.Rectangle{(0,0),(lenx,leny)}`. -/
def canvasRect (lenx leny : Int) : Rectangle := ⟨0, 0, lenx, leny⟩

/-- The rectangle that
`draw.Copy(dst, image.Point{x * pixelsize, y * pixelsize}, minimg, minimg.Bounds(), draw.Over, nil)`
(mosaic.go:946) addresses in `dst`, before `draw.Copy` clips it to the bounds
of `dst`: the bounds of the tile moved to the destination point. -/
def drawRect (x y pixelsize : Int) (tile : Rectangle) : Rectangle :=
  ⟨x * pixelsize, y * pixelsize, x * pixelsize + tile.Dx, y * pixelsize + tile.Dy⟩

/-- A pixel lies in a rectangle. -/
def Rectangle.has (r : Rectangle) (px py : Int) : Prop :=
  r.MinX ≤ px ∧ px < r.MaxX ∧ r.MinY ≤ py ∧ py < r.MaxY

instance (r : Rectangle) (px py : Int) : Decidable (r.has px py) := by
  unfold Rectangle.has
  infer_instance

/-- The relation `Rectangle.In`: every pixel of `r` is a pixel of `s` (`r` not
empty). -/
def Rectangle.inside (r s : Rectangle) : Prop :=
  s.MinX ≤ r.MinX ∧ r.MaxX ≤ s.MaxX ∧ s.MinY ≤ r.MinY ∧ r.MaxY ≤ s.MaxY

instance (r s : Rectangle) : Decidable (r.inside s) := by
  unfold Rectangle.inside
  infer_instance

/-- The canvas pixels a job writes: those of its destination rectangle that
are on the canvas (`draw.Copy` clips to the bounds of `dst`). -/
def written (canvas : Rectangle) (pixelsize : Int) (tile : Rectangle) (g : GenInfo)
    (px py : Int) : Prop :=
  canvas.has px py ∧ (drawRect g.x g.y pixelsize tile).has px py

instance (canvas : Rectangle) (pixelsize : Int) (tile : Rectangle) (g : GenInfo) (px py : Int) :
    Decidable (written canvas pixelsize tile g px py) := by
  unfold written
  infer_instance

/-- A 1 by 1 source image whose bounds start at `(1, 0)`, as `image.Decode`
returns it for a GIF whose first frame sits at offset `left = 1` of a 2 by 1
logical screen. -/
def offsetSource : Image :=
  { Bounds := ⟨1, 0, 2, 1⟩, At := fun _ _ => ⟨65535, 0, 0, 65535⟩ }

/-- The 8-bit red value the loop adds for a pixel (`r >> 8`). -/
def Color16.R8 (c : Color16) : Nat := c.r.val / 256

/-- The 8-bit green value the loop adds for a pixel (`g >> 8`). -/
def Color16.G8 (c : Color16) : Nat := c.g.val / 256

/-- The 8-bit blue value the loop adds for a pixel (`b >> 8`). -/
def Color16.B8 (c : Color16) : Nat := c.b.val / 256

/-- A prepared 2 by 2 tile, all red. -/
def redTile : Image := uniformImage ⟨65535, 0, 0, 65535⟩

/-! ## A tile beyond the exact range of the float64 sums -/

/-- A black pixel. -/
def blackPixel : Color16 := ⟨0, 0, 0, 65535⟩

/-- A white pixel. -/
def whitePixel : Color16 := ⟨65535, 65535, 65535, 65535⟩

/-- The `t` by `t` image whose first row is black and whose other rows are
white. -/
def stripedImage (t : Nat) : Image :=
  { Bounds := ⟨0, 0, t, t⟩, At := fun _ y => if y = 0 then blackPixel else whitePixel }

/-- A prepared tile of 5 944 000 by 5 944 000 pixels (just over `2 ^ 45`
pixels): first row black, the rest white. -/
def stripedTile : Image := stripedImage 5944000

/-! ## Concurrent callers of `gen_target_pixel` (mosaic.go:836-934)

Several goroutines run `gen_target_pixel` for the same source colour.  Each
caller is a small state machine over its program points; the cache map and the
mutex of the cache entry are shared.  An execution is an interleaving of the
callers' steps. -/

/-- The program points of one caller of `gen_target_pixel`: before the first
`cachemap.Load` (mosaic.go:838-843), before `ci.lock.Lock()` (mosaic.go:846-849),
before the second test of `len(minimgs)` (mosaic.go:851), before
`ci.lock.Unlock()` (mosaic.go:924-927), before the choice of the tile
(mosaic.go:934), after it, and stopped without drawing. -/
inductive PixelPC where
  | start
  | locking
  | recheck
  | unlocking
  | picking
  | finished
  | aborted
deriving DecidableEq, Repr

/-- The locals of one caller: the program point, `ok` and `minimgs` as read at
the first `Load`, and what the caller did (whether it ran the nearest-colour
scan, which files it decoded, whether it counted a cache hit). -/
structure PixelCaller where
  pc : PixelPC
  ok : Bool
  minimgs : List Image
  scanned : Bool
  decoded : List String
  cachedHit : Bool

/-- What the callers for one colour share: the cache map and whether the mutex
`ci.lock` of the entry of that colour is held. -/
structure PixelShared where
  cachemap : CacheMap
  locked : Bool

/-- A caller that has not started. -/
def PixelCaller.init : PixelCaller :=
  { pc := .start, ok := false, minimgs := [], scanned := false, decoded := [],
    cachedHit := false }

/-- One step of one caller of `gen_target_pixel` for the colour `src`; `none`
when the caller cannot move (it waits for the mutex, or it is done).

* `start` (mosaic.go:838-845): `Load`, copy `ci.img` into the local `minimgs`,
  first test of `len(minimgs)`.
* `locking` (mosaic.go:846-849): `ci.lock.Lock()`, possible when the mutex is
  free.
* `recheck` (mosaic.go:851-922): the second test reads the local `minimgs`; when
  it is empty the caller scans, decodes and scales, and assigns the list to
  `ci.img` through a fresh `Load`.
* `unlocking` (mosaic.go:924-927): `ci.lock.Unlock()`.
* `picking` (mosaic.go:934): `rand.Int31n(len(minimgs))`, which panics on an
  empty list. -/
def pixelStep {V : Type} (env : Env V) (b : Store V) (pixelsize : Int) (src : RGBA)
    (sh : PixelShared) (c : PixelCaller) : Option (PixelShared × PixelCaller) :=
  let key := make_string src.R src.G src.B
  match c.pc with
  | .start =>
    match sh.cachemap.Load key with
    | some ci =>
      if ci.img.length ≤ 0 then
        some (sh, { c with pc := .locking, ok := true, minimgs := ci.img })
      else
        some (sh, { c with pc := .picking, ok := true, minimgs := ci.img, cachedHit := true })
    | none => some (sh, { c with pc := .recheck, ok := false, minimgs := [] })
  | .locking =>
    if sh.locked then none
    else some ({ sh with locked := true }, { c with pc := .recheck })
  | .recheck =>
    if c.minimgs.length ≤ 0 then
      match decodeAll env b with
      | none => some (sh, { c with pc := .aborted, scanned := true })
      | some records =>
        let mindiffnames := (scan src records).mindiffnames
        match loadTiles env pixelsize mindiffnames with
        | none => some (sh, { c with pc := .aborted, scanned := true, decoded := mindiffnames })
        | some imgs =>
          some ({ sh with cachemap := sh.cachemap.setImg key imgs },
                { c with pc := .unlocking, minimgs := imgs, scanned := true,
                         decoded := mindiffnames })
    else
      some (sh, { c with pc := .unlocking, cachedHit := true })
  | .unlocking =>
    if c.ok then some ({ sh with locked := false }, { c with pc := .picking })
    else some (sh, { c with pc := .picking })
  | .picking =>
    if c.minimgs.length = 0 then some (sh, { c with pc := .aborted })
    else some (sh, { c with pc := .finished })
  | .finished => none
  | .aborted => none

/-- The shared state and the callers. -/
structure PixelRun where
  shared : PixelShared
  callers : List PixelCaller

/-- An interleaving: the schedule names, step by step, the caller that moves.
`none` when the named caller does not exist or cannot move. -/
def runSchedule {V : Type} (env : Env V) (b : Store V) (pixelsize : Int) (src : RGBA) :
    List Nat → PixelRun → Option PixelRun
  | [], st => some st
  | i :: rest, st =>
    match st.callers[i]? with
    | none => none
    | some c =>
      match pixelStep env b pixelsize src st.shared c with
      | none => none
      | some (sh, c2) =>
        runSchedule env b pixelsize src rest { shared := sh, callers := st.callers.set i c2 }

/-- The start of a run with `n` callers, all first-time callers of one colour. -/
def PixelRun.init (cachemap : CacheMap) (n : Nat) : PixelRun :=
  { shared := { cachemap := cachemap, locked := false },
    callers := List.replicate n PixelCaller.init }

/-- What can be observed of a run: for every caller whether it finished and
whether it ran the scan, and the length of the list the cache entry of the key
holds. -/
def PixelRun.observe (st : PixelRun) (key : String) : List (Bool × Bool) × Option Nat :=
  (st.callers.map (fun c => (decide (c.pc = .finished), c.scanned)),
   (st.shared.cachemap.Load key).map (fun ci => ci.img.length))

/-- The local list of a caller that has not passed the second test is empty:
the first `Load` only lets a caller go on to the mutex when the list it read
was empty, and nothing assigns the local before the second test. -/
def PixelCaller.stale (c : PixelCaller) : Prop :=
  (c.pc = .start ∨ c.pc = .locking ∨ c.pc = .recheck) → c.minimgs = []

/-! ## The worker pool (mosaic.go:995-1084)

`ThreadPool` owns `max` lanes; lane `index` is a goroutine `run(index)` that
serves its own buffered channel `ca[index]` and the shared channel `control`.
An execution is an interleaving of the submitting goroutine (`AddJob`,
`AddJobTimeout`, then `Stop`) with the lanes. -/

/-- Where the goroutine `run(index)` is (mosaic.go:1057-1070): created by
`go tp.run(index)` but not yet running, at the `select`, inside `tp.exef(v)`,
or returned. -/
inductive LaneStatus where
  | spawned
  | idle
  | busy
  | exited
deriving DecidableEq, Repr

/-- One lane: the jobs waiting in `ca[index]` (oldest first), the counters
`stat.Pushnum[index]` and `stat.Processnum[index]`, and the state of the
goroutine.  Jobs are numbered; what `exef` does with a job is not modelled. -/
structure Lane where
  queue : List Nat
  Pushnum : Nat
  Processnum : Nat
  status : LaneStatus
deriving DecidableEq, Repr

/-- The pool: the lanes, the capacity `buffer` of every `ca[index]`, the number
of tokens waiting in `control`, the counter of the wait group
`workResultLock`, the number of tokens `Stop` has sent, and whether `Stop` has
returned.  `max` is the number of lanes. -/
structure ThreadPool where
  lanes : List Lane
  buffer : Nat
  control : Nat
  workResultLock : Nat
  sent : Nat
  stopped : Bool
deriving DecidableEq, Repr

/-- Go `NewThreadPool(max, buffer, exef)` (mosaic.go:1010-1029): `max` empty
channels of capacity `buffer`, zeroed counters, an empty `control`, and one
goroutine created per lane. -/
def NewThreadPool (max buffer : Nat) : ThreadPool :=
  { lanes := List.replicate max { queue := [], Pushnum := 0, Processnum := 0, status := .spawned },
    buffer := buffer, control := 0, workResultLock := 0, sent := 0, stopped := false }

/-- The steps of an execution.

* `start i`: the goroutine of lane `i` begins and runs `workResultLock.Add(1)`
  (mosaic.go:1058).
* `push i v`: `AddJob` or `AddJobTimeout` delivers job `v` to lane `i` and
  counts it (mosaic.go:1035-1038, 1040-1048); `i` is `absInt(hash) % len(tp.ca)`.
* `recv i`: the `select` of lane `i` takes `v := <-tp.ca[index]`
  (mosaic.go:1065).
* `done i`: `tp.exef(v)` returns and `Processnum[index]++` runs
  (mosaic.go:1066-1067).
* `quit i`: the `select` of lane `i` takes `<-tp.control` and the goroutine
  returns, running the deferred `Done()` (mosaic.go:1063-1064).
* `token`: one iteration of the loop of `Stop`, `tp.control <- i`
  (mosaic.go:1051-1053).
* `wait`: `workResultLock.Wait()` returns and with it `Stop`
  (mosaic.go:1054). -/
inductive PoolEvent where
  | start (i : Nat)
  | push (i : Nat) (v : Nat)
  | recv (i : Nat)
  | done (i : Nat)
  | quit (i : Nat)
  | token
  | wait
deriving DecidableEq, Repr

/-- Whether the event is a submission. -/
def PoolEvent.isPush : PoolEvent → Bool
  | .push _ _ => true
  | _ => false

/-- One step of the pool; `none` when the step cannot happen in the state.

A send on `ca[i]` succeeds when the channel has room; on an unbuffered channel
it succeeds when the lane waits at its `select`, and the lane then holds the
job.  A `select` with both a token and a job ready may take either
(mosaic.go:1062-1068), so `recv i` and `quit i` can both be possible.
`Wait()` returns when the counter of the wait group is zero. -/
def ThreadPool.step (tp : ThreadPool) : PoolEvent → Option ThreadPool
  | .start i =>
    match tp.lanes[i]? with
    | some l =>
      if l.status = .spawned then
        some { tp with lanes := tp.lanes.set i { l with status := .idle },
                       workResultLock := tp.workResultLock + 1 }
      else none
    | none => none
  | .push i v =>
    match tp.lanes[i]? with
    | some l =>
      if l.queue.length < tp.buffer then
        some { tp with
          lanes := tp.lanes.set i { l with queue := l.queue ++ [v], Pushnum := l.Pushnum + 1 } }
      else if tp.buffer = 0 ∧ l.status = .idle then
        some { tp with
          lanes := tp.lanes.set i { l with status := .busy, Pushnum := l.Pushnum + 1 } }
      else none
    | none => none
  | .recv i =>
    match tp.lanes[i]? with
    | some l =>
      if l.status = .idle then
        match l.queue with
        | _ :: rest =>
          some { tp with lanes := tp.lanes.set i { l with queue := rest, status := .busy } }
        | [] => none
      else none
    | none => none
  | .done i =>
    match tp.lanes[i]? with
    | some l =>
      if l.status = .busy then
        some { tp with
          lanes := tp.lanes.set i { l with status := .idle, Processnum := l.Processnum + 1 } }
      else none
    | none => none
  | .quit i =>
    match tp.lanes[i]? with
    | some l =>
      if l.status = .idle ∧ 0 < tp.control then
        some { tp with lanes := tp.lanes.set i { l with status := .exited },
                       control := tp.control - 1,
                       workResultLock := tp.workResultLock - 1 }
      else none
    | none => none
  | .token =>
    if tp.sent < tp.lanes.length ∧ tp.stopped = false then
      some { tp with control := tp.control + 1, sent := tp.sent + 1 }
    else none
  | .wait =>
    if tp.sent = tp.lanes.length ∧ tp.workResultLock = 0 ∧ tp.stopped = false then
      some { tp with stopped := true }
    else none

/-- An execution: the events in order, `none` when one of them cannot happen. -/
def ThreadPool.runEvents : List PoolEvent → ThreadPool → Option ThreadPool
  | [], tp => some tp
  | e :: rest, tp =>
    match tp.step e with
    | some tp2 => ThreadPool.runEvents rest tp2
    | none => none

/-- The number of jobs a lane holds outside its queue: one while it is inside
`exef`. -/
def Lane.inFlight (l : Lane) : Nat := if l.status = .busy then 1 else 0

/-- Every job delivered to the lane has been executed: the queue is empty and
the lane is not inside `exef`. -/
def Lane.drained (l : Lane) : Prop := l.queue = [] ∧ l.status ≠ .busy

instance (l : Lane) : Decidable l.drained := by unfold Lane.drained; infer_instance

/-- The counters of a lane account for every job delivered to it: each is
executed, waiting in the queue, or being executed. -/
def Lane.counted (l : Lane) : Prop :=
  l.Pushnum = l.Processnum + l.queue.length + l.inFlight

instance (l : Lane) : Decidable l.counted := by unfold Lane.counted; infer_instance


/-- The number a list of decimal digits stands for, read from the left. -/
def digitsValue (l : List Char) : Nat :=
  l.foldl (fun a c => 10 * a + (c.toNat - 48)) 0


/-- The read `pixelnum[key]` of a Go map: the stored count, 0 for a key that
is not in the map. -/
def getCount (pixelnum : List (String × Int)) (key : String) : Int :=
  match pixelnum.find? (fun e => e.1 == key) with
  | some e => e.2
  | none => 0

/-- The number of pixels of the image whose cache key is `key`. -/
def keyCount (img : Image) (key : String) : Int :=
  (img.pixels.countP (fun c => c.key == key) : Nat)

/-- The number of pixels of the image whose 8-bit channels are `r`, `g`, `b`. -/
def colourCount (img : Image) (r g b : uint8) : Int :=
  (img.pixels.countP
    (fun c => decide (c.toRGBA.R = r ∧ c.toRGBA.G = g ∧ c.toRGBA.B = b)) : Nat)

/-- The selection loop `for { ... }` (mosaic.go:147-166) for any iteration order
of `for k, v := range pixelnum`: Go leaves the order of a map range open, so
the pass with `fuel` iterations left visits the entries in the order
`order fuel pixelnum`, some arrangement of the entries.  `selectLoop` is the
instance that visits them as they are listed. -/
def selectLoopWith (order : Nat → List (String × Int) → List (String × Int)) :
    Nat → List (String × Int) → CacheMap → Option CacheMap
  | 0, _, _ => none
  | fuel + 1, pixelnum, cachemap =>
    let m := maxEntry (order fuel pixelnum)
    if m.2 ≥ 16 then
      selectLoopWith order fuel (setZero pixelnum m.1)
        (cachemap.Store m.1 { num := m.2, img := [] })
    else
      some cachemap

/-- The cache map `parse_src` returns (mosaic.go:127-166) for any iteration
order of the map ranges. -/
def parse_src_cacheWith (order : Nat → List (String × Int) → List (String × Int))
    (img : Image) : Option CacheMap :=
  selectLoopWith order ((countPixels img).length + 1) (countPixels img) []


/-- An entry of the file list for `/lib/a.png`, not yet fingerprinted. -/
def demoEntry : CalFileInfo :=
  { fi := ⟨"/lib/a.png", 0, 0, 0, ""⟩, ok := false, done := false }

/-! # Theorems -/

/-! ## Nearest-colour scan -/

theorem Sqrt64.lt_def (a b : Sqrt64) : a < b ↔ a.radicand < b.radicand := Iff.rfl

theorem Sqrt64.le_def (a b : Sqrt64) : a ≤ b ↔ a.radicand ≤ b.radicand := Iff.rfl

theorem Sqrt64.le_refl (a : Sqrt64) : a ≤ a := Nat.le_refl _

theorem Sqrt64.not_lt (a b : Sqrt64) : ¬ a < b ↔ b ≤ a := Nat.not_lt

theorem Sqrt64.le_of_lt {a b : Sqrt64} (h : a < b) : a ≤ b := Nat.le_of_lt h

theorem Sqrt64.le_trans {a b c : Sqrt64} (h : a ≤ b) (h2 : b ≤ c) : a ≤ c :=
  Nat.le_trans h h2

theorem Sqrt64.lt_of_lt_of_le {a b c : Sqrt64} (h : a < b) (h2 : b ≤ c) : a < c :=
  Nat.lt_of_lt_of_le h h2

/-- The radicand of a colour distance is at most `3 * 255 ^ 2`. -/
theorem ColorDistance_radicand_le (c1 c2 : RGBA) :
    (ColorDistance c1 c2).radicand ≤ 195075 := by
  obtain ⟨r1, g1, b1, a1⟩ := c1
  obtain ⟨r2, g2, b2, a2⟩ := c2
  simp only [ColorDistance]
  have h1 := r1.isLt
  have h2 := r2.isLt
  have h3 := g1.isLt
  have h4 := g2.isLt
  have h5 := b1.isLt
  have h6 := b2.isLt
  have e1 : ((r1.val : Int) - r2.val) * ((r1.val : Int) - r2.val) ≤ 255 * 255 := by nlinarith
  have e2 : ((g1.val : Int) - g2.val) * ((g1.val : Int) - g2.val) ≤ 255 * 255 := by nlinarith
  have e3 : ((b1.val : Int) - b2.val) * ((b1.val : Int) - b2.val) ≤ 255 * 255 := by nlinarith
  omega

/-- Every colour distance is below `math.MaxFloat64`. -/
theorem ColorDistance_lt_MaxFloat64 (c1 c2 : RGBA) : ColorDistance c1 c2 < MaxFloat64 := by
  have h := ColorDistance_radicand_le c1 c2
  have hbig : (195075 : Nat) < (2 ^ 1024 - 2 ^ 971) ^ 2 := by norm_num
  exact Nat.lt_of_le_of_lt h hbig

/-- Records of the same colour are at the same distance from the source. -/
theorem distTo_eq_of_sameColor (src : RGBA) {m fi : FileInfo} (h : sameColor m fi = true) :
    distTo src m = distTo src fi := by
  simp only [sameColor, decide_eq_true_eq] at h
  simp [distTo, FileInfo.color, h.1, h.2.1, h.2.2]

/-- The scan of a list extended by one record is one more callback. -/
theorem scan_append_singleton (src : RGBA) (l : List FileInfo) (fi : FileInfo) :
    scan src (l ++ [fi]) = scanStep src (scan src l) fi := by
  simp [scan, List.foldl_append]

/-- One callback never empties a non-empty candidate list, and produces a
non-empty one from any state. -/
theorem scanStep_names_ne_nil (src : RGBA) (st : ScanState) (fi : FileInfo)
    (h : st.mindiff = MaxFloat64 ∨ st.mindiffnames ≠ []) :
    (scanStep src st fi).mindiffnames ≠ [] := by
  simp only [scanStep]
  split_ifs with hc hlt
  · simp
  · simp
  · rcases h with h | h
    · exact absurd (h ▸ ColorDistance_lt_MaxFloat64 _ _) hlt
    · exact h

/-- Folding the callback keeps the candidate list non-empty. -/
theorem foldl_scanStep_names_ne_nil (src : RGBA) (l : List FileInfo) (st : ScanState)
    (h : st.mindiffnames ≠ []) : (l.foldl (scanStep src) st).mindiffnames ≠ [] := by
  induction l generalizing st with
  | nil => simpa using h
  | cons a t ih =>
    simp only [List.foldl_cons]
    exact ih _ (scanStep_names_ne_nil src st a (Or.inr h))

/-- The candidate list of the scan is non-empty for every source colour and
every non-empty sequence of stored records (the first half of the nearest-colour
contract, which holds on the code as written). -/
theorem scan_mindiffnames_ne_nil (src : RGBA) (records : List FileInfo)
    (h : records ≠ []) : (scan src records).mindiffnames ≠ [] := by
  cases records with
  | nil => exact absurd rfl h
  | cons a t =>
    simp only [scan, List.foldl_cons]
    exact foldl_scanStep_names_ne_nil src t _
      (scanStep_names_ne_nil src scanInit a (Or.inl rfl))

/-- The callback on the first record, when that record is not black: the
record becomes `minfi`. -/
theorem scanStep_init_of_not_black (src : RGBA) (a : FileInfo)
    (h : sameColor scanInit.minfi a = false) :
    scanStep src scanInit a =
      { mindiff := distTo src a, mindiffnames := [a.Filename], minfi := a } := by
  have hc : ¬ (scanInit.minfi.R = a.R ∧ scanInit.minfi.G = a.G ∧ scanInit.minfi.B = a.B) := by
    simpa [sameColor] using h
  have hlt : ColorDistance src ⟨a.R, a.G, a.B, 0⟩ < scanInit.mindiff :=
    ColorDistance_lt_MaxFloat64 _ _
  simp only [scanStep, if_neg hc, if_pos hlt]
  rfl

/-- The invariant holds after the first record when it is not black. -/
theorem ScanInv_singleton (src : RGBA) (a : FileInfo) :
    ScanInv src [a] { mindiff := distTo src a, mindiffnames := [a.Filename], minfi := a } where
  first := ⟨[], [], rfl, by simp⟩
  dist_eq := rfl
  le := by
    intro r hr
    simp only [List.mem_singleton] at hr
    subst hr
    exact Sqrt64.le_refl _
  names := by simp [sameColor]

/-- One callback preserves the invariant. -/
theorem ScanInv_step (src : RGBA) (seen : List FileInfo) (st : ScanState) (fi : FileInfo)
    (inv : ScanInv src seen st) : ScanInv src (seen ++ [fi]) (scanStep src st fi) := by
  obtain ⟨pre, post, hseen, hpre⟩ := inv.first
  by_cases hc : st.minfi.R = fi.R ∧ st.minfi.G = fi.G ∧ st.minfi.B = fi.B
  · have hs : sameColor st.minfi fi = true := by simpa [sameColor] using hc
    have hstep : scanStep src st fi =
        { st with mindiffnames := st.mindiffnames ++ [fi.Filename] } := by
      simp only [scanStep, if_pos hc]
    rw [hstep]
    refine ⟨⟨pre, post ++ [fi], by simp [hseen], hpre⟩, inv.dist_eq, ?_, ?_⟩
    · intro r hr
      rcases List.mem_append.1 hr with h | h
      · exact inv.le r h
      · simp only [List.mem_singleton] at h
        subst h
        show st.mindiff ≤ distTo src r
        rw [inv.dist_eq, distTo_eq_of_sameColor src hs]
        exact Sqrt64.le_refl _
    · show st.mindiffnames ++ [fi.Filename] = _
      rw [inv.names, List.filter_append]
      simp [hs]
  · have hs : sameColor st.minfi fi = false := by simpa [sameColor] using hc
    by_cases hlt : ColorDistance src ⟨fi.R, fi.G, fi.B, 0⟩ < st.mindiff
    · have hstep : scanStep src st fi =
          { mindiff := distTo src fi, mindiffnames := [fi.Filename], minfi := fi } := by
        simp only [scanStep, if_neg hc, if_pos hlt]
        rfl
      rw [hstep]
      have hlt2 : distTo src fi < st.mindiff := hlt
      refine ⟨⟨seen, [], rfl, ?_⟩, rfl, ?_, ?_⟩
      · intro r hr
        exact Sqrt64.lt_of_lt_of_le hlt2 (inv.le r hr)
      · intro r hr
        rcases List.mem_append.1 hr with h | h
        · exact Sqrt64.le_of_lt (Sqrt64.lt_of_lt_of_le hlt2 (inv.le r h))
        · simp only [List.mem_singleton] at h
          subst h
          exact Sqrt64.le_refl _
      · show [fi.Filename] = _
        have hnone : seen.filter (sameColor fi) = [] := by
          rw [List.filter_eq_nil_iff]
          intro r hr hsame
          have h1 := inv.le r hr
          rw [← distTo_eq_of_sameColor src hsame] at h1
          exact absurd hlt2 ((Sqrt64.not_lt _ _).2 h1)
        rw [List.filter_append, hnone]
        simp [sameColor]
    · have hstep : scanStep src st fi = st := by
        simp only [scanStep, if_neg hc, if_neg hlt]
      rw [hstep]
      refine ⟨⟨pre, post ++ [fi], by simp [hseen], hpre⟩, inv.dist_eq, ?_, ?_⟩
      · intro r hr
        rcases List.mem_append.1 hr with h | h
        · exact inv.le r h
        · simp only [List.mem_singleton] at h
          subst h
          exact (Sqrt64.not_lt _ _).1 hlt
      · rw [inv.names, List.filter_append]
        simp [hs]

/-- Folding the callback over further records preserves the invariant. -/
theorem ScanInv_foldl (src : RGBA) (l seen : List FileInfo) (st : ScanState)
    (inv : ScanInv src seen st) : ScanInv src (seen ++ l) (l.foldl (scanStep src) st) := by
  induction l generalizing seen st with
  | nil => simpa using inv
  | cons a t ih =>
    have h := ih (seen ++ [a]) (scanStep src st a) (ScanInv_step src seen st a inv)
    simpa using h

/-- When the first record in scan order is not black, the scan ends in a
state that satisfies the invariant for the whole sequence. -/
theorem scan_inv_of_first_not_black (src : RGBA) (a : FileInfo) (t : List FileInfo)
    (h : sameColor scanInit.minfi a = false) : ScanInv src (a :: t) (scan src (a :: t)) := by
  have h1 := ScanInv_foldl src t [a] _ (ScanInv_singleton src a)
  simp only [scan, List.foldl_cons]
  rw [scanStep_init_of_not_black src a h]
  simpa using h1

/-- Nearest-colour contract on the scan when the first record in scan order is
not black: the best distance is at most the distance to every stored record. -/
theorem scan_mindiff_le_of_first_not_black (src : RGBA) (a : FileInfo) (t : List FileInfo)
    (h : sameColor scanInit.minfi a = false) :
    ∀ r ∈ a :: t, (scan src (a :: t)).mindiff ≤ distTo src r :=
  (scan_inv_of_first_not_black src a t h).le

/-- The middle element of a split list is a member of the list. -/
theorem mem_of_split {α : Type} (l pre post : List α) (m : α)
    (hl : l = pre ++ m :: post) : m ∈ l := by
  subst hl
  simp

/-- The first element satisfying a test, when the list splits into a prefix on
which the test fails and an element on which it holds. -/
theorem find?_of_split {α : Type} (P : α → Bool) (l pre post : List α) (m : α)
    (hl : l = pre ++ m :: post)
    (hpre : ∀ r ∈ pre, P r = false) (hm : P m = true) :
    l.find? P = some m := by
  subst hl
  induction pre with
  | nil => simp [hm]
  | cons x xs ih =>
    have hx : P x = false := hpre x (List.mem_cons_self _ _)
    have hxs : ∀ r ∈ xs, P r = false := fun r hr => hpre r (List.mem_cons_of_mem _ hr)
    simp [List.find?_cons, hx, ih hxs]

/-- Tie handling on the scan when the first record in scan order is not
black: the candidate list is the list the specification describes. -/
theorem scan_names_eq_nearestSpec_of_first_not_black (src : RGBA) (a : FileInfo)
    (t : List FileInfo) (h : sameColor scanInit.minfi a = false) :
    (scan src (a :: t)).mindiffnames = nearestSpec src (a :: t) := by
  have inv := scan_inv_of_first_not_black src a t h
  obtain ⟨pre, post, hseen, hpre⟩ := inv.first
  have hm : (scan src (a :: t)).minfi ∈ a :: t :=
    mem_of_split (a :: t) pre post _ hseen
  have hfind := find?_of_split
      (fun r => (a :: t).all (fun q => decide (distTo src r ≤ distTo src q)))
      (a :: t) pre post (scan src (a :: t)).minfi hseen
      (by
        intro r hr
        rw [Bool.eq_false_iff]
        intro hall
        rw [List.all_eq_true] at hall
        have h1 := hall _ hm
        simp only [decide_eq_true_eq] at h1
        have h2 := hpre r hr
        rw [inv.dist_eq] at h2
        exact absurd h2 ((Sqrt64.not_lt _ _).2 h1))
      (by
        rw [List.all_eq_true]
        intro q hq
        simp only [decide_eq_true_eq]
        rw [← inv.dist_eq]
        exact inv.le q hq)
  unfold nearestSpec
  rw [hfind]
  exact inv.names

set_option exponentiation.threshold 2048 in
/-- C1 (fails on the code): on the library `blackFirstLibrary`, whose first
record in scan order is black, and the black source colour, the scan returns the
candidate `/lib/c.png` with best distance `sqrt 30000`, although the stored
record `/lib/a.png` is at distance `0`: the returned best distance is not at
most the distance to every stored record. -/
theorem scan_black_first_mindiff_not_le :
    (scan ⟨0, 0, 0, 0⟩ blackFirstLibrary).mindiff = ⟨30000⟩ ∧
    (scan ⟨0, 0, 0, 0⟩ blackFirstLibrary).mindiffnames = ["/lib/c.png"] ∧
    distTo ⟨0, 0, 0, 0⟩ ⟨"/lib/a.png", 0, 0, 0, "1"⟩ = ⟨0⟩ ∧
    ¬ (∀ r ∈ blackFirstLibrary,
        (scan ⟨0, 0, 0, 0⟩ blackFirstLibrary).mindiff ≤ distTo ⟨0, 0, 0, 0⟩ r) := by
  decide

set_option exponentiation.threshold 2048 in
/-- C2 (fails on the code): on the library `blackFirstLibrary` and the black
source colour the first record attaining the minimum distance is the black
record `/lib/a.png`, so the specified candidate list is `["/lib/a.png"]`; the
scan returns `["/lib/c.png"]`, a record of another colour, and drops the
black one. -/
theorem scan_black_first_names_ne_nearestSpec :
    nearestSpec ⟨0, 0, 0, 0⟩ blackFirstLibrary = ["/lib/a.png"] ∧
    (scan ⟨0, 0, 0, 0⟩ blackFirstLibrary).mindiffnames = ["/lib/c.png"] ∧
    (scan ⟨0, 0, 0, 0⟩ blackFirstLibrary).mindiffnames
      ≠ nearestSpec ⟨0, 0, 0, 0⟩ blackFirstLibrary := by
  decide

/-! ## Lane routing -/

/-- Below `2 ^ 53` the conversion to float64 is exact. -/
theorem f64round_of_lt {x : Nat} (h : x < 2 ^ 53) : f64round x = x := by
  unfold f64round
  exact if_pos h

/-- From `2 ^ 53` on the conversion rounds to a multiple of the spacing. -/
theorem f64round_of_ge {x : Nat} (h : ¬ x < 2 ^ 53) :
    f64round x = roundHalfEven x (2 ^ (Nat.log2 x - 52)) * 2 ^ (Nat.log2 x - 52) := by
  unfold f64round
  exact if_neg h

/-- The definition of `roundHalfEven`, unfolded. -/
theorem roundHalfEven_eq (n d : Nat) : roundHalfEven n d =
    if 2 * (n % d) < d then n / d
    else if d < 2 * (n % d) then n / d + 1
    else if n / d % 2 = 0 then n / d
    else n / d + 1 := rfl

/-- For routing keys of magnitude below `2 ^ 53` the selected lane is
`abs(hash) mod n` with the exact absolute value, and lies in `[0, n)`. -/
theorem laneIndex_of_small (ovf hash : Int) (n : Nat) (hn : 0 < n)
    (h : hash.natAbs < 2 ^ 53) :
    laneIndex ovf hash n = ((hash.natAbs % n : Nat) : Int) ∧
      0 ≤ laneIndex ovf hash n ∧ laneIndex ovf hash n < n := by
  have h63 : hash.natAbs < 2 ^ 63 := lt_trans h (by norm_num)
  have e : laneIndex ovf hash n = ((hash.natAbs % n : Nat) : Int) := by
    simp only [laneIndex, absInt, f64round_of_lt h, if_pos h63]
    rw [Int.tmod_eq_emod (Int.natCast_nonneg _) (Int.natCast_nonneg _)]
    norm_cast
  refine ⟨e, ?_, ?_⟩
  · rw [e]; exact Int.natCast_nonneg _
  · rw [e]; exact_mod_cast Nat.mod_lt _ hn

/-- The value of `Nat.log2` from the two powers of two around the argument. -/
theorem log2_eq_of_bounds {x k : Nat} (h1 : 2 ^ k ≤ x) (h2 : x < 2 ^ (k + 1)) :
    Nat.log2 x = k := by
  have hx : x ≠ 0 := by
    have : 0 < 2 ^ k := Nat.two_pow_pos k
    omega
  have hle : Nat.log2 x < k + 1 := (Nat.log2_lt hx).2 h2
  have hge : ¬ Nat.log2 x < k := fun hlt => by
    have := (Nat.log2_lt hx).1 hlt
    omega
  omega

/-- The float64 nearest to `2 ^ 53 + 1` is `2 ^ 53` (a tie, resolved to the even
significand). -/
theorem f64round_two_pow_53_add_one : f64round (2 ^ 53 + 1) = 2 ^ 53 := by
  have hl : Nat.log2 (2 ^ 53 + 1) = 53 := log2_eq_of_bounds (by norm_num) (by norm_num)
  rw [f64round_of_ge (by norm_num), hl, roundHalfEven_eq]
  norm_num

/-- The float64 nearest to `2 ^ 63 - 1` is `2 ^ 63`. -/
theorem f64round_two_pow_63_sub_one : f64round (2 ^ 63 - 1) = 2 ^ 63 := by
  have hl : Nat.log2 (2 ^ 63 - 1) = 62 := log2_eq_of_bounds (by norm_num) (by norm_num)
  rw [f64round_of_ge (by norm_num), hl, roundHalfEven_eq]
  norm_num

/-- C3 (fails on the code): `absInt` goes through float64, which has 53
significant bits.  For the routing key `2 ^ 53 + 1` and two lanes the exact rule
`abs(key) mod n` gives lane 1, the code selects lane 0 (whatever the
implementation does on overflow); for the key `2 ^ 63 - 1`, the largest value
of `rand.Int()`, `float64` rounds to `2 ^ 63`, the conversion back to `int`
overflows, and with the amd64 result `-2 ^ 63` and twelve lanes the index is
`-8`, outside `[0, 12)`. -/
theorem laneIndex_large_key (ovf : Int) :
    laneIndex ovf (2 ^ 53 + 1) 2 = 0 ∧ (2 ^ 53 + 1 : Int).natAbs % 2 = 1 ∧
    laneIndex (-2 ^ 63) (2 ^ 63 - 1) 12 = -8 ∧ (2 ^ 63 - 1 : Int).natAbs % 12 = 7 := by
  have e1 : (2 ^ 53 + 1 : Int).natAbs = 2 ^ 53 + 1 := by decide
  have e2 : (2 ^ 63 - 1 : Int).natAbs = 2 ^ 63 - 1 := by decide
  refine ⟨?_, ?_, ?_, ?_⟩
  · simp only [laneIndex, absInt, e1, f64round_two_pow_53_add_one]
    norm_num
    decide
  · decide
  · simp only [laneIndex, absInt, e2, f64round_two_pow_63_sub_one]
    norm_num
    decide
  · decide

/-! ## Output size cap -/

/-- A value inside the 64-bit range is kept by `wrap64`. -/
theorem wrap64_of_range {x : Int} (h0 : -2 ^ 63 ≤ x) (h1 : x < 2 ^ 63) : wrap64 x = x := by
  unfold wrap64
  omega

/-- Without overflow `outputfilesize` is the byte size in whole GB, rounded
down. -/
theorem outputfilesize_eq {lenx leny : Int} (h0 : 0 ≤ lenx * leny)
    (h1 : lenx * leny * 4 < 2 ^ 63) :
    outputfilesize lenx leny = lenx * leny * 4 / 2 ^ 30 := by
  unfold outputfilesize
  generalize lenx * leny = p at h0 h1
  have e1 : wrap64 p = p := wrap64_of_range (by omega) (by omega)
  have e2 : wrap64 (p * 4) = p * 4 := wrap64_of_range (by omega) (by omega)
  rw [e1, e2]
  have t1 : Int.tdiv (p * 4) 1024 = p * 4 / 1024 := Int.tdiv_eq_ediv (by omega) (by decide)
  have t2 : Int.tdiv (p * 4 / 1024) 1024 = p * 4 / 1024 / 1024 :=
    Int.tdiv_eq_ediv (by omega) (by decide)
  have t3 : Int.tdiv (p * 4 / 1024 / 1024) 1024 = p * 4 / 1024 / 1024 / 1024 :=
    Int.tdiv_eq_ediv (by omega) (by decide)
  rw [t1, t2, t3]
  omega

/-- C4, counterexample: a 128 x 128 source with tile size 257 and the default
cap of 4 GB has a canvas of 4 328 587 264 bytes, more than `4 * 2 ^ 30`, and is
accepted (only whole GB are compared). -/
theorem gen_target_canvas_accepts_over_cap :
    (4 : Int) * 2 ^ 30 < (128 * 257) * (128 * 257) * 4 ∧
    gen_target_canvas 128 128 257 4 = .ok (32896, 32896) := by
  decide

/-- C4, amended: when the byte size `(W*t) * (H*t) * 4` does not overflow the
64-bit `int`, `gen_target` rejects the run with "too big" exactly when the byte
size in whole GB (rounded down) exceeds `maxsize`, that is when the byte size
is at least `(maxsize + 1) * 2 ^ 30`; otherwise it goes on to allocate the
canvas of size `(W*t, H*t)`. -/
theorem gen_target_canvas_too_big_iff (W H t maxsize : Int) (hW : 1 ≤ W) (hH : 1 ≤ H)
    (ht : 1 ≤ t) (hno : (W * t) * (H * t) * 4 < 2 ^ 63) :
    (gen_target_canvas W H t maxsize = .error "too big" ↔
        (maxsize + 1) * 2 ^ 30 ≤ (W * t) * (H * t) * 4) ∧
    (gen_target_canvas W H t maxsize = .ok (W * t, H * t) ↔
        (W * t) * (H * t) * 4 < (maxsize + 1) * 2 ^ 30) := by
  have hx : 1 ≤ W * t := by nlinarith
  have hy : 1 ≤ H * t := by nlinarith
  have hxy : 0 ≤ (W * t) * (H * t) := by nlinarith
  have hx2 : W * t < 2 ^ 63 := by nlinarith
  have hy2 : H * t < 2 ^ 63 := by nlinarith
  have ex : wrap64 (W * t) = W * t := wrap64_of_range (by omega) hx2
  have ey : wrap64 (H * t) = H * t := wrap64_of_range (by omega) hy2
  have hsize := outputfilesize_eq hxy hno
  unfold gen_target_canvas
  simp only [ex, ey, hsize]
  generalize (W * t) * (H * t) * 4 = bytes at *
  by_cases hc : bytes / 2 ^ 30 > maxsize
  · simp only [if_pos hc]
    constructor
    · simp only [true_iff]; omega
    · constructor
      · intro h; cases h
      · intro h; omega
  · simp only [if_neg hc]
    constructor
    · constructor
      · intro h; cases h
      · intro h; omega
    · simp only [true_iff]; omega

/-- C4, witness of the amended statement at the default cap. -/
theorem gen_target_canvas_too_big_iff_witness :
    (gen_target_canvas 128 128 257 4 = .error "too big" ↔
        ((4 : Int) + 1) * 2 ^ 30 ≤ (128 * 257) * (128 * 257) * 4) ∧
    (gen_target_canvas 128 128 257 4 = .ok (128 * 257, 128 * 257) ↔
        ((128 : Int) * 257) * (128 * 257) * 4 < (4 + 1) * 2 ^ 30) :=
  gen_target_canvas_too_big_iff 128 128 257 4 (by decide) (by decide) (by decide) (by decide)

/-! ## Validation pass of `load_lib` -/

/-- The validation job marks an entry exactly under the eviction condition. -/
theorem validate_job_iff {V : Type} (env : Env V) (checkhash : Bool) (v : V) :
    validate_job env checkhash v = true ↔ evictCond env checkhash v := by
  unfold validate_job evictCond
  cases hd : env.gobDecode v with
  | none => simp
  | some fi =>
    cases hf : env.fs fi.Filename with
    | none => simp [hf]
    | some bytes =>
      cases checkhash <;> simp [hf]

/-- The fold that builds `need_del`, from any starting list. -/
theorem need_del_foldl {V : Type} (env : Env V) (checkhash : Bool) (b : Store V)
    (acc : List String) :
    b.foldl (fun acc e => if validate_job env checkhash e.2 then acc ++ [e.1] else acc) acc
      = acc ++ (b.filter (fun e => validate_job env checkhash e.2)).map Prod.fst := by
  induction b generalizing acc with
  | nil => simp
  | cons e t ih =>
    simp only [List.foldl_cons]
    rw [ih]
    by_cases h : validate_job env checkhash e.2 = true
    · simp [h, List.filter_cons]
    · simp [h, List.filter_cons]

/-- The list `need_del` is the keys of the marked entries, in iteration order. -/
theorem need_del_eq {V : Type} (env : Env V) (checkhash : Bool) (b : Store V) :
    need_del env checkhash b
      = (b.filter (fun e => validate_job env checkhash e.2)).map Prod.fst := by
  unfold need_del
  rw [need_del_foldl]
  simp

/-- A batch of deletes removes exactly the entries whose key is in the batch. -/
theorem delete_all_eq_filter {V : Type} (b : Store V) (dels : List String) :
    delete_all b dels = b.filter (fun e => decide (e.1 ∉ dels)) := by
  unfold delete_all
  induction dels generalizing b with
  | nil => simp
  | cons k t ih =>
    simp only [List.foldl_cons]
    rw [ih]
    unfold Store.Delete
    rw [List.filter_filter]
    apply List.filter_congr
    intro e _
    by_cases h1 : e.1 = k <;> by_cases h2 : e.1 ∈ t <;> simp [h1, h2]

/-- The bucket after the validation pass is the bucket filtered by the keys
that are not in `need_del`. -/
theorem load_lib_validate_eq_filter {V : Type} (env : Env V) (checkhash : Bool) (b : Store V) :
    load_lib_validate env checkhash b
      = b.filter (fun e => decide (e.1 ∉ need_del env checkhash b)) :=
  delete_all_eq_filter b _

/-- An entry whose own value is marked has its key in `need_del`. -/
theorem mem_need_del_of_marked {V : Type} (env : Env V) (checkhash : Bool) (b : Store V)
    (e : String × V) (he : e ∈ b) (hm : validate_job env checkhash e.2 = true) :
    e.1 ∈ need_del env checkhash b := by
  rw [need_del_eq, List.mem_map]
  exact ⟨e, List.mem_filter.2 ⟨he, hm⟩, rfl⟩

/-- With unique keys, a key in `need_del` belongs to a marked entry. -/
theorem marked_of_mem_need_del {V : Type} (env : Env V) (checkhash : Bool) (b : Store V)
    (hk : (b.map Prod.fst).Nodup) (e : String × V) (he : e ∈ b)
    (hm : e.1 ∈ need_del env checkhash b) : validate_job env checkhash e.2 = true := by
  rw [need_del_eq, List.mem_map] at hm
  obtain ⟨e2, h2, hkey⟩ := hm
  rw [List.mem_filter] at h2
  have heq : e2 = e := List.inj_on_of_nodup_map hk h2.1 he hkey
  rw [← heq]
  exact h2.2

/-- C5: over an abstract file system and a bucket with unique keys, the
validation pass of `load_lib` puts the key of an entry into the eviction list
`need_del` exactly when the value cannot be decoded, or the referenced file does
not exist, or `checkhash` is on and the hash of the file's current bytes differs
from the stored hash; the batch of deletes, in whatever order the jobs
appended the keys, leaves the bucket minus exactly the marked entries; and with
`checkhash` off an entry that decodes and whose file exists is kept, changed
file or not. -/
theorem load_lib_validate_spec {V : Type} (env : Env V) (checkhash : Bool) (b : Store V)
    (hk : (b.map Prod.fst).Nodup) :
    (∀ e ∈ b, e.1 ∈ need_del env checkhash b ↔ evictCond env checkhash e.2) ∧
    (∀ dels, List.Perm dels (need_del env checkhash b) →
      delete_all b dels = b.filter (fun e => decide (e.1 ∉ need_del env checkhash b))) ∧
    (∀ e, e ∈ load_lib_validate env checkhash b ↔ e ∈ b ∧ ¬ evictCond env checkhash e.2) ∧
    (∀ e ∈ b, ∀ fi bytes, env.gobDecode e.2 = some fi → env.fs fi.Filename = some bytes →
      e ∈ load_lib_validate env false b) := by
  have hmem : ∀ (c : Bool), ∀ e ∈ b, e.1 ∈ need_del env c b ↔ evictCond env c e.2 := by
    intro c e he
    rw [← validate_job_iff]
    exact ⟨marked_of_mem_need_del env c b hk e he, mem_need_del_of_marked env c b e he⟩
  have hafter : ∀ (c : Bool), ∀ e,
      e ∈ load_lib_validate env c b ↔ e ∈ b ∧ ¬ evictCond env c e.2 := by
    intro c e
    rw [load_lib_validate_eq_filter, List.mem_filter]
    constructor
    · rintro ⟨he, hn⟩
      simp only [decide_eq_true_eq] at hn
      exact ⟨he, fun hc => hn ((hmem c e he).2 hc)⟩
    · rintro ⟨he, hn⟩
      refine ⟨he, ?_⟩
      simp only [decide_eq_true_eq]
      exact fun hc => hn ((hmem c e he).1 hc)
  refine ⟨hmem checkhash, ?_, hafter checkhash, ?_⟩
  · intro dels hperm
    rw [delete_all_eq_filter]
    apply List.filter_congr
    intro e _
    simp only [hperm.mem_iff]
  · intro e he fi bytes hd hf
    refine (hafter false e).2 ⟨he, ?_⟩
    unfold evictCond
    simp [hd, hf]

/-! ## Scan idempotence -/

/-- The lookup `Get` finds nothing exactly when no entry has the key. -/
theorem Store.Get_isNone_iff {V : Type} (b : Store V) (k : String) :
    (b.Get k).isNone = true ↔ ∀ e ∈ b, e.1 ≠ k := by
  unfold Store.Get
  rw [Option.isNone_iff_eq_none, Option.map_eq_none', List.find?_eq_none]
  simp

/-- An entry of a bucket after `Put` is an old entry or the new one. -/
theorem Store.mem_Put {V : Type} (b : Store V) (k : String) (v : V) (e : String × V)
    (he : e ∈ b.Put k v) : e ∈ b ∨ e = (k, v) := by
  unfold Store.Put at he
  split at he
  · rw [List.mem_map] at he
    obtain ⟨e2, h2, h3⟩ := he
    split at h3
    · exact Or.inr h3.symm
    · exact Or.inl (h3 ▸ h2)
  · rcases List.mem_append.1 he with h | h
    · exact Or.inl h
    · exact Or.inr (by simpa using h)

/-- After `Put` the key is present. -/
theorem Store.Put_has_key {V : Type} (b : Store V) (k : String) (v : V) :
    ∃ e ∈ b.Put k v, e.1 = k := by
  unfold Store.Put
  split
  · rename_i h
    rw [List.any_eq_true] at h
    obtain ⟨e, he, hk⟩ := h
    refine ⟨(k, v), ?_, rfl⟩
    rw [List.mem_map]
    exact ⟨e, he, by simp [hk]⟩
  · exact ⟨(k, v), by simp, rfl⟩

/-- The update `Put` keeps every key that was present. -/
theorem Store.Put_keeps_key {V : Type} (b : Store V) (k : String) (v : V) (k2 : String)
    (h : ∃ e ∈ b, e.1 = k2) : ∃ e ∈ b.Put k v, e.1 = k2 := by
  obtain ⟨e, he, hk⟩ := h
  unfold Store.Put
  split
  · by_cases hek : (e.1 == k) = true
    · refine ⟨(k, v), ?_, ?_⟩
      · rw [List.mem_map]
        exact ⟨e, he, by simp [hek]⟩
      · rw [← hk]
        exact (beq_iff_eq.1 hek).symm
    · refine ⟨e, ?_, hk⟩
      rw [List.mem_map]
      exact ⟨e, he, by simp [hek]⟩
  · exact ⟨e, List.mem_append_left _ he, hk⟩

/-- The function `calc_avg_color` never changes the filename of the entry. -/
theorem calc_avg_color_Filename {V : Type} (env : Env V) (ovf : uint8) (pixelsize : Int)
    (cfi : CalFileInfo) :
    (calc_avg_color env ovf pixelsize cfi).fi.Filename = cfi.fi.Filename := by
  unfold calc_avg_color
  split
  · rfl
  · split
    · rfl
    · split <;> rfl

/-- When `calc_avg_color` turns an entry `ok`, the file exists and the stored
hash is the hash of its bytes. -/
theorem calc_avg_color_ok {V : Type} (env : Env V) (ovf : uint8) (pixelsize : Int)
    (cfi : CalFileInfo) (h0 : cfi.ok = false)
    (h : (calc_avg_color env ovf pixelsize cfi).ok = true) :
    ∃ bytes, env.fs cfi.fi.Filename = some bytes ∧
      (calc_avg_color env ovf pixelsize cfi).fi.Hash = env.GetXXHashString bytes := by
  unfold calc_avg_color at h ⊢
  cases hb : env.fs cfi.fi.Filename with
  | none =>
    rw [hb] at h
    simp [h0] at h
  | some bytes =>
    refine ⟨bytes, rfl, ?_⟩
    rw [hb] at h
    dsimp only at h ⊢
    cases hi : env.imageDecode bytes with
    | none =>
      rw [hi] at h
      simp [h0] at h
    | some img =>
      rw [hi] at h
      dsimp only at h ⊢
      cases ht : calc_img env.draw img pixelsize with
      | error s =>
        rw [ht] at h
        simp [h0] at h
      | ok tile => rfl

/-- An entry of the bucket after `save_to_database` is an old entry or the
record of an `ok` entry of the file list. -/
theorem mem_save_to_database {V : Type} (env : Env V) (list : List CalFileInfo) (b : Store V)
    (e : String × V) (he : e ∈ save_to_database env list b) :
    e ∈ b ∨ ∃ cfi ∈ list, cfi.ok = true ∧ e = (cfi.fi.Filename, env.gobEncode cfi.fi) := by
  unfold save_to_database at he
  induction list generalizing b with
  | nil => exact Or.inl (by simpa using he)
  | cons c t ih =>
    simp only [List.foldl_cons] at he
    rcases ih _ he with h | ⟨cfi, hc, hok, heq⟩
    · by_cases hcok : c.ok = true
      · rw [if_pos hcok] at h
        rcases Store.mem_Put _ _ _ _ h with h2 | h2
        · exact Or.inl h2
        · exact Or.inr ⟨c, List.mem_cons_self _ _, hcok, h2⟩
      · rw [if_neg hcok] at h
        exact Or.inl h
    · exact Or.inr ⟨cfi, List.mem_cons_of_mem _ hc, hok, heq⟩

/-- The function `save_to_database` keeps every key that was present. -/
theorem save_to_database_keeps_key {V : Type} (env : Env V) (list : List CalFileInfo)
    (b : Store V) (k : String) (h : ∃ e ∈ b, e.1 = k) :
    ∃ e ∈ save_to_database env list b, e.1 = k := by
  unfold save_to_database
  induction list generalizing b with
  | nil => simpa using h
  | cons c t ih =>
    simp only [List.foldl_cons]
    apply ih
    by_cases hcok : c.ok = true
    · rw [if_pos hcok]
      exact Store.Put_keeps_key _ _ _ _ h
    · rw [if_neg hcok]
      exact h

/-- After `save_to_database` the filename of every `ok` entry is a key. -/
theorem save_to_database_has_key {V : Type} (env : Env V) (list : List CalFileInfo)
    (b : Store V) (cfi : CalFileInfo) (hc : cfi ∈ list) (hok : cfi.ok = true) :
    ∃ e ∈ save_to_database env list b, e.1 = cfi.fi.Filename := by
  induction list generalizing b with
  | nil => simp at hc
  | cons c t ih =>
    rcases List.mem_cons.1 hc with h | h
    · subst h
      have h1 := Store.Put_has_key b cfi.fi.Filename (env.gobEncode cfi.fi)
      have h2 := save_to_database_keeps_key env t _ _ h1
      simpa [save_to_database, hok] using h2
    · have h2 := ih (if c.ok then b.Put c.fi.Filename (env.gobEncode c.fi) else b) h
      simpa [save_to_database] using h2

/-- A file list without an `ok` entry leaves the bucket as it is. -/
theorem save_to_database_of_none_ok {V : Type} (env : Env V) (list : List CalFileInfo)
    (b : Store V) (h : ∀ cfi ∈ list, cfi.ok = false) : save_to_database env list b = b := by
  unfold save_to_database
  induction list generalizing b with
  | nil => rfl
  | cons c t ih =>
    simp only [List.foldl_cons]
    rw [h c (List.mem_cons_self _ _)]
    exact ih b (fun cfi hc => h cfi (List.mem_cons_of_mem _ hc))

/-- An entry that survives the validation pass is not marked by its job. -/
theorem validate_job_of_mem_validate {V : Type} (env : Env V) (checkhash : Bool) (b : Store V)
    (e : String × V) (he : e ∈ load_lib_validate env checkhash b) :
    validate_job env checkhash e.2 = false := by
  rw [load_lib_validate_eq_filter, List.mem_filter] at he
  obtain ⟨hb, hn⟩ := he
  simp only [decide_eq_true_eq] at hn
  by_contra hm
  exact hn (mem_need_del_of_marked env checkhash b e hb (by simpa using hm))

/-- A bucket none of whose entries is marked goes through validation
unchanged, with an empty eviction list. -/
theorem load_lib_validate_of_all_valid {V : Type} (env : Env V) (checkhash : Bool) (b : Store V)
    (h : ∀ e ∈ b, validate_job env checkhash e.2 = false) :
    need_del env checkhash b = [] ∧ load_lib_validate env checkhash b = b := by
  have hn : need_del env checkhash b = [] := by
    rw [need_del_eq, List.map_eq_nil_iff, List.filter_eq_nil_iff]
    intro e he
    simp [h e he]
  refine ⟨hn, ?_⟩
  unfold load_lib_validate
  rw [hn]
  rfl

/-- The entries of the file list are the listed paths with zeroed fields. -/
theorem mem_imagefilelist {V : Type} (walk : List String) (b : Store V) (c : CalFileInfo) :
    c ∈ imagefilelist walk b ↔
      ∃ p ∈ walk, (b.Get p).isNone = true ∧ c = ⟨⟨p, 0, 0, 0, ""⟩, false, false⟩ := by
  unfold imagefilelist
  rw [List.mem_map]
  constructor
  · rintro ⟨p, hp, rfl⟩
    rw [List.mem_filter] at hp
    exact ⟨p, hp.1, hp.2, rfl⟩
  · rintro ⟨p, hp, hg, rfl⟩
    exact ⟨p, List.mem_filter.2 ⟨hp, hg⟩, rfl⟩

/-- After a scan with `checkhash` on, no entry of the bucket is marked by the
validation job. -/
theorem load_lib_scan_all_valid {V : Type} (env : Env V) (ovf : uint8) (pixelsize : Int)
    (walk : List String) (b : Store V)
    (hrt : ∀ fi, env.gobDecode (env.gobEncode fi) = some fi) :
    ∀ e ∈ load_lib_scan env ovf true pixelsize walk b, validate_job env true e.2 = false := by
  intro e he
  unfold load_lib_scan at he
  rcases mem_save_to_database env _ _ e he with h | ⟨cfi, hc, hok, heq⟩
  · exact validate_job_of_mem_validate env true b e h
  · unfold fingerprintAll at hc
    rw [List.mem_map] at hc
    obtain ⟨c0, hc0, hcalc⟩ := hc
    obtain ⟨p, _, _, hc0eq⟩ := (mem_imagefilelist walk _ c0).1 hc0
    have h0 : c0.ok = false := by rw [hc0eq]
    rw [← hcalc] at hok
    obtain ⟨bytes, hfs, hhash⟩ := calc_avg_color_ok env ovf pixelsize c0 h0 hok
    have hname := calc_avg_color_Filename env ovf pixelsize c0
    rw [hcalc] at hhash hname
    rw [heq]
    unfold validate_job
    simp only [hrt, hname, hfs, hhash]
    simp

/-- C6: for every library (file system and walked file list), every initial
bucket and a codec that reads back what it wrote, a second library scan with
`checkhash` on and no change to the library puts no key on the eviction list,
stores no new fingerprint, and leaves the bucket equal to the bucket after the
first scan. -/
theorem load_lib_scan_idempotent {V : Type} (env : Env V) (ovf : uint8) (pixelsize : Int)
    (walk : List String) (b : Store V)
    (hrt : ∀ fi, env.gobDecode (env.gobEncode fi) = some fi) :
    need_del env true (load_lib_scan env ovf true pixelsize walk b) = [] ∧
    newFingerprints env ovf true pixelsize walk (load_lib_scan env ovf true pixelsize walk b) = [] ∧
    load_lib_scan env ovf true pixelsize walk (load_lib_scan env ovf true pixelsize walk b)
      = load_lib_scan env ovf true pixelsize walk b := by
  have hvalid := load_lib_scan_all_valid env ovf pixelsize walk b hrt
  obtain ⟨hdel, hsame⟩ := load_lib_validate_of_all_valid env true _ hvalid
  have hnone : ∀ cfi ∈ fingerprintAll env ovf pixelsize
      (imagefilelist walk (load_lib_scan env ovf true pixelsize walk b)), cfi.ok = false := by
    intro cfi hc
    unfold fingerprintAll at hc
    rw [List.mem_map] at hc
    obtain ⟨c0, hc0, hcalc⟩ := hc
    obtain ⟨p, hp, hget, hc0eq⟩ := (mem_imagefilelist walk _ c0).1 hc0
    rw [Store.Get_isNone_iff] at hget
    by_contra hok
    have hok2 : (calc_avg_color env ovf pixelsize c0).ok = true := by
      rw [hcalc]; simpa using hok
    have hget1 : ((load_lib_validate env true b).Get p).isNone = true := by
      rw [Store.Get_isNone_iff]
      intro e he hk
      obtain ⟨e2, he2, hk2⟩ :=
        save_to_database_keeps_key env
          (fingerprintAll env ovf pixelsize (imagefilelist walk (load_lib_validate env true b)))
          (load_lib_validate env true b) p ⟨e, he, hk⟩
      exact hget e2 he2 hk2
    have hmem : calc_avg_color env ovf pixelsize c0 ∈ fingerprintAll env ovf pixelsize
        (imagefilelist walk (load_lib_validate env true b)) := by
      unfold fingerprintAll
      rw [List.mem_map]
      exact ⟨c0, (mem_imagefilelist walk _ c0).2 ⟨p, hp, hget1, hc0eq⟩, rfl⟩
    obtain ⟨e, he, hk⟩ := save_to_database_has_key env _ (load_lib_validate env true b) _ hmem hok2
    rw [calc_avg_color_Filename, hc0eq] at hk
    exact hget e he hk
  clear hvalid
  generalize load_lib_scan env ovf true pixelsize walk b = b1 at hdel hsame hnone ⊢
  refine ⟨hdel, ?_, ?_⟩
  · unfold newFingerprints
    rw [hsame, List.filter_eq_nil_iff]
    intro cfi hc
    simp [hnone cfi hc]
  · unfold load_lib_scan
    simp only [hsame]
    exact save_to_database_of_none_ok env _ _ hnone

/-- C5, witness: the validation statement on the example bucket. -/
theorem load_lib_validate_spec_witness :
    (demoStore.map Prod.fst).Nodup ∧
    ((∀ e ∈ demoStore, e.1 ∈ need_del demoEnv true demoStore ↔ evictCond demoEnv true e.2) ∧
    (∀ dels, List.Perm dels (need_del demoEnv true demoStore) →
      delete_all demoStore dels
        = demoStore.filter (fun e => decide (e.1 ∉ need_del demoEnv true demoStore))) ∧
    (∀ e, e ∈ load_lib_validate demoEnv true demoStore ↔
      e ∈ demoStore ∧ ¬ evictCond demoEnv true e.2) ∧
    (∀ e ∈ demoStore, ∀ fi bytes, demoEnv.gobDecode e.2 = some fi →
      demoEnv.fs fi.Filename = some bytes → e ∈ load_lib_validate demoEnv false demoStore)) :=
  ⟨by decide, load_lib_validate_spec demoEnv true demoStore (by decide)⟩

/-- C6, witness: idempotence of the scan on the example library. -/
theorem load_lib_scan_idempotent_witness :
    (∀ fi, demoEnv.gobDecode (demoEnv.gobEncode fi) = some fi) ∧
    (need_del demoEnv true (load_lib_scan demoEnv 0 true 2 demoWalk demoStore) = [] ∧
    newFingerprints demoEnv 0 true 2 demoWalk
      (load_lib_scan demoEnv 0 true 2 demoWalk demoStore) = [] ∧
    load_lib_scan demoEnv 0 true 2 demoWalk (load_lib_scan demoEnv 0 true 2 demoWalk demoStore)
      = load_lib_scan demoEnv 0 true 2 demoWalk demoStore) :=
  ⟨fun _ => rfl, load_lib_scan_idempotent demoEnv 0 2 demoWalk demoStore (fun _ => rfl)⟩

/-! ## Match cache (sequential) -/

/-- The lookup `Load` after the assignment of an image list through the pointer under
`key2`. -/
theorem CacheMap.Load_setImg (m : CacheMap) (key key2 : String) (imgs : List Image) :
    (m.setImg key2 imgs).Load key
      = (m.Load key).map (fun ci => if key = key2 then { ci with img := imgs } else ci) := by
  induction m with
  | nil => rfl
  | cons e t ih =>
    unfold CacheMap.Load CacheMap.setImg at ih ⊢
    by_cases hk : e.1 = key
    · by_cases hk2 : e.1 = key2
      · have hkk : key = key2 := hk ▸ hk2
        simp [List.find?_cons, hk, hk2, hkk]
      · have hkk : ¬ key = key2 := fun h => hk2 (hk.trans h)
        simp [List.find?_cons, hk, hk2, hkk]
    · by_cases hk2 : e.1 = key2
      · have hne : ¬ key2 = key := fun h => hk (hk2.trans h)
        simp only [List.map_cons, hk2, beq_self_eq_true, if_true, List.find?_cons,
          beq_eq_false_iff_ne.2 hne]
        exact ih
      · simp only [List.map_cons, beq_eq_false_iff_ne.2 hk2, List.find?_cons,
          beq_eq_false_iff_ne.2 hk, Bool.false_eq_true, if_false]
        exact ih

/-- A call for a colour whose cache entry holds a non-empty list uses that
list: no scan, no file decoded, the cache map untouched. -/
theorem gen_target_pixel_lookup_hit {V : Type} (env : Env V) (b : Store V) (pixelsize : Int)
    (src : RGBA) (cachemap : CacheMap) (ci : CacheInfo)
    (hl : cachemap.Load (make_string src.R src.G src.B) = some ci) (hi : ci.img.length ≠ 0) :
    gen_target_pixel_lookup env b pixelsize src cachemap
      = some { cachemap := cachemap, minimgs := ci.img, scanned := false, decoded := [],
               cachedHit := true } := by
  unfold gen_target_pixel_lookup
  simp only [hl]
  rw [if_neg (by omega)]

/-- A call that gets to draw, for a colour that has a cache entry, leaves the
entry holding the non-empty candidate list the call used. -/
theorem gen_target_pixel_lookup_fills {V : Type} (env : Env V) (b : Store V) (pixelsize : Int)
    (src : RGBA) (cachemap : CacheMap) (ci : CacheInfo) (r : PixelResult)
    (hl : cachemap.Load (make_string src.R src.G src.B) = some ci)
    (hr : gen_target_pixel_lookup env b pixelsize src cachemap = some r) :
    r.cachemap.Load (make_string src.R src.G src.B) = some { ci with img := r.minimgs } ∧
      r.minimgs.length ≠ 0 := by
  by_cases hi : ci.img.length = 0
  · unfold gen_target_pixel_lookup at hr
    simp only [hl] at hr
    rw [if_pos (by omega)] at hr
    cases hd : decodeAll env b with
    | none => simp [hd] at hr
    | some records =>
      simp only [hd] at hr
      cases ht : loadTiles env pixelsize
          (scan src records).mindiffnames with
      | none => simp [ht] at hr
      | some imgs =>
        simp only [ht] at hr
        by_cases hz : imgs.length = 0
        · simp [hz] at hr
        · rw [if_neg hz] at hr
          simp only [Option.some.injEq] at hr
          subst hr
          refine ⟨?_, hz⟩
          simp only [CacheMap.Load_setImg, hl, Option.map_some', if_true]
  · rw [gen_target_pixel_lookup_hit env b pixelsize src cachemap ci hl hi] at hr
    simp only [Option.some.injEq] at hr
    subst hr
    exact ⟨hl, hi⟩

/-- A cache entry that holds a non-empty list is not changed by any call that
gets to draw, whatever its colour. -/
theorem gen_target_pixel_lookup_keeps {V : Type} (env : Env V) (b : Store V) (pixelsize : Int)
    (src : RGBA) (cachemap : CacheMap) (key : String) (ci : CacheInfo) (r : PixelResult)
    (hl : cachemap.Load key = some ci) (hi : ci.img.length ≠ 0)
    (hr : gen_target_pixel_lookup env b pixelsize src cachemap = some r) :
    r.cachemap.Load key = some ci := by
  by_cases hk : key = make_string src.R src.G src.B
  · subst hk
    rw [gen_target_pixel_lookup_hit env b pixelsize src cachemap ci hl hi] at hr
    simp only [Option.some.injEq] at hr
    subst hr
    exact hl
  · unfold gen_target_pixel_lookup at hr
    dsimp only at hr
    split_ifs at hr with hlen
    · cases hd : decodeAll env b with
      | none => simp [hd] at hr
      | some records =>
        simp only [hd] at hr
        cases ht : loadTiles env pixelsize (scan src records).mindiffnames with
        | none => simp [ht] at hr
        | some imgs =>
          simp only [ht] at hr
          by_cases hz : imgs.length = 0
          · simp [hz] at hr
          · rw [if_neg hz] at hr
            simp only [Option.some.injEq] at hr
            subst hr
            simp only [CacheMap.Load_setImg, hl, Option.map_some', if_neg hk]
    · simp only [Option.some.injEq] at hr
      subst hr
      exact hl

/-- The assignment through the entry does nothing for a key without entry. -/
theorem CacheMap.setImg_of_Load_none (m : CacheMap) (key : String) (imgs : List Image)
    (h : m.Load key = none) : m.setImg key imgs = m := by
  unfold CacheMap.Load at h
  unfold CacheMap.setImg
  have hf : m.find? (fun e => e.1 == key) = none := by
    cases hx : m.find? (fun e => e.1 == key) with
    | none => rfl
    | some e => rw [hx] at h; cases h
  rw [List.find?_eq_none] at hf
  conv_rhs => rw [← List.map_id m]
  apply List.map_congr_left
  intro e he
  have := hf e he
  simp only [id]
  rw [if_neg this]

/-- The loop over the candidate names runs through exactly when `loadTiles`
gives the tiles. -/
theorem loadTilesEnd_tiles_iff {V : Type} (env : Env V) (pixelsize : Int) (names : List String) :
    ∀ imgs, loadTilesEnd env pixelsize names = .tiles imgs ↔
      loadTiles env pixelsize names = some imgs := by
  induction names with
  | nil => intro imgs; simp [loadTilesEnd, loadTiles]
  | cons n rest ih =>
    intro imgs
    unfold loadTilesEnd loadTiles
    cases hfs : env.fs n with
    | none => simp
    | some bytes =>
      simp only
      cases hd : env.imageDecode bytes with
      | none => simp
      | some img =>
        simp only
        cases hc : calc_img env.draw img pixelsize with
        | error _ => simp
        | ok tile =>
          simp only
          cases hl : loadTilesEnd env pixelsize rest with
          | tiles l =>
            have := (ih l).mp hl
            simp [this]
          | exit =>
            cases hl2 : loadTiles env pixelsize rest with
            | none => simp
            | some l => have := (ih l).mpr hl2; rw [hl] at this; cases this
          | ret =>
            cases hl2 : loadTiles env pixelsize rest with
            | none => simp
            | some l => have := (ih l).mpr hl2; rw [hl] at this; cases this

/-- One tile is prepared for every candidate name. -/
theorem loadTilesEnd_length {V : Type} (env : Env V) (pixelsize : Int) (names : List String) :
    ∀ imgs, loadTilesEnd env pixelsize names = .tiles imgs → imgs.length = names.length := by
  induction names with
  | nil => intro imgs h; simp [loadTilesEnd] at h; subst h; rfl
  | cons n rest ih =>
    intro imgs h
    unfold loadTilesEnd at h
    cases hfs : env.fs n with
    | none => simp [hfs] at h
    | some bytes =>
      simp only [hfs] at h
      cases hd : env.imageDecode bytes with
      | none => simp [hd] at h
      | some img =>
        simp only [hd] at h
        cases hc : calc_img env.draw img pixelsize with
        | error _ => simp [hc] at h
        | ok tile =>
          simp only [hc] at h
          cases hl : loadTilesEnd env pixelsize rest with
          | tiles l =>
            simp only [hl, TileLoad.tiles.injEq] at h
            subst h
            simp [ih l hl]
          | exit => simp [hl] at h
          | ret => simp [hl] at h

/-- A call for a colour whose cache entry holds a non-empty list draws from that
list: no scan, no file decoded, the state untouched. -/
theorem gen_target_pixel_call_hit {V : Type} (env : Env V) (b : Store V) (pixelsize : Int)
    (src : RGBA) (st : PixelState) (ci : CacheInfo)
    (hl : st.cachemap.Load (make_string src.R src.G src.B) = some ci) (hi : ci.img.length ≠ 0) :
    gen_target_pixel_call env b pixelsize src st
      = (.drew { cachemap := st.cachemap, minimgs := ci.img, scanned := false, decoded := [],
                 cachedHit := true }, st) := by
  unfold gen_target_pixel_call
  simp only [hl]
  rw [if_neg (by omega)]

/-- What a call that runs the scan does, by the way the scan and the loop over
the candidates end. -/
theorem gen_target_pixel_call_scan {V : Type} (env : Env V) (b : Store V) (pixelsize : Int)
    (src : RGBA) (st : PixelState)
    (hempty : ∀ ci, st.cachemap.Load (make_string src.R src.G src.B) = some ci → ci.img = []) :
    gen_target_pixel_call env b pixelsize src st =
      if (st.cachemap.Load (make_string src.R src.G src.B)).isSome = true ∧
          make_string src.R src.G src.B ∈ st.held then (.blocked, st)
      else
        match decodeAll env b with
        | none => (.stopped, st)
        | some records =>
          match loadTilesEnd env pixelsize (scan src records).mindiffnames with
          | .exit => (.stopped, st)
          | .ret => (.returned,
              if (st.cachemap.Load (make_string src.R src.G src.B)).isSome = true then
                ⟨st.cachemap, make_string src.R src.G src.B :: st.held⟩ else st)
          | .tiles imgs =>
            if imgs.length = 0 then
              (.stopped, ⟨st.cachemap.setImg (make_string src.R src.G src.B) imgs, st.held⟩)
            else
              (.drew { cachemap := st.cachemap.setImg (make_string src.R src.G src.B) imgs,
                       minimgs := imgs, scanned := true,
                       decoded := (scan src records).mindiffnames, cachedHit := false },
               ⟨st.cachemap.setImg (make_string src.R src.G src.B) imgs, st.held⟩) := by
  unfold gen_target_pixel_call
  have hlen : (match st.cachemap.Load (make_string src.R src.G src.B) with
      | some ci => ci.img
      | none => ([] : List Image)).length ≤ 0 := by
    cases hl : st.cachemap.Load (make_string src.R src.G src.B) with
    | none => simp
    | some ci => simp [hempty ci hl]
  simp only [hlen, if_true]

/-- A cache entry that holds a non-empty list is not changed by any call,
whatever its colour and however it ends; a key without entry stays without. -/
theorem gen_target_pixel_call_keeps {V : Type} (env : Env V) (b : Store V) (pixelsize : Int)
    (src : RGBA) (st : PixelState) (key : String) :
    (∀ ci, st.cachemap.Load key = some ci → ci.img.length ≠ 0 →
      (gen_target_pixel_call env b pixelsize src st).2.cachemap.Load key = some ci) ∧
    (st.cachemap.Load key = none →
      (gen_target_pixel_call env b pixelsize src st).2.cachemap.Load key = none) := by
  by_cases hempty : ∀ ci, st.cachemap.Load (make_string src.R src.G src.B) = some ci → ci.img = []
  · rw [gen_target_pixel_call_scan env b pixelsize src st hempty]
    have hset : ∀ imgs,
        (∀ ci, st.cachemap.Load key = some ci → ci.img.length ≠ 0 →
          (st.cachemap.setImg (make_string src.R src.G src.B) imgs).Load key = some ci) ∧
        (st.cachemap.Load key = none →
          (st.cachemap.setImg (make_string src.R src.G src.B) imgs).Load key = none) := by
      intro imgs
      constructor
      · intro ci hl hi
        have hk : ¬ key = make_string src.R src.G src.B := by
          intro hk
          rw [hk] at hl
          rw [hempty ci hl] at hi
          exact hi rfl
        rw [CacheMap.Load_setImg, hl, Option.map_some', if_neg hk]
      · intro hl
        rw [CacheMap.Load_setImg, hl, Option.map_none']
    by_cases hb : (st.cachemap.Load (make_string src.R src.G src.B)).isSome = true ∧
        make_string src.R src.G src.B ∈ st.held
    · rw [if_pos hb]
      exact ⟨fun ci hl _ => hl, fun hl => hl⟩
    · rw [if_neg hb]
      cases decodeAll env b with
      | none => exact ⟨fun ci hl _ => hl, fun hl => hl⟩
      | some records =>
        dsimp only
        cases loadTilesEnd env pixelsize (scan src records).mindiffnames with
        | exit => exact ⟨fun ci hl _ => hl, fun hl => hl⟩
        | ret =>
          dsimp only
          split_ifs <;> exact ⟨fun ci hl _ => hl, fun hl => hl⟩
        | tiles imgs =>
          dsimp only
          split_ifs <;> exact hset imgs
  · push_neg at hempty
    obtain ⟨ci0, hl0, hne0⟩ := hempty
    have hi0 : ci0.img.length ≠ 0 := fun h => hne0 (List.length_eq_zero.mp h)
    rw [gen_target_pixel_call_hit env b pixelsize src st ci0 hl0 hi0]
    exact ⟨fun ci hl _ => hl, fun hl => hl⟩

/-- A cache entry that holds a non-empty list is not changed by any sequence of
calls; a key without entry stays without. -/
theorem runPixels_keeps {V : Type} (env : Env V) (b : Store V) (pixelsize : Int)
    (srcs : List RGBA) (key : String) : ∀ (st st2 : PixelState),
    runPixels env b pixelsize srcs st = some st2 →
    (∀ ci, st.cachemap.Load key = some ci → ci.img.length ≠ 0 →
      st2.cachemap.Load key = some ci) ∧
    (st.cachemap.Load key = none → st2.cachemap.Load key = none) := by
  induction srcs with
  | nil =>
    intro st st2 hr
    simp only [runPixels, Option.some.injEq] at hr
    subst hr
    exact ⟨fun ci hl _ => hl, fun hl => hl⟩
  | cons s t ih =>
    intro st st2 hr
    unfold runPixels at hr
    obtain ⟨k1, k2⟩ := gen_target_pixel_call_keeps env b pixelsize s st key
    cases hc : gen_target_pixel_call env b pixelsize s st with
    | mk e st1 =>
      rw [hc] at hr k1 k2
      have hrun : runPixels env b pixelsize t st1 = some st2 := by
        cases e <;> first | exact hr | cases hr
      obtain ⟨i1, i2⟩ := ih st1 st2 hrun
      exact ⟨fun ci hl hi => i1 ci (k1 ci hl hi) hi, fun hl => i2 (k2 hl)⟩

/-- Run alone with no mutex held, the call gets to draw exactly when
`gen_target_pixel_lookup` gives a record, and then with that record. -/
theorem gen_target_pixel_call_lookup {V : Type} (env : Env V) (b : Store V) (pixelsize : Int)
    (src : RGBA) (cachemap : CacheMap) (r : PixelResult) :
    (gen_target_pixel_call env b pixelsize src ⟨cachemap, []⟩).1 = .drew r ↔
      gen_target_pixel_lookup env b pixelsize src cachemap = some r := by
  unfold gen_target_pixel_call gen_target_pixel_lookup
  dsimp only
  by_cases h1 : (match cachemap.Load (make_string src.R src.G src.B) with
      | some ci => ci.img
      | none => ([] : List Image)).length ≤ 0
  · rw [if_pos h1, if_pos h1, if_neg (fun h => List.not_mem_nil _ h.2)]
    cases hd : decodeAll env b with
    | none => constructor <;> intro h <;> cases h
    | some records =>
      dsimp only
      cases hl : loadTilesEnd env pixelsize (scan src records).mindiffnames with
      | exit =>
        cases hl2 : loadTiles env pixelsize (scan src records).mindiffnames with
        | none => constructor <;> intro h <;> cases h
        | some l =>
          have := (loadTilesEnd_tiles_iff env pixelsize _ l).mpr hl2
          rw [hl] at this; cases this
      | ret =>
        cases hl2 : loadTiles env pixelsize (scan src records).mindiffnames with
        | none =>
          dsimp only
          constructor <;> intro h <;> cases h
        | some l =>
          have := (loadTilesEnd_tiles_iff env pixelsize _ l).mpr hl2
          rw [hl] at this; cases this
      | tiles imgs =>
        rw [(loadTilesEnd_tiles_iff env pixelsize _ imgs).mp hl]
        dsimp only
        by_cases hz : imgs.length = 0
        · rw [if_pos hz, if_pos hz]
          constructor <;> intro h <;> cases h
        · rw [if_neg hz, if_neg hz]
          exact ⟨fun h => congrArg some (PixelEnd.drew.inj h),
            fun h => congrArg PixelEnd.drew (Option.some.inj h)⟩
  · rw [if_neg h1, if_neg h1]
    exact ⟨fun h => congrArg some (PixelEnd.drew.inj h),
      fun h => congrArg PixelEnd.drew (Option.some.inj h)⟩

set_option exponentiation.threshold 2048 in
/-- C7, counterexample: the red pixel of a 1 by 1 source image occurs in fewer
than 16 pixels, so `parse_src` registers no cache entry for it (the cache map
is empty); the first call of `gen_target_pixel` for red gets to draw, yet the
cache map is still empty afterwards, and the second call for red runs the
nearest-colour scan and decodes `/lib/a.png` again. -/
theorem gen_target_pixel_rare_colour_not_cached :
    (parse_src_cache (uniformSource 1 1 ⟨65535, 0, 0, 65535⟩)).map List.length = some 0 ∧
    (gen_target_pixel_lookup demoEnv demoScanned 2 ⟨255, 0, 0, 0⟩ []).map
        (fun r => (r.scanned, r.cachemap.length, r.minimgs.length)) = some (true, 0, 1) ∧
    ((gen_target_pixel_lookup demoEnv demoScanned 2 ⟨255, 0, 0, 0⟩ []).bind
        (fun r => gen_target_pixel_lookup demoEnv demoScanned 2 ⟨255, 0, 0, 0⟩ r.cachemap)).map
        (fun r => (r.scanned, r.decoded)) = some (true, ["/lib/a.png"]) := by
  decide

/-- C7, amended: take a call of `gen_target_pixel` for a source colour that
gets to draw, and any further calls for any colours after it, each drawing,
returning early or waiting for a mutex.  The first call drew from a non-empty
list.  When the colour has a cache entry (the colours `parse_src` registers),
the entry holds that list after the call and still after the further calls,
and a later call for the colour draws from that same list without running the
scan or decoding a file, and leaves the state as it is.  When the colour has no
cache entry, the first call ran the scan and decoded one file per tile, it left
the state as it was, the colour still has no entry after the further calls,
and a later call for the colour runs the scan and decodes the same files
again. -/
theorem gen_target_pixel_cache_reuse {V : Type} (env : Env V) (b : Store V) (pixelsize : Int)
    (src : RGBA) (later : List RGBA) (st st1 st2 : PixelState) (r1 : PixelResult)
    (h1 : gen_target_pixel_call env b pixelsize src st = (.drew r1, st1))
    (h2 : runPixels env b pixelsize later st1 = some st2) :
    r1.minimgs.length ≠ 0 ∧
    (∀ ci, st.cachemap.Load (make_string src.R src.G src.B) = some ci →
      st1.cachemap.Load (make_string src.R src.G src.B) = some { ci with img := r1.minimgs } ∧
      st2.cachemap.Load (make_string src.R src.G src.B) = some { ci with img := r1.minimgs } ∧
      gen_target_pixel_call env b pixelsize src st2
        = (.drew { cachemap := st2.cachemap, minimgs := r1.minimgs, scanned := false,
                   decoded := [], cachedHit := true }, st2)) ∧
    (st.cachemap.Load (make_string src.R src.G src.B) = none →
      r1.scanned = true ∧ r1.cachedHit = false ∧ r1.decoded.length = r1.minimgs.length ∧
      st1 = st ∧
      st2.cachemap.Load (make_string src.R src.G src.B) = none ∧
      gen_target_pixel_call env b pixelsize src st2
        = (.drew { r1 with cachemap := st2.cachemap }, st2)) := by
  cases hl : st.cachemap.Load (make_string src.R src.G src.B) with
  | none =>
    have hempty : ∀ ci, st.cachemap.Load (make_string src.R src.G src.B) = some ci → ci.img = [] := by
      intro ci h; rw [hl] at h; cases h
    rw [gen_target_pixel_call_scan env b pixelsize src st hempty, hl] at h1
    simp only [Option.isSome_none, Bool.false_eq_true, false_and, if_false] at h1
    cases hd : decodeAll env b with
    | none => rw [hd] at h1; cases h1
    | some records =>
      rw [hd] at h1
      dsimp only at h1
      cases ht : loadTilesEnd env pixelsize (scan src records).mindiffnames with
      | exit => rw [ht] at h1; cases h1
      | ret => rw [ht] at h1; cases h1
      | tiles imgs =>
        rw [ht] at h1
        dsimp only at h1
        by_cases hz : imgs.length = 0
        · rw [if_pos hz] at h1; cases h1
        · rw [if_neg hz, CacheMap.setImg_of_Load_none _ _ _ hl] at h1
          simp only [Prod.mk.injEq, PixelEnd.drew.injEq] at h1
          obtain ⟨hr, hst⟩ := h1
          subst hr
          have hst1 : st1 = st := hst.symm
          subst hst1
          have hl2 := (runPixels_keeps env b pixelsize later _ st1 st2 h2).2 hl
          have hempty2 : ∀ ci, st2.cachemap.Load (make_string src.R src.G src.B) = some ci →
              ci.img = [] := by
            intro ci h; rw [hl2] at h; cases h
          refine ⟨hz, ?_, fun _ => ⟨rfl, rfl, ?_, rfl, hl2, ?_⟩⟩
          · intro ci h
            cases h
          · exact (loadTilesEnd_length env pixelsize _ imgs ht).symm
          · rw [gen_target_pixel_call_scan env b pixelsize src st2 hempty2, hl2]
            simp only [Option.isSome_none, Bool.false_eq_true, false_and, if_false]
            rw [hd]
            dsimp only
            rw [ht]
            dsimp only
            rw [if_neg hz, CacheMap.setImg_of_Load_none _ _ _ hl2]
  | some ci =>
    have key : st1.cachemap.Load (make_string src.R src.G src.B) = some { ci with img := r1.minimgs } ∧
        r1.minimgs.length ≠ 0 := by
      by_cases hi : ci.img.length = 0
      · have hempty : ∀ ci2, st.cachemap.Load (make_string src.R src.G src.B) = some ci2 →
            ci2.img = [] := by
          intro ci2 h
          rw [hl] at h
          cases h
          exact List.length_eq_zero.mp hi
        rw [gen_target_pixel_call_scan env b pixelsize src st hempty] at h1
        by_cases hb : (st.cachemap.Load (make_string src.R src.G src.B)).isSome = true ∧
            make_string src.R src.G src.B ∈ st.held
        · rw [if_pos hb] at h1; cases h1
        · rw [if_neg hb] at h1
          cases hd : decodeAll env b with
          | none => rw [hd] at h1; cases h1
          | some records =>
            rw [hd] at h1
            dsimp only at h1
            cases ht : loadTilesEnd env pixelsize (scan src records).mindiffnames with
            | exit => rw [ht] at h1; cases h1
            | ret => rw [ht] at h1; cases h1
            | tiles imgs =>
              rw [ht] at h1
              dsimp only at h1
              by_cases hz : imgs.length = 0
              · rw [if_pos hz] at h1; cases h1
              · rw [if_neg hz] at h1
                simp only [Prod.mk.injEq, PixelEnd.drew.injEq] at h1
                obtain ⟨hr, hst⟩ := h1
                subst hr
                subst hst
                refine ⟨?_, hz⟩
                simp only [CacheMap.Load_setImg, hl, Option.map_some', if_true]
      · rw [gen_target_pixel_call_hit env b pixelsize src st ci hl hi] at h1
        simp only [Prod.mk.injEq, PixelEnd.drew.injEq] at h1
        obtain ⟨hr, hst⟩ := h1
        subst hr
        subst hst
        exact ⟨hl, hi⟩
    obtain ⟨hfill, hne⟩ := key
    have hkeep := (runPixels_keeps env b pixelsize later _ st1 st2 h2).1 _ hfill hne
    refine ⟨hne, ?_, ?_⟩
    swap
    · intro h
      cases h
    intro ci2 hci2
    cases hci2
    exact ⟨hfill, hkeep, gen_target_pixel_call_hit env b pixelsize src st2 _ hkeep hne⟩

set_option exponentiation.threshold 2048 in
/-- C7, witness of the amended statement.  With entries for red and green and
a green file that no longer decodes: a call for red, then green (returns early,
its mutex stays held), green (waits), blue (draws, no entry), red; the entry
of red holds the list of the first call throughout.  Without entries: a call
for red, then blue, and red scans and decodes again. -/
theorem gen_target_pixel_cache_reuse_witness :
    (gen_target_pixel_call brokenEnv brokenScanned 2 ⟨255, 0, 0, 0⟩ ⟨twoColourCache, []⟩
        = (.drew brokenFirstCall, ⟨brokenFirstCall.cachemap, []⟩) ∧
      runPixels brokenEnv brokenScanned 2
          [⟨0, 255, 0, 0⟩, ⟨0, 255, 0, 0⟩, ⟨0, 0, 255, 0⟩, ⟨255, 0, 0, 0⟩]
          ⟨brokenFirstCall.cachemap, []⟩
        = some ⟨brokenFirstCall.cachemap, ["r 0 g 255 b 0"]⟩ ∧
      twoColourCache.Load (make_string 255 0 0) = some { num := 16, img := [] }) ∧
    (gen_target_pixel_call demoEnv demoScanned 2 ⟨255, 0, 0, 0⟩ ⟨[], []⟩
        = (.drew demoRareCall, ⟨[], []⟩) ∧
      runPixels demoEnv demoScanned 2 [⟨0, 0, 255, 0⟩] ⟨[], []⟩ = some ⟨[], []⟩ ∧
      CacheMap.Load [] (make_string 255 0 0) = none) ∧
    (brokenFirstCall.cachemap.Load (make_string 255 0 0)
        = some { num := 16, img := brokenFirstCall.minimgs } ∧
      gen_target_pixel_call brokenEnv brokenScanned 2 ⟨255, 0, 0, 0⟩
          ⟨brokenFirstCall.cachemap, ["r 0 g 255 b 0"]⟩
        = (.drew { cachemap := brokenFirstCall.cachemap, minimgs := brokenFirstCall.minimgs,
                   scanned := false, decoded := [], cachedHit := true },
           ⟨brokenFirstCall.cachemap, ["r 0 g 255 b 0"]⟩)) ∧
    (demoRareCall.scanned = true ∧
      gen_target_pixel_call demoEnv demoScanned 2 ⟨255, 0, 0, 0⟩ ⟨[], []⟩
        = (.drew { demoRareCall with cachemap := [] }, ⟨[], []⟩)) :=
  ⟨⟨rfl, rfl, rfl⟩, ⟨rfl, rfl, rfl⟩,
   ⟨((gen_target_pixel_cache_reuse brokenEnv brokenScanned 2 ⟨255, 0, 0, 0⟩
        [⟨0, 255, 0, 0⟩, ⟨0, 255, 0, 0⟩, ⟨0, 0, 255, 0⟩, ⟨255, 0, 0, 0⟩]
        ⟨twoColourCache, []⟩ ⟨brokenFirstCall.cachemap, []⟩
        ⟨brokenFirstCall.cachemap, ["r 0 g 255 b 0"]⟩ brokenFirstCall rfl rfl).2.1
        { num := 16, img := [] } rfl).2.1,
    ((gen_target_pixel_cache_reuse brokenEnv brokenScanned 2 ⟨255, 0, 0, 0⟩
        [⟨0, 255, 0, 0⟩, ⟨0, 255, 0, 0⟩, ⟨0, 0, 255, 0⟩, ⟨255, 0, 0, 0⟩]
        ⟨twoColourCache, []⟩ ⟨brokenFirstCall.cachemap, []⟩
        ⟨brokenFirstCall.cachemap, ["r 0 g 255 b 0"]⟩ brokenFirstCall rfl rfl).2.1
        { num := 16, img := [] } rfl).2.2⟩,
   ⟨((gen_target_pixel_cache_reuse demoEnv demoScanned 2 ⟨255, 0, 0, 0⟩ [⟨0, 0, 255, 0⟩]
        ⟨[], []⟩ ⟨[], []⟩ ⟨[], []⟩ demoRareCall rfl rfl).2.2 rfl).1,
    ((gen_target_pixel_cache_reuse demoEnv demoScanned 2 ⟨255, 0, 0, 0⟩ [⟨0, 0, 255, 0⟩]
        ⟨[], []⟩ ⟨[], []⟩ ⟨[], []⟩ demoRareCall rfl rfl).2.2 rfl).2.2.2.2.2⟩⟩

/-! ## Canvas block placement -/

/-- C8 (fails on the code): the block loops of `gen_target` run over the
image coordinates `bounds.Min .. bounds.Max`, and the blit goes to
`(x * pixelsize, y * pixelsize)` without subtracting `bounds.Min`.  For the 1 by
1 source image `offsetSource`, whose bounds start at `(1, 0)`, and tile size 1
the canvas is `(0,0)-(1,1)`, the single job is the block `(1, 0)`, its
rectangle is `(1,0)-(2,1)`, which is not inside the canvas, and the canvas
pixel `(0, 0)` is written by no job. -/
theorem gen_target_offset_source_misses_canvas :
    gen_target_canvas offsetSource.Bounds.Dx offsetSource.Bounds.Dy 1 4 = .ok (1, 1) ∧
    gen_target_jobs offsetSource = [⟨1, 0, ⟨255, 0, 0, 0⟩⟩] ∧
    drawRect 1 0 1 ⟨0, 0, 1, 1⟩ = ⟨1, 0, 2, 1⟩ ∧
    ¬ (drawRect 1 0 1 ⟨0, 0, 1, 1⟩).inside (canvasRect 1 1) ∧
    (canvasRect 1 1).has 0 0 ∧
    ∀ g ∈ gen_target_jobs offsetSource, ¬ written (canvasRect 1 1) 1 ⟨0, 0, 1, 1⟩ g 0 0 := by
  decide

/-- The blocks are the integer points of the bounds. -/
theorem mem_blocks (bounds : Rectangle) (x y : Int) :
    (x, y) ∈ blocks bounds ↔ bounds.has x y := by
  unfold blocks Rectangle.has Rectangle.Dx Rectangle.Dy
  simp only [List.mem_flatMap, List.mem_map, List.mem_range, Prod.mk.injEq]
  constructor
  · rintro ⟨j, hj, i, hi, hx, hy⟩
    omega
  · rintro ⟨h1, h2, h3, h4⟩
    exact ⟨(y - bounds.MinY).toNat, by omega, (x - bounds.MinX).toNat, by omega, by omega, by omega⟩

/-- No block is listed twice. -/
theorem blocks_nodup (bounds : Rectangle) : (blocks bounds).Nodup := by
  unfold blocks
  rw [List.nodup_flatMap]
  constructor
  · intro j _
    apply List.Nodup.map _ (List.nodup_range _)
    intro a b hab
    simp only [Prod.mk.injEq] at hab
    omega
  · apply List.Pairwise.imp _ (List.nodup_range _)
    intro a b hab
    simp only [Function.onFun, List.disjoint_left, List.mem_map]
    rintro p ⟨i, _, rfl⟩ ⟨i2, _, h2⟩
    simp only [Prod.mk.injEq] at h2
    omega

/-- Two blocks whose tile-sized cells share a coordinate are the same block. -/
theorem block_unique {t a b p : Int} (ht : 1 ≤ t) (ha1 : a * t ≤ p) (ha2 : p < a * t + t)
    (hb1 : b * t ≤ p) (hb2 : p < b * t + t) : a = b := by
  rcases lt_trichotomy a b with h | h | h
  · have : (a + 1) * t ≤ b * t := Int.mul_le_mul_of_nonneg_right (by omega) (by omega)
    rw [Int.add_mul] at this
    omega
  · exact h
  · have : (b + 1) * t ≤ a * t := Int.mul_le_mul_of_nonneg_right (by omega) (by omega)
    rw [Int.add_mul] at this
    omega

/-- The jobs carry the blocks, in order. -/
theorem gen_target_jobs_blocks (srcimg : Image) :
    (gen_target_jobs srcimg).map (fun g => (g.x, g.y)) = blocks srcimg.Bounds := by
  unfold gen_target_jobs
  rw [List.map_map]
  conv_rhs => rw [← List.map_id (blocks srcimg.Bounds)]
  apply List.map_congr_left
  intro p _
  rfl

/-- A job is in the list exactly when its block lies in the bounds and its
colour is the pixel of that block. -/
theorem mem_gen_target_jobs (srcimg : Image) (g : GenInfo) :
    g ∈ gen_target_jobs srcimg ↔
      srcimg.Bounds.has g.x g.y ∧ g.c = (srcimg.At g.x g.y).toRGBA := by
  unfold gen_target_jobs
  rw [List.mem_map]
  constructor
  · rintro ⟨p, hp, rfl⟩
    exact ⟨(mem_blocks _ _ _).1 hp, rfl⟩
  · rintro ⟨hb, hc⟩
    refine ⟨(g.x, g.y), (mem_blocks _ _ _).2 hb, ?_⟩
    cases g
    simp only at hc
    simp [hc]

/-- Canvas block placement for a source image whose bounds start at the
origin: with tiles of `t` by `t` pixels, `t >= 1`, every job's rectangle has its
top-left corner at `(x * t, y * t)` and lies inside the canvas of size
`(W * t, H * t)`, no block is submitted twice, the rectangles of two distinct
blocks share no pixel, and every canvas pixel is written by exactly one job. -/
theorem canvas_written_once_of_origin (srcimg : Image) (W H t : Int) (ht : 1 ≤ t)
    (hb : srcimg.Bounds = ⟨0, 0, W, H⟩) (tileOf : GenInfo → Rectangle)
    (htile : ∀ g, (tileOf g).Dx = t ∧ (tileOf g).Dy = t) :
    (∀ g ∈ gen_target_jobs srcimg,
      drawRect g.x g.y t (tileOf g) = ⟨g.x * t, g.y * t, g.x * t + t, g.y * t + t⟩ ∧
      (drawRect g.x g.y t (tileOf g)).inside (canvasRect (W * t) (H * t))) ∧
    ((gen_target_jobs srcimg).map (fun g => (g.x, g.y))).Nodup ∧
    (∀ g1 ∈ gen_target_jobs srcimg, ∀ g2 ∈ gen_target_jobs srcimg, (g1.x, g1.y) ≠ (g2.x, g2.y) →
      ∀ px py, ¬ ((drawRect g1.x g1.y t (tileOf g1)).has px py ∧
        (drawRect g2.x g2.y t (tileOf g2)).has px py)) ∧
    (∀ px py, (canvasRect (W * t) (H * t)).has px py →
      ∃! g, g ∈ gen_target_jobs srcimg ∧
        written (canvasRect (W * t) (H * t)) t (tileOf g) g px py) := by
  have hrect : ∀ g, drawRect g.x g.y t (tileOf g)
      = ⟨g.x * t, g.y * t, g.x * t + t, g.y * t + t⟩ := by
    intro g
    unfold drawRect
    rw [(htile g).1, (htile g).2]
  have hdisj : ∀ g1 g2 : GenInfo, ∀ px py,
      (drawRect g1.x g1.y t (tileOf g1)).has px py →
      (drawRect g2.x g2.y t (tileOf g2)).has px py → g1.x = g2.x ∧ g1.y = g2.y := by
    intro g1 g2 px py h1 h2
    rw [hrect] at h1 h2
    unfold Rectangle.has at h1 h2
    simp only at h1 h2
    exact ⟨block_unique ht h1.1 h1.2.1 h2.1 h2.2.1,
      block_unique ht h1.2.2.1 h1.2.2.2 h2.2.2.1 h2.2.2.2⟩
  refine ⟨?_, ?_, ?_, ?_⟩
  · intro g hg
    refine ⟨hrect g, ?_⟩
    rw [hrect]
    have hin := ((mem_gen_target_jobs srcimg g).1 hg).1
    rw [hb] at hin
    unfold Rectangle.has at hin
    simp only at hin
    unfold Rectangle.inside canvasRect
    simp only
    have h1 : 0 ≤ g.x * t := Int.mul_nonneg hin.1 (by omega)
    have h2 : (g.x + 1) * t ≤ W * t := Int.mul_le_mul_of_nonneg_right (by omega) (by omega)
    have h3 : 0 ≤ g.y * t := Int.mul_nonneg hin.2.2.1 (by omega)
    have h4 : (g.y + 1) * t ≤ H * t := Int.mul_le_mul_of_nonneg_right (by omega) (by omega)
    rw [Int.add_mul] at h2 h4
    omega
  · rw [gen_target_jobs_blocks]
    exact blocks_nodup _
  · intro g1 _ g2 _ hne px py hboth
    obtain ⟨hx, hy⟩ := hdisj g1 g2 px py hboth.1 hboth.2
    exact hne (by rw [hx, hy])
  · intro px py hc
    unfold canvasRect Rectangle.has at hc
    simp only at hc
    have htpos : 0 < t := by omega
    have hx0 : 0 ≤ px / t := Int.ediv_nonneg hc.1 (by omega)
    have hx1 : px / t < W := Int.ediv_lt_of_lt_mul htpos hc.2.1
    have hx2 : px / t * t ≤ px := Int.ediv_mul_le px (by omega)
    have hx3 : px < px / t * t + t := by
      have := Int.lt_ediv_add_one_mul_self px htpos
      rw [Int.add_mul] at this
      omega
    have hy0 : 0 ≤ py / t := Int.ediv_nonneg hc.2.2.1 (by omega)
    have hy1 : py / t < H := Int.ediv_lt_of_lt_mul htpos hc.2.2.2
    have hy2 : py / t * t ≤ py := Int.ediv_mul_le py (by omega)
    have hy3 : py < py / t * t + t := by
      have := Int.lt_ediv_add_one_mul_self py htpos
      rw [Int.add_mul] at this
      omega
    have hcan : (canvasRect (W * t) (H * t)).has px py := by
      unfold canvasRect Rectangle.has
      exact hc
    refine ⟨⟨px / t, py / t, (srcimg.At (px / t) (py / t)).toRGBA⟩, ⟨?_, hcan, ?_⟩, ?_⟩
    · rw [mem_gen_target_jobs, hb]
      exact ⟨⟨hx0, hx1, hy0, hy1⟩, rfl⟩
    · rw [hrect]
      exact ⟨hx2, hx3, hy2, hy3⟩
    · rintro g ⟨hg, _, hw⟩
      have hw0 : (drawRect (px / t) (py / t) t
          (tileOf ⟨px / t, py / t, (srcimg.At (px / t) (py / t)).toRGBA⟩)).has px py := by
        rw [hrect ⟨px / t, py / t, (srcimg.At (px / t) (py / t)).toRGBA⟩]
        exact ⟨hx2, hx3, hy2, hy3⟩
      obtain ⟨hx, hy⟩ := hdisj g ⟨px / t, py / t, (srcimg.At (px / t) (py / t)).toRGBA⟩
        px py hw hw0
      simp only at hx hy
      have hcol := ((mem_gen_target_jobs srcimg g).1 hg).2
      cases g
      simp only at hx hy hcol
      subst hx
      subst hy
      rw [hcol]

/-! ## Tile preparation -/

/-- The function `minInt` is the minimum. -/
theorem minInt_eq (x y : Int) : minInt x y = min x y := by
  unfold minInt
  split_ifs with h
  · exact (min_eq_left (le_of_lt h)).symm
  · exact (min_eq_right (not_lt.1 h)).symm

/-- The crop rectangle of an image of width `w` and height `h` is the
square of side `min w h` at the offsets `((w - min w h) / 2, (h - min w h) / 2)`
from the image origin, and it lies inside the bounds. -/
theorem cropRect_eq (b : Rectangle) :
    cropRect b = ⟨b.MinX + (b.Dx - min b.Dx b.Dy) / 2, b.MinY + (b.Dy - min b.Dx b.Dy) / 2,
      b.MinX + (b.Dx - min b.Dx b.Dy) / 2 + min b.Dx b.Dy,
      b.MinY + (b.Dy - min b.Dx b.Dy) / 2 + min b.Dx b.Dy⟩ ∧
    (cropRect b).inside b := by
  have hx : Int.tdiv (b.Dx - min b.Dx b.Dy) 2 = (b.Dx - min b.Dx b.Dy) / 2 :=
    Int.tdiv_eq_ediv (by omega) (by decide)
  have hy : Int.tdiv (b.Dy - min b.Dx b.Dy) 2 = (b.Dy - min b.Dx b.Dy) / 2 :=
    Int.tdiv_eq_ediv (by omega) (by decide)
  have hX : b.MaxX = b.MinX + b.Dx := by unfold Rectangle.Dx; omega
  have hY : b.MaxY = b.MinY + b.Dy := by unfold Rectangle.Dy; omega
  have e : cropRect b = ⟨b.MinX + (b.Dx - min b.Dx b.Dy) / 2,
      b.MinY + (b.Dy - min b.Dx b.Dy) / 2,
      b.MinX + (b.Dx - min b.Dx b.Dy) / 2 + min b.Dx b.Dy,
      b.MinY + (b.Dy - min b.Dx b.Dy) / 2 + min b.Dx b.Dy⟩ := by
    unfold cropRect
    simp only [minInt_eq, hx, hy]
    congr 1
    · rw [hX]; omega
    · rw [hY]; omega
  refine ⟨e, ?_⟩
  rw [e]
  unfold Rectangle.inside
  simp only
  omega

/-- The image after the crop step is square of side `min w h`: the source
itself when it is square, otherwise the copy of the crop rectangle. -/
theorem cropSquare_eq (d : Draw) (src : Image) :
    (cropSquare d src).Bounds.Dx = min src.Bounds.Dx src.Bounds.Dy ∧
    (cropSquare d src).Bounds.Dy = min src.Bounds.Dx src.Bounds.Dy ∧
    ((src.Bounds.Dx = src.Bounds.Dy ∧ cropSquare d src = src) ∨
     (src.Bounds.Dx ≠ src.Bounds.Dy ∧ cropSquare d src =
        { Bounds := ⟨0, 0, min src.Bounds.Dx src.Bounds.Dy, min src.Bounds.Dx src.Bounds.Dy⟩,
          At := d.Copy src (cropRect src.Bounds) })) := by
  obtain ⟨e, _⟩ := cropRect_eq src.Bounds
  have hX : src.Bounds.MaxX = src.Bounds.MinX + src.Bounds.Dx := by unfold Rectangle.Dx; omega
  have hY : src.Bounds.MaxY = src.Bounds.MinY + src.Bounds.Dy := by unfold Rectangle.Dy; omega
  by_cases hsq : src.Bounds.Dx = src.Bounds.Dy
  · have hc : ¬ ((cropRect src.Bounds).MinX ≠ src.Bounds.MinX ∨
        (cropRect src.Bounds).MinY ≠ src.Bounds.MinY ∨
        (cropRect src.Bounds).MaxX ≠ src.Bounds.MaxX ∨
        (cropRect src.Bounds).MaxY ≠ src.Bounds.MaxY) := by
      rw [e]
      simp only
      omega
    have hs : cropSquare d src = src := by
      unfold cropSquare
      simp only [if_neg hc]
    rw [hs]
    exact ⟨by omega, by omega, Or.inl ⟨hsq, rfl⟩⟩
  · have hc : (cropRect src.Bounds).MinX ≠ src.Bounds.MinX ∨
        (cropRect src.Bounds).MinY ≠ src.Bounds.MinY ∨
        (cropRect src.Bounds).MaxX ≠ src.Bounds.MaxX ∨
        (cropRect src.Bounds).MaxY ≠ src.Bounds.MaxY := by
      rw [e]
      simp only
      omega
    have hs : cropSquare d src =
        { Bounds := ⟨0, 0, min src.Bounds.Dx src.Bounds.Dy, min src.Bounds.Dx src.Bounds.Dy⟩,
          At := d.Copy src (cropRect src.Bounds) } := by
      unfold cropSquare
      simp only [if_pos hc, minInt_eq]
    rw [hs]
    exact ⟨by simp [Rectangle.Dx], by simp [Rectangle.Dy], Or.inr ⟨hsq, rfl⟩⟩

/-- C9: for a decoded image of width `w` and height `h` and a tile size `t`
(in particular for `w >= 1`, `h >= 1`, `t >= 1`; the statement needs no bound),
`calc_img` never returns "bounds error"; it succeeds exactly when
`min w h >= t` and otherwise returns "too small"; on success the result has
exactly `t` by `t` pixels and is the image after the crop step, scaled to
`(0,0)-(t,t)` when `min w h > t`; the image after the crop step is the source
itself when it is square and otherwise the copy of the crop rectangle, which is
the square of side `min w h` at the offsets `((w - min w h) / 2,
(h - min w h) / 2)` from the image origin, inside the bounds. -/
theorem calc_img_spec (d : Draw) (src : Image) (t : Int) :
    calc_img d src t ≠ .error "bounds error" ∧
    ((∃ img, calc_img d src t = .ok img) ↔ t ≤ min src.Bounds.Dx src.Bounds.Dy) ∧
    (min src.Bounds.Dx src.Bounds.Dy < t → calc_img d src t = .error "too small") ∧
    (∀ img, calc_img d src t = .ok img →
      img.Bounds.Dx = t ∧ img.Bounds.Dy = t ∧
      img = (if t < min src.Bounds.Dx src.Bounds.Dy then
              { Bounds := ⟨0, 0, t, t⟩,
                At := d.Scale ⟨0, 0, t, t⟩ (cropSquare d src) (cropSquare d src).Bounds }
            else cropSquare d src)) ∧
    ((src.Bounds.Dx = src.Bounds.Dy ∧ cropSquare d src = src) ∨
     (src.Bounds.Dx ≠ src.Bounds.Dy ∧ cropSquare d src =
        { Bounds := ⟨0, 0, min src.Bounds.Dx src.Bounds.Dy, min src.Bounds.Dx src.Bounds.Dy⟩,
          At := d.Copy src (cropRect src.Bounds) })) ∧
    cropRect src.Bounds =
      ⟨src.Bounds.MinX + (src.Bounds.Dx - min src.Bounds.Dx src.Bounds.Dy) / 2,
       src.Bounds.MinY + (src.Bounds.Dy - min src.Bounds.Dx src.Bounds.Dy) / 2,
       src.Bounds.MinX + (src.Bounds.Dx - min src.Bounds.Dx src.Bounds.Dy) / 2
         + min src.Bounds.Dx src.Bounds.Dy,
       src.Bounds.MinY + (src.Bounds.Dy - min src.Bounds.Dx src.Bounds.Dy) / 2
         + min src.Bounds.Dx src.Bounds.Dy⟩ ∧
    (cropRect src.Bounds).inside src.Bounds := by
  obtain ⟨hdx, hdy, hcases⟩ := cropSquare_eq d src
  obtain ⟨hrect, hin⟩ := cropRect_eq src.Bounds
  have hsq : ¬ (cropSquare d src).Bounds.Dx ≠ (cropSquare d src).Bounds.Dy := by
    rw [hdx, hdy]; simp
  have hlen : minInt (cropSquare d src).Bounds.Dx (cropSquare d src).Bounds.Dy
      = min src.Bounds.Dx src.Bounds.Dy := by
    rw [minInt_eq, hdx, hdy, min_self]
  have hcalc : calc_img d src t =
      if min src.Bounds.Dx src.Bounds.Dy < t then .error "too small"
      else if min src.Bounds.Dx src.Bounds.Dy > t then
        .ok { Bounds := ⟨0, 0, t, t⟩,
              At := d.Scale ⟨0, 0, t, t⟩ (cropSquare d src) (cropSquare d src).Bounds }
      else .ok (cropSquare d src) := by
    unfold calc_img
    simp only [if_neg hsq, hlen]
  refine ⟨?_, ?_, ?_, ?_, hcases, hrect, hin⟩
  · rw [hcalc]
    split_ifs <;> simp
  · rw [hcalc]
    constructor
    · rintro ⟨img, himg⟩
      by_contra hlt
      rw [if_pos (by omega)] at himg
      cases himg
    · intro hle
      rw [if_neg (by omega)]
      split_ifs
      · exact ⟨_, rfl⟩
      · exact ⟨_, rfl⟩
  · intro hlt
    rw [hcalc, if_pos hlt]
  · intro img himg
    rw [hcalc] at himg
    by_cases h1 : min src.Bounds.Dx src.Bounds.Dy < t
    · rw [if_pos h1] at himg
      cases himg
    · rw [if_neg h1] at himg
      by_cases h2 : min src.Bounds.Dx src.Bounds.Dy > t
      · rw [if_pos h2] at himg
        simp only [Except.ok.injEq] at himg
        subst himg
        refine ⟨by simp [Rectangle.Dx], by simp [Rectangle.Dy], ?_⟩
        rw [if_pos h2]
      · rw [if_neg h2] at himg
        simp only [Except.ok.injEq] at himg
        subst himg
        refine ⟨by omega, by omega, ?_⟩
        rw [if_neg h2]

/-! ## Fingerprint colour -/

/-- The rounded quotient is at least the quotient rounded down. -/
theorem roundHalfEven_ge (n d : Nat) : n / d ≤ roundHalfEven n d := by
  rw [roundHalfEven_eq]
  split_ifs <;> omega

/-- The rounded quotient exceeds the exact quotient by at most one half. -/
theorem roundHalfEven_le (n d : Nat) (hd : 0 < d) :
    2 * (roundHalfEven n d * d) ≤ 2 * n + d := by
  rw [roundHalfEven_eq]
  have h : n / d * d + n % d = n := by
    rw [Nat.mul_comm]; exact Nat.div_add_mod n d
  have e : (n / d + 1) * d = n / d * d + d := by ring
  split_ifs with h1 h2 h3
  · omega
  · rw [e]; omega
  · omega
  · rw [e]; omega

set_option exponentiation.threshold 2048 in
/-- The integer part of the float64 quotient is the integer quotient, for a
divisor below `2 ^ 46` and a quotient below 256. -/
theorem f64divTrunc_eq_div (n d : Nat) (hd : 0 < d) (hd2 : d < 2 ^ 46) (hn : n < 256 * d) :
    f64divTrunc n d = n / d := by
  unfold f64divTrunc
  by_cases hn0 : n = 0
  · simp [hn0]
  rw [if_neg hn0]
  dsimp only
  -- the facts about the scale `P = 2 ^ 1100`
  have hP98 : 2 ^ 52 * 2 ^ 46 ≤ 2 ^ 1100 := by
    have h : 2 ^ (52 + 46) ≤ 2 ^ 1100 := Nat.pow_le_pow_right (by decide) (by decide)
    rwa [Nat.pow_add] at h
  have hP8 : 2 ^ 1108 = 256 * 2 ^ 1100 := by
    rw [show (1108 : Nat) = 8 + 1100 from rfl, Nat.pow_add]
  have hsplit : ∀ s, s ≤ 1055 → 2 ^ (1100 - s) * 2 ^ s = 2 ^ 1100 ∧ 2 ^ 45 ≤ 2 ^ (1100 - s) := by
    intro s hs
    exact ⟨Nat.pow_sub_mul_pow 2 (by omega), Nat.pow_le_pow_right (by decide) (by omega)⟩
  have hPpos : 0 < 2 ^ 1100 := Nat.two_pow_pos _
  generalize 2 ^ 1100 = P at *
  have hnpos : 1 ≤ n := Nat.one_le_iff_ne_zero.2 hn0
  -- the scaled quotient and its binade
  have hQlo : 2 ^ 52 ≤ n * P / d := by
    rw [Nat.le_div_iff_mul_le hd]
    calc 2 ^ 52 * d ≤ 2 ^ 52 * 2 ^ 46 := Nat.mul_le_mul_left _ (le_of_lt hd2)
      _ ≤ P := hP98
      _ = 1 * P := (Nat.one_mul P).symm
      _ ≤ n * P := Nat.mul_le_mul_right _ hnpos
  have hQhi : n * P / d < 2 ^ 1108 := by
    rw [Nat.div_lt_iff_lt_mul hd, hP8]
    calc n * P < 256 * d * P := Nat.mul_lt_mul_of_pos_right hn hPpos
      _ = 256 * P * d := by ring
  have hQ0 : n * P / d ≠ 0 := by
    have : 0 < 2 ^ 52 := Nat.two_pow_pos _
    omega
  have hL2 : Nat.log2 (n * P / d) < 1108 := (Nat.log2_lt hQ0).2 hQhi
  have hL1 : 52 ≤ Nat.log2 (n * P / d) := by
    by_contra hlt
    have := (Nat.log2_lt hQ0).1 (not_le.1 hlt)
    omega
  generalize Nat.log2 (n * P / d) = L at *
  obtain ⟨hca, hc45⟩ := hsplit (L - 52) (by omega)
  generalize 2 ^ (L - 52) = a at *
  generalize 2 ^ (1100 - (L - 52)) = c at *
  have hapos : 0 < a := by
    rcases Nat.eq_zero_or_pos a with h | h
    · rw [h] at hca; omega
    · exact h
  have hDpos : 0 < d * a := Nat.mul_pos hd hapos
  have hk1 : n / d * d ≤ n := Nat.div_mul_le_self n d
  have hk2 : n + 1 ≤ (n / d + 1) * d := by
    have := Nat.lt_div_mul_add hd (a := n)
    rw [Nat.add_mul]; omega
  have hge := roundHalfEven_ge (n * P) (d * a)
  have hle := roundHalfEven_le (n * P) (d * a) hDpos
  generalize roundHalfEven (n * P) (d * a) = M at *
  apply Nat.div_eq_of_lt_le
  · -- lower bound
    have h1 : n / d * c ≤ n * P / (d * a) := by
      rw [Nat.le_div_iff_mul_le hDpos]
      calc n / d * c * (d * a) = (n / d * d) * (c * a) := by ring
        _ ≤ n * (c * a) := Nat.mul_le_mul_right _ hk1
        _ = n * P := by rw [hca]
    calc n / d * P = (n / d * c) * a := by rw [← hca]; ring
      _ ≤ M * a := Nat.mul_le_mul_right _ (le_trans h1 hge)
  · -- upper bound
    by_contra hcon
    have hcon2 : (n / d + 1) * P ≤ M * a := not_lt.1 hcon
    have h2 : 2 * ((n + 1) * P) ≤ 2 * (M * (d * a)) := by
      apply Nat.mul_le_mul_left
      calc (n + 1) * P ≤ (n / d + 1) * d * P := Nat.mul_le_mul_right _ hk2
        _ = d * ((n / d + 1) * P) := by ring
        _ ≤ d * (M * a) := Nat.mul_le_mul_left _ hcon2
        _ = M * (d * a) := by ring
    have h3 : d * a < 2 * P := by
      calc d * a < 2 ^ 46 * a := Nat.mul_lt_mul_of_pos_right hd2 hapos
        _ = 2 * (2 ^ 45 * a) := by ring
        _ ≤ 2 * (c * a) := Nat.mul_le_mul_left _ (Nat.mul_le_mul_right _ hc45)
        _ = 2 * P := by rw [hca]
    have h4 : 2 * ((n + 1) * P) = 2 * (n * P) + 2 * P := by ring
    omega

/-- An 8-bit channel value is at most 255. -/
theorem Color16.chan_le (c : Color16) : c.R8 ≤ 255 ∧ c.G8 ≤ 255 ∧ c.B8 ≤ 255 := by
  have h1 := c.r.isLt
  have h2 := c.g.isLt
  have h3 := c.b.isLt
  unfold Color16.R8 Color16.G8 Color16.B8
  omega

/-- While `255 * count` stays below `2 ^ 53` the float64 accumulators hold the
exact sums: no addition rounds. -/
theorem foldl_sumStep_exact (l : List Color16) (s : Sums) (hR : s.sumR ≤ 255 * s.count)
    (hG : s.sumG ≤ 255 * s.count) (hB : s.sumB ≤ 255 * s.count)
    (hsz : 255 * (s.count + l.length) < 2 ^ 53) :
    l.foldl sumStep s =
      ⟨s.sumR + (l.map Color16.R8).sum, s.sumG + (l.map Color16.G8).sum,
       s.sumB + (l.map Color16.B8).sum, s.count + l.length⟩ := by
  induction l generalizing s with
  | nil => simp
  | cons c t ih =>
    obtain ⟨cR, cG, cB⟩ := c.chan_le
    simp only [List.length_cons] at hsz
    have e : sumStep s c = ⟨s.sumR + c.R8, s.sumG + c.G8, s.sumB + c.B8, s.count + 1⟩ := by
      unfold sumStep Color16.R8 Color16.G8 Color16.B8
      unfold Color16.R8 at cR
      unfold Color16.G8 at cG
      unfold Color16.B8 at cB
      rw [f64round_of_lt (by omega), f64round_of_lt (by omega), f64round_of_lt (by omega),
        f64round_of_lt (by omega)]
    simp only [List.foldl_cons, e]
    rw [ih _ (by simp only; omega) (by simp only; omega) (by simp only; omega)
      (by simp only; omega)]
    simp only [List.map_cons, List.sum_cons, List.length_cons, Sums.mk.injEq]
    omega

/-- The accumulators after the loops are the exact channel sums and the number
of pixels, for a tile with `255 * count < 2 ^ 53`. -/
theorem sumPixels_exact (px : List Color16) (hsz : 255 * px.length < 2 ^ 53) :
    sumPixels px =
      ⟨(px.map Color16.R8).sum, (px.map Color16.G8).sum, (px.map Color16.B8).sum, px.length⟩ := by
  unfold sumPixels
  rw [foldl_sumStep_exact px ⟨0, 0, 0, 0⟩ (by simp) (by simp) (by simp) (by simpa using hsz)]
  simp

/-- A sum of values between `lo` and `hi` lies between `lo * n` and `hi * n`. -/
theorem sum_map_bounds (f : Color16 → Nat) (px : List Color16) (lo hi : Nat)
    (h : ∀ c ∈ px, lo ≤ f c ∧ f c ≤ hi) :
    lo * px.length ≤ (px.map f).sum ∧ (px.map f).sum ≤ hi * px.length := by
  induction px with
  | nil => simp
  | cons c t ih =>
    have hc := h c (List.mem_cons_self _ _)
    have ht := ih (fun x hx => h x (List.mem_cons_of_mem _ hx))
    simp only [List.map_cons, List.sum_cons, List.length_cons, Nat.mul_add, Nat.mul_one]
    omega

/-- The conversion `uint8(sum / count)` is the integer quotient, when the sum is below
`256 * count` and `count` is positive and below `2 ^ 46`. -/
theorem avgChannel_eq_div (ovf : uint8) (sum count : Nat) (hc : 0 < count)
    (hc2 : count < 2 ^ 46) (hs : sum < 256 * count) :
    (avgChannel ovf sum count).val = sum / count := by
  have e := f64divTrunc_eq_div sum count hc hc2 hs
  have hlt : sum / count < 256 := by
    rw [Nat.div_lt_iff_lt_mul hc]; omega
  unfold avgChannel
  rw [dif_pos ⟨by omega, by rw [e]; exact hlt⟩]
  exact e

/-- The average colour of a list of pixels, channel by channel, for a
non-empty list with `255 * count < 2 ^ 53`. -/
theorem avgColor_eq_div (ovf : uint8) (px : List Color16) (hne : px ≠ [])
    (hsz : 255 * px.length < 2 ^ 53) :
    (avgColor ovf px).1.val = (px.map Color16.R8).sum / px.length ∧
    (avgColor ovf px).2.1.val = (px.map Color16.G8).sum / px.length ∧
    (avgColor ovf px).2.2.val = (px.map Color16.B8).sum / px.length := by
  have hlen : 0 < px.length := List.length_pos.2 hne
  have h46 : px.length < 2 ^ 46 := by omega
  have hR := (sum_map_bounds Color16.R8 px 0 255 (fun c _ => ⟨Nat.zero_le _, c.chan_le.1⟩)).2
  have hG := (sum_map_bounds Color16.G8 px 0 255 (fun c _ => ⟨Nat.zero_le _, c.chan_le.2.1⟩)).2
  have hB := (sum_map_bounds Color16.B8 px 0 255 (fun c _ => ⟨Nat.zero_le _, c.chan_le.2.2⟩)).2
  unfold avgColor
  simp only [sumPixels_exact px hsz]
  exact ⟨avgChannel_eq_div ovf _ _ hlen h46 (by omega), avgChannel_eq_div ovf _ _ hlen h46 (by omega),
    avgChannel_eq_div ovf _ _ hlen h46 (by omega)⟩

/-- An integer quotient of a sum of `n > 0` values between `lo` and `hi` lies
between `lo` and `hi`. -/
theorem div_bounds {sum n lo hi : Nat} (hn : 0 < n) (h1 : lo * n ≤ sum) (h2 : sum ≤ hi * n) :
    lo ≤ sum / n ∧ sum / n ≤ hi :=
  ⟨(Nat.le_div_iff_mul_le hn).2 h1, Nat.div_le_of_le_mul (by rw [Nat.mul_comm]; exact h2)⟩

/-- The average colour of a prepared tile with at least one pixel and at most
`2 ^ 45` pixels (up to there the float64 sums are exact) has, for each of R, G
and B, the value `floor(sum / count)` of the 8-bit channel values; it lies
between any lower and upper bound of the channel values of the tile, so between
their minimum and maximum; and a tile whose pixels all have the colour
`(r, g, b)` gets exactly `(r, g, b)`. -/
theorem avgColor_floor (ovf : uint8) (tile : Image) (hne : tile.pixels ≠ [])
    (hmem : tile.pixels.length ≤ 2 ^ 45) :
    ((avgColor ovf tile.pixels).1.val
        = (tile.pixels.map Color16.R8).sum / tile.pixels.length ∧
      (avgColor ovf tile.pixels).2.1.val
        = (tile.pixels.map Color16.G8).sum / tile.pixels.length ∧
      (avgColor ovf tile.pixels).2.2.val
        = (tile.pixels.map Color16.B8).sum / tile.pixels.length) ∧
    (∀ lo hi, (∀ c ∈ tile.pixels, lo ≤ c.R8 ∧ c.R8 ≤ hi) →
      lo ≤ (avgColor ovf tile.pixels).1.val ∧ (avgColor ovf tile.pixels).1.val ≤ hi) ∧
    (∀ lo hi, (∀ c ∈ tile.pixels, lo ≤ c.G8 ∧ c.G8 ≤ hi) →
      lo ≤ (avgColor ovf tile.pixels).2.1.val ∧ (avgColor ovf tile.pixels).2.1.val ≤ hi) ∧
    (∀ lo hi, (∀ c ∈ tile.pixels, lo ≤ c.B8 ∧ c.B8 ≤ hi) →
      lo ≤ (avgColor ovf tile.pixels).2.2.val ∧ (avgColor ovf tile.pixels).2.2.val ≤ hi) ∧
    (∀ r g b : uint8, (∀ c ∈ tile.pixels, c.R8 = r.val ∧ c.G8 = g.val ∧ c.B8 = b.val) →
      avgColor ovf tile.pixels = (r, g, b)) := by
  have hsz : 255 * tile.pixels.length < 2 ^ 53 := by omega
  obtain ⟨eR, eG, eB⟩ := avgColor_eq_div ovf tile.pixels hne hsz
  have hlen : 0 < tile.pixels.length := List.length_pos.2 hne
  have hb : ∀ (f : Color16 → Nat) (lo hi : Nat), (∀ c ∈ tile.pixels, lo ≤ f c ∧ f c ≤ hi) →
      lo ≤ (tile.pixels.map f).sum / tile.pixels.length ∧
      (tile.pixels.map f).sum / tile.pixels.length ≤ hi := by
    intro f lo hi h
    obtain ⟨h1, h2⟩ := sum_map_bounds f tile.pixels lo hi h
    exact div_bounds hlen h1 h2
  refine ⟨⟨eR, eG, eB⟩, ?_, ?_, ?_, ?_⟩
  · intro lo hi h
    rw [eR]
    exact hb _ lo hi h
  · intro lo hi h
    rw [eG]
    exact hb _ lo hi h
  · intro lo hi h
    rw [eB]
    exact hb _ lo hi h
  · intro r g b h
    have hr := hb Color16.R8 r.val r.val (fun c hc => by rw [(h c hc).1]; exact ⟨le_refl _, le_refl _⟩)
    have hg := hb Color16.G8 g.val g.val
      (fun c hc => by rw [(h c hc).2.1]; exact ⟨le_refl _, le_refl _⟩)
    have hbl := hb Color16.B8 b.val b.val
      (fun c hc => by rw [(h c hc).2.2]; exact ⟨le_refl _, le_refl _⟩)
    rw [← eR] at hr
    rw [← eG] at hg
    rw [← eB] at hbl
    have e1 : (avgColor ovf tile.pixels).1 = r := Fin.ext (by omega)
    have e2 : (avgColor ovf tile.pixels).2.1 = g := Fin.ext (by omega)
    have e3 : (avgColor ovf tile.pixels).2.2 = b := Fin.ext (by omega)
    rw [← e1, ← e2, ← e3]

/-- When `calc_avg_color` turns an entry `ok`, the colour it stores is the
average colour of the tile `calc_img` prepared from the decoded file. -/
theorem calc_avg_color_stores_avgColor {V : Type} (env : Env V) (ovf : uint8) (pixelsize : Int)
    (cfi : CalFileInfo) (h0 : cfi.ok = false)
    (h : (calc_avg_color env ovf pixelsize cfi).ok = true) :
    ∃ bytes img tile, env.fs cfi.fi.Filename = some bytes ∧
      env.imageDecode bytes = some img ∧ calc_img env.draw img pixelsize = .ok tile ∧
      ((calc_avg_color env ovf pixelsize cfi).fi.R, (calc_avg_color env ovf pixelsize cfi).fi.G,
        (calc_avg_color env ovf pixelsize cfi).fi.B) = avgColor ovf tile.pixels := by
  unfold calc_avg_color at h ⊢
  cases hb : env.fs cfi.fi.Filename with
  | none =>
    rw [hb] at h
    simp [h0] at h
  | some bytes =>
    rw [hb] at h
    dsimp only at h ⊢
    cases hi : env.imageDecode bytes with
    | none =>
      rw [hi] at h
      simp [h0] at h
    | some img =>
      rw [hi] at h
      dsimp only at h ⊢
      cases ht : calc_img env.draw img pixelsize with
      | error s =>
        rw [ht] at h
        simp [h0] at h
      | ok tile => exact ⟨bytes, img, tile, rfl, hi, ht, rfl⟩

/-- Rows that are each `w` copies of one value, put one after the other. -/
theorem flatMap_replicate_const {α β : Type} (l : List α) (w : Nat) (c : β) :
    l.flatMap (fun _ => List.replicate w c) = List.replicate (l.length * w) c := by
  induction l with
  | nil => simp
  | cons a t ih =>
    rw [List.flatMap_cons, ih, List.length_cons, Nat.succ_mul, Nat.add_comm,
      List.replicate_add]

/-- The pixels of the striped image in loop order: one black row, then the
white rows. -/
theorem stripedImage_pixels (n : Nat) :
    (stripedImage (n + 1)).pixels
      = List.replicate (n + 1) blackPixel ++ List.replicate (n * (n + 1)) whitePixel := by
  unfold Image.pixels stripedImage
  simp only [Rectangle.Dx, Rectangle.Dy, sub_zero, Int.toNat_ofNat, zero_add]
  have hrow : ∀ j : Nat,
      List.map (fun (_ : Nat) => if (j : Int) = 0 then blackPixel else whitePixel)
        (List.range (n + 1))
      = List.replicate (n + 1) (if (j : Int) = 0 then blackPixel else whitePixel) := by
    intro j
    rw [List.map_const', List.length_range]
  simp only [hrow]
  rw [List.range_succ_eq_map, List.flatMap_cons, List.flatMap_map]
  have e : (fun (a : Nat) =>
      List.replicate (n + 1) (if ((a.succ : Nat) : Int) = 0 then blackPixel else whitePixel))
      = fun _ => List.replicate (n + 1) whitePixel := by
    funext j
    have hj : ¬ ((j.succ : Nat) : Int) = 0 := by omega
    rw [if_neg hj]
  rw [e, flatMap_replicate_const, List.length_range]
  simp

/-- The 8-bit channel values of the two pixels of the striped tile. -/
theorem blackPixel_whitePixel_chan :
    (blackPixel.R8 = 0 ∧ blackPixel.G8 = 0 ∧ blackPixel.B8 = 0) ∧
    (whitePixel.R8 = 255 ∧ whitePixel.G8 = 255 ∧ whitePixel.B8 = 255) := by
  decide

/-- Copies of one pixel are summed exactly while every sum and the count stay
below `2 ^ 53`. -/
theorem foldl_sumStep_replicate_exact (c : Color16) (n : Nat) (s : Sums)
    (hR : s.sumR + n * c.R8 < 2 ^ 53) (hG : s.sumG + n * c.G8 < 2 ^ 53)
    (hB : s.sumB + n * c.B8 < 2 ^ 53) (hc : s.count + n < 2 ^ 53) :
    (List.replicate n c).foldl sumStep s
      = ⟨s.sumR + n * c.R8, s.sumG + n * c.G8, s.sumB + n * c.B8, s.count + n⟩ := by
  induction n generalizing s with
  | zero => simp
  | succ n ih =>
    rw [Nat.succ_mul] at hR hG hB
    have e : sumStep s c = ⟨s.sumR + c.R8, s.sumG + c.G8, s.sumB + c.B8, s.count + 1⟩ := by
      unfold sumStep
      rw [f64round_of_lt (by unfold Color16.R8 at hR; omega),
        f64round_of_lt (by unfold Color16.G8 at hG; omega),
        f64round_of_lt (by unfold Color16.B8 at hB; omega), f64round_of_lt (by omega)]
      rfl
    rw [List.replicate_succ, List.foldl_cons, e,
      ih _ (by simp only; omega) (by simp only; omega) (by simp only; omega)
        (by simp only; omega)]
    simp only [Nat.succ_mul, Sums.mk.injEq]
    omega

/-- From `2 ^ 53` to `2 ^ 54` the float64 values are the even integers: adding
255 to a multiple of four gives an odd number half way between two of them, and
the tie goes to the multiple of four above. -/
theorem f64round_add_255 (s : Nat) (h1 : 2 ^ 53 ≤ s) (h2 : s + 255 < 2 ^ 54)
    (h4 : s % 4 = 0) : f64round (s + 255) = s + 256 := by
  rw [f64round_of_ge (by omega), log2_eq_of_bounds (k := 53) (by omega) (by omega),
    roundHalfEven_eq]
  simp only [show (53 - 52 : Nat) = 1 from rfl, pow_one]
  split_ifs <;> omega

/-- White pixels added to sums that are multiples of four between `2 ^ 53` and
`2 ^ 54` add 256 each. -/
theorem foldl_sumStep_white_round (m : Nat) (s count : Nat) (h1 : 2 ^ 53 ≤ s)
    (h4 : s % 4 = 0) (h2 : s + 256 * m < 2 ^ 54) (hc : count + m < 2 ^ 53) :
    (List.replicate m whitePixel).foldl sumStep ⟨s, s, s, count⟩
      = ⟨s + 256 * m, s + 256 * m, s + 256 * m, count + m⟩ := by
  induction m generalizing s count with
  | zero => simp
  | succ m ih =>
    have e : sumStep ⟨s, s, s, count⟩ whitePixel = ⟨s + 256, s + 256, s + 256, count + 1⟩ := by
      have hw : whitePixel.r.val / 256 = 255 ∧ whitePixel.g.val / 256 = 255 ∧
          whitePixel.b.val / 256 = 255 := by decide
      unfold sumStep
      simp only [hw.1, hw.2.1, hw.2.2]
      rw [f64round_add_255 s h1 (by omega) h4, f64round_of_lt (by omega)]
    rw [List.replicate_succ, List.foldl_cons, e,
      ih (s + 256) (count + 1) (by omega) (by omega) (by omega) (by omega)]
    simp only [Sums.mk.injEq]
    omega

/-- The pixels of the striped tile: 5 944 000 black ones, then
35 331 130 056 000 white ones. -/
theorem stripedTile_pixels :
    stripedTile.pixels = List.replicate 5944000 blackPixel ++
      List.replicate 35331130056000 whitePixel := by
  have h := stripedImage_pixels 5943999
  have e1 : (5943999 + 1 : Nat) = 5944000 := by norm_num
  have e2 : (5943999 * 5944000 : Nat) = 35331130056000 := by norm_num
  rw [e1, e2] at h
  unfold stripedTile
  exact h

/-- The float64 sum `35322350018592 * 255 + 255` is odd and at least
`2 ^ 53`: it rounds up to the next multiple of four. -/
theorem f64round_first_inexact :
    f64round (35322350018592 * 255 + 255) = 9007199254741216 := by
  have hl : Nat.log2 (35322350018592 * 255 + 255) = 53 :=
    log2_eq_of_bounds (by norm_num) (by norm_num)
  rw [f64round_of_ge (by norm_num), hl, roundHalfEven_eq]
  norm_num

/-- The accumulators after the loops over the striped tile: the three sums
have been rounded up by one for every white pixel after the first
35 322 350 018 592. -/
theorem sumPixels_stripedTile :
    sumPixels stripedTile.pixels
      = ⟨9009446944317408, 9009446944317408, 9009446944317408, 35331136000000⟩ := by
  obtain ⟨⟨b1, b2, b3⟩, ⟨w1, w2, w3⟩⟩ := blackPixel_whitePixel_chan
  have e3 : (35331130056000 : Nat) = 35322350018592 + (8780037407 + 1) := by norm_num
  have hw : whitePixel.r.val / 256 = 255 ∧ whitePixel.g.val / 256 = 255 ∧
      whitePixel.b.val / 256 = 255 := by decide
  have p0 := foldl_sumStep_replicate_exact blackPixel 5944000 ⟨0, 0, 0, 0⟩
    (by rw [b1]; norm_num) (by rw [b2]; norm_num) (by rw [b3]; norm_num) (by norm_num)
  rw [b1, b2, b3] at p0
  have p1 := foldl_sumStep_replicate_exact whitePixel 35322350018592 ⟨0, 0, 0, 5944000⟩
    (by rw [w1]; norm_num) (by rw [w2]; norm_num) (by rw [w3]; norm_num) (by norm_num)
  rw [w1, w2, w3] at p1
  have p2 : sumStep ⟨9007199254740960, 9007199254740960, 9007199254740960, 35322355962592⟩
      whitePixel = ⟨9007199254741216, 9007199254741216, 9007199254741216, 35322355962593⟩ := by
    have hr := f64round_first_inexact
    have e : (35322350018592 * 255 + 255 : Nat) = 9007199254740960 + 255 := by norm_num
    rw [e] at hr
    unfold sumStep
    simp only [hw.1, hw.2.1, hw.2.2, hr]
    rw [f64round_of_lt (by norm_num)]
  have p3 := foldl_sumStep_white_round 8780037407 9007199254741216 35322355962593
    (by norm_num) (by norm_num) (by norm_num) (by norm_num)
  have n0 : (⟨0 + 5944000 * 0, 0 + 5944000 * 0, 0 + 5944000 * 0, 0 + 5944000⟩ : Sums)
      = ⟨0, 0, 0, 5944000⟩ := by norm_num
  have n1 : (⟨0 + 35322350018592 * 255, 0 + 35322350018592 * 255, 0 + 35322350018592 * 255,
      5944000 + 35322350018592⟩ : Sums)
      = ⟨9007199254740960, 9007199254740960, 9007199254740960, 35322355962592⟩ := by norm_num
  have n3 : (⟨9007199254741216 + 256 * 8780037407, 9007199254741216 + 256 * 8780037407,
      9007199254741216 + 256 * 8780037407, 35322355962593 + 8780037407⟩ : Sums)
      = ⟨9009446944317408, 9009446944317408, 9009446944317408, 35331136000000⟩ := by norm_num
  rw [n0] at p0
  rw [n1] at p1
  rw [n3] at p3
  have hs1 : List.replicate (8780037407 + 1) whitePixel
      = whitePixel :: List.replicate 8780037407 whitePixel := List.replicate_succ _ _
  have hsplit : List.replicate 35331130056000 whitePixel
      = List.replicate 35322350018592 whitePixel ++
        (whitePixel :: List.replicate 8780037407 whitePixel) := by
    rw [e3, List.replicate_add, hs1]
  unfold sumPixels
  rw [stripedTile_pixels, hsplit, List.foldl_append, List.foldl_append, List.foldl_cons,
    p0, p1, p2, p3]

/-- Where the exactness of the float64 sums ends (the bound of `avgColor_floor`
cannot simply be dropped in this model of float64): on the tile `stripedTile`
(5 944 000 by 5 944 000 pixels, first row black, the rest white; as RGBA more
than `2 ^ 47` bytes, the size of a 48-bit address space) the channel sum is
`255 * 35331130056000` and `floor(sum / count)` is 254, but the float64 sums
round from `2 ^ 53` on and the average colour is 255 for every channel. -/
theorem calc_avg_color_striped_not_floor :
    stripedTile.pixels ≠ [] ∧
    avgColor 0 stripedTile.pixels = (255, 255, 255) ∧
    (stripedTile.pixels.map Color16.R8).sum / stripedTile.pixels.length = 254 ∧
    (stripedTile.pixels.map Color16.G8).sum / stripedTile.pixels.length = 254 ∧
    (stripedTile.pixels.map Color16.B8).sum / stripedTile.pixels.length = 254 := by
  obtain ⟨⟨b1, b2, b3⟩, ⟨w1, w2, w3⟩⟩ := blackPixel_whitePixel_chan
  have havg : avgChannel 0 9009446944317408 35331136000000 = 255 := by
    apply Fin.ext
    rw [avgChannel_eq_div 0 _ _ (by norm_num) (by norm_num) (by norm_num)]
    have hq : 9009446944317408 / 35331136000000 = 255 := by norm_num
    rw [hq]
    rfl
  have hlen : stripedTile.pixels.length = 35331136000000 := by
    rw [stripedTile_pixels, List.length_append, List.length_replicate, List.length_replicate]
  have hsum : ∀ f : Color16 → Nat, f blackPixel = 0 → f whitePixel = 255 →
      (stripedTile.pixels.map f).sum / stripedTile.pixels.length = 254 := by
    intro f hb hw
    rw [hlen, stripedTile_pixels, List.map_append, List.map_replicate, List.map_replicate,
      List.sum_append, List.sum_replicate, List.sum_replicate, hb, hw]
    norm_num
  refine ⟨?_, ?_, hsum _ b1 w1, hsum _ b2 w2, hsum _ b3 w3⟩
  · intro h
    rw [h] at hlen
    simp only [List.length_nil] at hlen
    omega
  · unfold avgColor
    rw [sumPixels_stripedTile]
    simp only [havg]

/-! ## Match cache, concurrent callers -/

set_option exponentiation.threshold 2048 in
/-- C11 (fails on the code): two first-time callers of `gen_target_pixel` for
red, a colour with a cache entry.  Both read the empty entry (schedule
`0, 1`); caller 0 then locks, scans, stores the list and unlocks; caller 1 then
gets the mutex, but the second test (mosaic.go:851) reads its own local
`minimgs`, still empty, not the entry that now holds one image, so caller 1
runs the scan and the decode-and-scale pass again.  Both callers finish and
both ran the scan. -/
theorem gen_target_pixel_two_callers_both_scan :
    (runSchedule demoEnv demoScanned 2 ⟨255, 0, 0, 0⟩ [0, 1, 0, 0, 0, 0]
        (PixelRun.init demoCache 2)).map
      (fun st => st.observe (make_string 255 0 0))
      = some ([(true, true), (false, false)], some 1) ∧
    (runSchedule demoEnv demoScanned 2 ⟨255, 0, 0, 0⟩ [0, 1, 0, 0, 0, 0, 1, 1, 1, 1]
        (PixelRun.init demoCache 2)).map
      (fun st => st.observe (make_string 255 0 0))
      = some ([(true, true), (true, true)], some 1) := by
  decide

theorem pixelStep_stale {V : Type} (env : Env V) (b : Store V) (pixelsize : Int) (src : RGBA)
    (sh sh2 : PixelShared) (c c2 : PixelCaller) (hc : c.stale)
    (h : pixelStep env b pixelsize src sh c = some (sh2, c2)) : c2.stale := by
  unfold pixelStep at h
  unfold PixelCaller.stale at *
  cases hpc : c.pc <;> simp only [hpc] at h hc
  · -- start
    cases hl : sh.cachemap.Load (make_string src.R src.G src.B) with
    | none =>
      simp only [hl] at h
      cases h; intro _; rfl
    | some ci =>
      simp only [hl] at h
      split_ifs at h with hlen
      · cases h
        intro _
        exact List.length_eq_zero.mp (Nat.le_zero.mp hlen)
      · cases h
        intro hx; simp at hx
  · -- locking
    split_ifs at h
    cases h
    intro _
    exact hc (by simp)
  · -- recheck
    split_ifs at h with hlen
    · cases hd : decodeAll env b with
      | none => simp only [hd] at h; cases h; intro hx; simp at hx
      | some records =>
        simp only [hd] at h
        cases ht : loadTiles env pixelsize (scan src records).mindiffnames with
        | none => simp only [ht] at h; cases h; intro hx; simp at hx
        | some imgs => simp only [ht] at h; cases h; intro hx; simp at hx
    · cases h; intro hx; simp at hx
  · split_ifs at h <;> cases h <;> intro hx <;> simp at hx
  · split_ifs at h <;> cases h <;> intro hx <;> simp at hx
  · cases h
  · cases h

/-- In a reachable state the second test never finds a populated local: a
caller that moves from the second test has run the scan, whatever the cache
entry holds by then. -/
theorem pixelStep_recheck_scans {V : Type} (env : Env V) (b : Store V) (pixelsize : Int)
    (src : RGBA) (sh sh2 : PixelShared) (c c2 : PixelCaller) (hc : c.stale)
    (hpc : c.pc = .recheck)
    (h : pixelStep env b pixelsize src sh c = some (sh2, c2)) :
    c2.scanned = true ∧ c2.cachedHit = c.cachedHit := by
  have hm : c.minimgs = [] := hc (Or.inr (Or.inr hpc))
  unfold pixelStep at h
  simp only [hpc, hm, List.length_nil, le_refl, if_true] at h
  cases hd : decodeAll env b with
  | none => simp only [hd] at h; cases h; exact ⟨rfl, rfl⟩
  | some records =>
    simp only [hd] at h
    cases ht : loadTiles env pixelsize (scan src records).mindiffnames with
    | none => simp only [ht] at h; cases h; exact ⟨rfl, rfl⟩
    | some imgs => simp only [ht] at h; cases h; exact ⟨rfl, rfl⟩

theorem runSchedule_stale {V : Type} (env : Env V) (b : Store V) (pixelsize : Int) (src : RGBA)
    (sched : List Nat) : ∀ (st st2 : PixelRun), (∀ c ∈ st.callers, c.stale) →
    runSchedule env b pixelsize src sched st = some st2 → ∀ c ∈ st2.callers, c.stale := by
  induction sched with
  | nil => intro st st2 hst h; cases h; exact hst
  | cons i rest ih =>
    intro st st2 hst h
    unfold runSchedule at h
    cases hi : st.callers[i]? with
    | none => simp only [hi] at h; cases h
    | some c =>
      simp only [hi] at h
      cases hs : pixelStep env b pixelsize src st.shared c with
      | none => simp only [hs] at h; cases h
      | some p =>
        obtain ⟨sh, c2⟩ := p
        simp only [hs] at h
        refine ih _ st2 ?_ h
        intro d hd
        have hcm : c ∈ st.callers := List.getElem?_mem hi
        have hc2 : c2.stale := pixelStep_stale env b pixelsize src _ _ _ _ (hst c hcm) hs
        rcases List.mem_or_eq_of_mem_set hd with hd | hd
        · exact hst d hd
        · exact hd ▸ hc2

theorem PixelRun.init_stale (cachemap : CacheMap) (n : Nat) :
    ∀ c ∈ (PixelRun.init cachemap n).callers, c.stale := by
  intro c hc
  have : c = PixelCaller.init := List.eq_of_mem_replicate hc
  subst this
  intro _; rfl

/-! ## Worker pool -/

theorem forall_mem_set {α : Type} (P : α → Prop) (l : List α) (i : Nat) (a : α)
    (h : ∀ x ∈ l, P x) (ha : P a) : ∀ x ∈ l.set i a, P x := by
  intro x hx
  rcases List.mem_or_eq_of_mem_set hx with hx | hx
  · exact h x hx
  · exact hx ▸ ha

theorem ThreadPool.step_counted (tp tp2 : ThreadPool) (e : PoolEvent)
    (h : tp.step e = some tp2) (hc : ∀ l ∈ tp.lanes, l.counted) :
    ∀ l ∈ tp2.lanes, l.counted := by
  cases e with
  | start i =>
    simp only [ThreadPool.step] at h
    cases hl : tp.lanes[i]? with
    | none => simp [hl] at h
    | some l =>
      have hcl := hc l (List.getElem?_mem hl)
      simp only [hl] at h
      split_ifs at h with hs
      cases h
      refine forall_mem_set _ _ _ _ hc ?_
      simp only [Lane.counted, Lane.inFlight, hs] at hcl ⊢
      simpa using hcl
  | push i v =>
    simp only [ThreadPool.step] at h
    cases hl : tp.lanes[i]? with
    | none => simp [hl] at h
    | some l =>
      have hcl := hc l (List.getElem?_mem hl)
      simp only [hl] at h
      split_ifs at h with h1 h2
      · cases h
        refine forall_mem_set _ _ _ _ hc ?_
        simp only [Lane.counted, Lane.inFlight, List.length_append, List.length_singleton] at hcl ⊢
        omega
      · cases h
        refine forall_mem_set _ _ _ _ hc ?_
        simp only [Lane.counted, Lane.inFlight, h2.2] at hcl ⊢
        simp at hcl ⊢
        omega
  | recv i =>
    simp only [ThreadPool.step] at h
    cases hl : tp.lanes[i]? with
    | none => simp [hl] at h
    | some l =>
      have hcl := hc l (List.getElem?_mem hl)
      simp only [hl] at h
      split_ifs at h with hs
      cases hq : l.queue with
      | nil => simp [hq] at h
      | cons v rest =>
        simp only [hq] at h
        cases h
        refine forall_mem_set _ _ _ _ hc ?_
        simp only [Lane.counted, Lane.inFlight, hs, hq, List.length_cons] at hcl ⊢
        simp at hcl ⊢
        omega
  | done i =>
    simp only [ThreadPool.step] at h
    cases hl : tp.lanes[i]? with
    | none => simp [hl] at h
    | some l =>
      have hcl := hc l (List.getElem?_mem hl)
      simp only [hl] at h
      split_ifs at h with hs
      cases h
      refine forall_mem_set _ _ _ _ hc ?_
      simp only [Lane.counted, Lane.inFlight, hs] at hcl ⊢
      simp at hcl ⊢
      omega
  | quit i =>
    simp only [ThreadPool.step] at h
    cases hl : tp.lanes[i]? with
    | none => simp [hl] at h
    | some l =>
      have hcl := hc l (List.getElem?_mem hl)
      simp only [hl] at h
      split_ifs at h with hs
      cases h
      refine forall_mem_set _ _ _ _ hc ?_
      simp only [Lane.counted, Lane.inFlight, hs.1] at hcl ⊢
      simpa using hcl
  | token =>
    simp only [ThreadPool.step] at h
    split_ifs at h
    cases h
    exact hc
  | wait =>
    simp only [ThreadPool.step] at h
    split_ifs at h
    cases h
    exact hc

theorem ThreadPool.step_drained (tp tp2 : ThreadPool) (e : PoolEvent)
    (h : tp.step e = some tp2) (he : e.isPush = false) (hc : ∀ l ∈ tp.lanes, l.drained) :
    ∀ l ∈ tp2.lanes, l.drained := by
  cases e with
  | start i =>
    simp only [ThreadPool.step] at h
    cases hl : tp.lanes[i]? with
    | none => simp [hl] at h
    | some l =>
      have hcl := hc l (List.getElem?_mem hl)
      simp only [hl] at h
      split_ifs at h with hs
      cases h
      refine forall_mem_set _ _ _ _ hc ?_
      exact ⟨hcl.1, by simp⟩
  | push i v => simp [PoolEvent.isPush] at he
  | recv i =>
    simp only [ThreadPool.step] at h
    cases hl : tp.lanes[i]? with
    | none => simp [hl] at h
    | some l =>
      have hcl := hc l (List.getElem?_mem hl)
      simp only [hl, hcl.1] at h
      split_ifs at h
  | done i =>
    simp only [ThreadPool.step] at h
    cases hl : tp.lanes[i]? with
    | none => simp [hl] at h
    | some l =>
      have hcl := hc l (List.getElem?_mem hl)
      simp only [hl] at h
      split_ifs at h with hs
      exact absurd hs hcl.2
  | quit i =>
    simp only [ThreadPool.step] at h
    cases hl : tp.lanes[i]? with
    | none => simp [hl] at h
    | some l =>
      have hcl := hc l (List.getElem?_mem hl)
      simp only [hl] at h
      split_ifs at h with hs
      cases h
      refine forall_mem_set _ _ _ _ hc ?_
      exact ⟨hcl.1, by simp⟩
  | token =>
    simp only [ThreadPool.step] at h
    split_ifs at h
    cases h
    exact hc
  | wait =>
    simp only [ThreadPool.step] at h
    split_ifs at h
    cases h
    exact hc

theorem ThreadPool.runEvents_counted (evs : List PoolEvent) :
    ∀ (tp tp2 : ThreadPool), tp.runEvents evs = some tp2 →
      (∀ l ∈ tp.lanes, l.counted) → ∀ l ∈ tp2.lanes, l.counted := by
  induction evs with
  | nil => intro tp tp2 h hc; cases h; exact hc
  | cons e rest ih =>
    intro tp tp2 h hc
    simp only [ThreadPool.runEvents] at h
    cases hs : tp.step e with
    | none => simp [hs] at h
    | some tp1 =>
      simp only [hs] at h
      exact ih tp1 tp2 h (ThreadPool.step_counted tp tp1 e hs hc)

theorem ThreadPool.runEvents_drained (evs : List PoolEvent) :
    ∀ (tp tp2 : ThreadPool), tp.runEvents evs = some tp2 →
      (∀ e ∈ evs, e.isPush = false) →
      (∀ l ∈ tp.lanes, l.drained) → ∀ l ∈ tp2.lanes, l.drained := by
  induction evs with
  | nil => intro tp tp2 h _ hc; cases h; exact hc
  | cons e rest ih =>
    intro tp tp2 h he hc
    simp only [ThreadPool.runEvents] at h
    cases hs : tp.step e with
    | none => simp [hs] at h
    | some tp1 =>
      simp only [hs] at h
      exact ih tp1 tp2 h (fun x hx => he x (List.mem_cons_of_mem _ hx))
        (ThreadPool.step_drained tp tp1 e hs (he e (List.mem_cons_self _ _)) hc)

theorem NewThreadPool_counted (max buffer : Nat) :
    ∀ l ∈ (NewThreadPool max buffer).lanes, l.counted := by
  intro l hl
  have : l = { queue := [], Pushnum := 0, Processnum := 0, status := .spawned } :=
    List.eq_of_mem_replicate hl
  subst this
  simp [Lane.counted, Lane.inFlight]

/-- C12, counterexample: one lane with the channel capacity 16 of the call
sites.  The lane is inside `exef` for job 1 when job 2 is submitted and `Stop`
sends its token; back at the `select` both the token and job 2 are ready and
the lane takes the token (mosaic.go:1063).  `Stop` returns with
`Pushnum[0] = 2`, `Processnum[0] = 1` and job 2 still in `ca[0]`. -/
theorem ThreadPool_stop_leaves_job_queued :
    (NewThreadPool 1 16).runEvents
        [.start 0, .push 0 1, .recv 0, .push 0 2, .token, .done 0, .quit 0, .wait]
      = some { lanes := [{ queue := [2], Pushnum := 2, Processnum := 1, status := .exited }],
               buffer := 16, control := 0, workResultLock := 0, sent := 1, stopped := true } := by
  decide

/-- C12, amended: for every pool and every execution `evs1` of it after which
every lane has executed all jobs delivered to it (empty queue, not inside
`exef`), and every continuation `evs2` without submissions (the steps of `Stop`
and of the lanes), every lane ends with `Processnum = Pushnum` and an empty
queue; in particular when `Stop` has returned. -/
theorem ThreadPool_stop_after_drain (max buffer : Nat) (evs1 evs2 : List PoolEvent)
    (tp1 tp2 : ThreadPool)
    (h1 : (NewThreadPool max buffer).runEvents evs1 = some tp1)
    (hd : ∀ l ∈ tp1.lanes, l.drained)
    (hn : ∀ e ∈ evs2, e.isPush = false)
    (h2 : tp1.runEvents evs2 = some tp2) :
    ∀ l ∈ tp2.lanes, l.Processnum = l.Pushnum ∧ l.queue = [] := by
  intro l hl
  have hc1 := ThreadPool.runEvents_counted evs1 _ tp1 h1 (NewThreadPool_counted max buffer)
  have hc2 := ThreadPool.runEvents_counted evs2 tp1 tp2 h2 hc1 l hl
  have hd2 := ThreadPool.runEvents_drained evs2 tp1 tp2 h2 hn hd l hl
  obtain ⟨hq, hb⟩ := hd2
  simp only [Lane.counted, Lane.inFlight, hq, hb, if_false, List.length_nil] at hc2
  exact ⟨by omega, hq⟩

/-- C12, witness of the amended statement: two lanes, three jobs, all executed
before `Stop` sends its tokens. -/
theorem ThreadPool_stop_after_drain_witness :
    (NewThreadPool 2 16).runEvents
        [.start 0, .push 0 1, .push 1 2, .recv 0, .start 1, .push 0 3, .done 0, .recv 1,
         .recv 0, .done 1, .done 0]
      = some { lanes := [{ queue := [], Pushnum := 2, Processnum := 2, status := .idle },
                         { queue := [], Pushnum := 1, Processnum := 1, status := .idle }],
               buffer := 16, control := 0, workResultLock := 2, sent := 0, stopped := false } ∧
    ({ lanes := [{ queue := [], Pushnum := 2, Processnum := 2, status := .idle },
                 { queue := [], Pushnum := 1, Processnum := 1, status := .idle }],
       buffer := 16, control := 0, workResultLock := 2, sent := 0,
       stopped := false } : ThreadPool).runEvents [.token, .quit 1, .token, .quit 0, .wait]
      = some { lanes := [{ queue := [], Pushnum := 2, Processnum := 2, status := .exited },
                         { queue := [], Pushnum := 1, Processnum := 1, status := .exited }],
               buffer := 16, control := 0, workResultLock := 0, sent := 2, stopped := true } ∧
    ∀ l ∈ [({ queue := [], Pushnum := 2, Processnum := 2, status := .exited } : Lane),
           { queue := [], Pushnum := 1, Processnum := 1, status := .exited }],
      l.Processnum = l.Pushnum ∧ l.queue = [] :=
  ⟨by decide, by decide,
   ThreadPool_stop_after_drain 2 16
     [.start 0, .push 0 1, .push 1 2, .recv 0, .start 1, .push 0 3, .done 0, .recv 1,
      .recv 0, .done 1, .done 0]
     [.token, .quit 1, .token, .quit 0, .wait]
     { lanes := [{ queue := [], Pushnum := 2, Processnum := 2, status := .idle },
                 { queue := [], Pushnum := 1, Processnum := 1, status := .idle }],
       buffer := 16, control := 0, workResultLock := 2, sent := 0, stopped := false }
     { lanes := [{ queue := [], Pushnum := 2, Processnum := 2, status := .exited },
                 { queue := [], Pushnum := 1, Processnum := 1, status := .exited }],
       buffer := 16, control := 0, workResultLock := 0, sent := 2, stopped := true }
     (by decide) (by decide) (by decide) (by decide)⟩

/-! ## Cache keys -/

theorem append_sep_inj {α : Type} (c : α) :
    ∀ (l1 l2 t1 t2 : List α), c ∉ l1 → c ∉ l2 → l1 ++ c :: t1 = l2 ++ c :: t2 →
      l1 = l2 ∧ t1 = t2 := by
  intro l1
  induction l1 with
  | nil =>
    intro l2 t1 t2 _ h2 h
    cases l2 with
    | nil => simp at h; exact ⟨rfl, h⟩
    | cons a l2 =>
      simp only [List.nil_append, List.cons_append, List.cons.injEq] at h
      exact absurd (h.1 ▸ List.mem_cons_self _ _) h2
  | cons a l1 ih =>
    intro l2 t1 t2 h1 h2 h
    cases l2 with
    | nil =>
      simp only [List.nil_append, List.cons_append, List.cons.injEq] at h
      exact absurd (h.1 ▸ List.mem_cons_self _ _) h1
    | cons a2 l2 =>
      simp only [List.cons_append, List.cons.injEq] at h
      obtain ⟨r1, r2⟩ := ih l2 t1 t2 (fun hm => h1 (List.mem_cons_of_mem _ hm))
        (fun hm => h2 (List.mem_cons_of_mem _ hm)) h.2
      exact ⟨by rw [h.1, r1], r2⟩

set_option maxRecDepth 100000 in
theorem toDigits_no_space : ∀ n : Fin 256, ' ' ∉ Nat.toDigits 10 n.val := by
  decide

set_option maxRecDepth 100000 in
theorem digitsValue_toDigits : ∀ n : Fin 256, digitsValue (Nat.toDigits 10 n.val) = n.val := by
  decide

theorem Itoa_data (n : Nat) : (Itoa n).data = Nat.toDigits 10 n := rfl

theorem make_string_data (r g b : uint8) :
    (make_string r g b).data =
      'r' :: ' ' :: (Nat.toDigits 10 r.val ++ ' ' :: ('g' :: ' ' :: (Nat.toDigits 10 g.val ++
        ' ' :: ('b' :: ' ' :: Nat.toDigits 10 b.val)))) := by
  simp [make_string, String.data_append, Itoa_data]

/-- The key determines the three channels: the decimal numbers are separated by
blanks, and a decimal number holds no blank. -/
theorem make_string_inj (r1 g1 b1 r2 g2 b2 : uint8)
    (h : make_string r1 g1 b1 = make_string r2 g2 b2) : r1 = r2 ∧ g1 = g2 ∧ b1 = b2 := by
  have hd := congrArg String.data h
  rw [make_string_data, make_string_data] at hd
  simp only [List.cons.injEq, true_and] at hd
  obtain ⟨hr, hd⟩ := append_sep_inj ' ' _ _ _ _ (toDigits_no_space r1) (toDigits_no_space r2) hd
  simp only [List.cons.injEq, true_and] at hd
  obtain ⟨hg, hd⟩ := append_sep_inj ' ' _ _ _ _ (toDigits_no_space g1) (toDigits_no_space g2) hd
  simp only [List.cons.injEq, true_and] at hd
  have key : ∀ a b : uint8, Nat.toDigits 10 a.val = Nat.toDigits 10 b.val → a = b := by
    intro a b hab
    apply Fin.ext
    rw [← digitsValue_toDigits a, ← digitsValue_toDigits b, hab]
  exact ⟨key _ _ hr, key _ _ hg, key _ _ hd⟩

/-- C13: `make_string` is injective on 8-bit colour triples: two triples have
the same key exactly when they are the same triple.  -/
theorem make_string_eq_iff (r1 g1 b1 r2 g2 b2 : uint8) :
    make_string r1 g1 b1 = make_string r2 g2 b2 ↔ r1 = r2 ∧ g1 = g2 ∧ b1 = b2 := by
  constructor
  · exact make_string_inj r1 g1 b1 r2 g2 b2
  · rintro ⟨rfl, rfl, rfl⟩; rfl

/-- Two pixels fall into the same bucket of `pixelnum`, and two source colours
share a cache entry, exactly when their 8-bit channels agree. -/
theorem Color16.key_eq_iff (c1 c2 : Color16) : c1.key = c2.key ↔ c1.toRGBA = c2.toRGBA := by
  unfold Color16.key
  constructor
  · intro h
    obtain ⟨hr, hg, hb⟩ := make_string_inj _ _ _ _ _ _ h
    cases h1 : c1.toRGBA
    cases h2 : c2.toRGBA
    have ha1 : c1.toRGBA.A = 0 := rfl
    have ha2 : c2.toRGBA.A = 0 := rfl
    simp only [h1, h2] at hr hg hb ha1 ha2
    simp [hr, hg, hb, ha1, ha2]
  · intro h; rw [h]

/-! ## Pre-registered cache keys -/

theorem selectLoopWith_id : ∀ (fuel : Nat) (pixelnum : List (String × Int)) (cachemap : CacheMap),
    selectLoopWith (fun _ l => l) fuel pixelnum cachemap = selectLoop fuel pixelnum cachemap := by
  intro fuel
  induction fuel with
  | zero => intro _ _; rfl
  | succ n ih =>
    intro pixelnum cachemap
    simp only [selectLoopWith, selectLoop]
    split_ifs
    · exact ih _ _
    · rfl

/-- The map the code works with is the instance of the general loop that
ranges over the entries as listed. -/
theorem parse_src_cacheWith_id (img : Image) :
    parse_src_cacheWith (fun _ l => l) img = parse_src_cache img :=
  selectLoopWith_id _ _ _

theorem find?_map_upd {β : Type} (k k2 : String) (g : String × β → String × β)
    (hg : ∀ e, (g e).1 = e.1) (l : List (String × β)) :
    (l.map (fun e => if e.1 == k then g e else e)).find? (fun e => e.1 == k2)
      = (l.find? (fun e => e.1 == k2)).map (fun e => if e.1 == k then g e else e) := by
  induction l with
  | nil => rfl
  | cons a l ih =>
    simp only [List.map_cons, List.find?_cons]
    have h1 : (if a.1 == k then g a else a).1 = a.1 := by
      split_ifs
      · exact hg a
      · rfl
    rw [h1]
    cases h : a.1 == k2
    · simpa using ih
    · simp

theorem find?_append_single {β : Type} (k k2 : String) (d : β) (l : List (String × β))
    (h : l.any (fun e => e.1 == k) = false) :
    (l ++ [(k, d)]).find? (fun e => e.1 == k2)
      = if k2 = k then some (k, d) else l.find? (fun e => e.1 == k2) := by
  rw [List.find?_append]
  by_cases hk : k2 = k
  · subst hk
    have : l.find? (fun e => e.1 == k2) = none := by
      rw [List.find?_eq_none]
      intro x hx
      have := List.any_eq_false.mp h x hx
      simpa using this
    simp [this]
  · rw [if_neg hk]
    have hne : (k == k2) = false := by simpa using fun h => hk h.symm
    simp [List.find?_cons, hne]

theorem getCount_incr (pn : List (String × Int)) (k k2 : String) :
    getCount (incr pn k) k2 = getCount pn k2 + (if k2 = k then 1 else 0) := by
  unfold getCount incr
  cases hany : pn.any (fun e => e.1 == k)
  · simp only [Bool.false_eq_true, if_false]
    rw [find?_append_single k k2 1 pn hany]
    by_cases hk : k2 = k
    · subst hk
      have : pn.find? (fun e => e.1 == k2) = none := by
        rw [List.find?_eq_none]
        intro x hx
        have := List.any_eq_false.mp hany x hx
        simpa using this
      simp [this]
    · simp [hk]
  · simp only [if_true]
    rw [find?_map_upd k k2 (fun e => (e.1, e.2 + 1)) (fun _ => rfl)]
    cases hf : pn.find? (fun e => e.1 == k2) with
    | none =>
      have hk : k2 ≠ k := by
        intro hk
        subst hk
        rw [List.find?_eq_none] at hf
        obtain ⟨x, hx, hxk⟩ := List.any_eq_true.mp hany
        exact hf x hx hxk
      simp [hk]
    | some e =>
      have he : e.1 = k2 := by simpa using List.find?_some hf
      simp only [Option.map_some']
      by_cases hk : k2 = k
      · subst hk; simp [he]
      · have : ¬ e.1 = k := by rw [he]; exact hk
        simp [hk, this]

theorem getCount_countPixels_aux (k : String) (ps : List Color16) :
    ∀ pn : List (String × Int),
      getCount (ps.foldl (fun m c => incr m c.key) pn) k
        = getCount pn k + (ps.countP (fun c => c.key == k) : Nat) := by
  induction ps with
  | nil => intro pn; simp
  | cons c ps ih =>
    intro pn
    rw [List.foldl_cons, ih, getCount_incr, List.countP_cons]
    by_cases h : k = c.key
    · subst h; simp; ring
    · have : ¬ c.key = k := fun h2 => h h2.symm
      simp [h, this]

/-- After the counting loops `pixelnum[key]` is the number of pixels with that
key. -/
theorem getCount_countPixels (img : Image) (k : String) :
    getCount (countPixels img) k = keyCount img k := by
  unfold countPixels keyCount
  rw [getCount_countPixels_aux]
  simp [getCount]
theorem find?_map_upd2 {β : Type} (k k2 : String) (g : String × β → String × β)
    (hg : ∀ e, e.1 = k → (g e).1 = e.1) (l : List (String × β)) :
    (l.map (fun e => if e.1 == k then g e else e)).find? (fun e => e.1 == k2)
      = (l.find? (fun e => e.1 == k2)).map (fun e => if e.1 == k then g e else e) := by
  induction l with
  | nil => rfl
  | cons a l ih =>
    simp only [List.map_cons, List.find?_cons]
    have h1 : (if a.1 == k then g a else a).1 = a.1 := by
      split_ifs with h
      · exact hg a (by simpa using h)
      · rfl
    rw [h1]
    cases h : a.1 == k2
    · simpa using ih
    · simp

theorem map_upd_keys {β : Type} (k : String) (g : String × β → String × β)
    (hg : ∀ e, (g e).1 = e.1) (l : List (String × β)) :
    (l.map (fun e => if e.1 == k then g e else e)).map Prod.fst = l.map Prod.fst := by
  rw [List.map_map]
  apply List.map_congr_left
  intro e _
  simp only [Function.comp]
  split_ifs
  · exact hg e
  · rfl

theorem incr_keys_nodup (pn : List (String × Int)) (k : String)
    (h : (pn.map Prod.fst).Nodup) : ((incr pn k).map Prod.fst).Nodup := by
  unfold incr
  cases hany : pn.any (fun e => e.1 == k)
  · simp only [Bool.false_eq_true, if_false, List.map_append, List.map_cons, List.map_nil]
    rw [List.nodup_append]
    refine ⟨h, List.nodup_singleton _, ?_⟩
    intro a ha hb
    simp only [List.mem_singleton] at hb
    subst hb
    obtain ⟨e, he, hea⟩ := List.mem_map.mp ha
    have := List.any_eq_false.mp hany e he
    simp [hea] at this
  · simp only [if_true]
    rw [map_upd_keys k (fun e => (e.1, e.2 + 1)) (fun _ => rfl)]
    exact h

theorem countPixels_keys_nodup (img : Image) : ((countPixels img).map Prod.fst).Nodup := by
  unfold countPixels
  have : ∀ (ps : List Color16) (pn : List (String × Int)), (pn.map Prod.fst).Nodup →
      ((ps.foldl (fun m c => incr m c.key) pn).map Prod.fst).Nodup := by
    intro ps
    induction ps with
    | nil => intro pn h; exact h
    | cons c ps ih => intro pn h; exact ih _ (incr_keys_nodup pn c.key h)
  exact this _ _ List.nodup_nil

theorem setZero_of_mem (pn : List (String × Int)) (k : String) (v : Int) (h : (k, v) ∈ pn) :
    setZero pn k = pn.map (fun e => if e.1 == k then (e.1, 0) else e) := by
  unfold setZero
  have : pn.any (fun e => e.1 == k) = true := List.any_eq_true.mpr ⟨(k, v), h, by simp⟩
  rw [this]; rfl

theorem getCount_of_mem (pn : List (String × Int)) (k : String) (v : Int)
    (hn : (pn.map Prod.fst).Nodup) (h : (k, v) ∈ pn) : getCount pn k = v := by
  unfold getCount
  induction pn with
  | nil => cases h
  | cons a pn ih =>
    simp only [List.map_cons, List.nodup_cons] at hn
    rw [List.find?_cons]
    rcases List.mem_cons.mp h with h | h
    · subst h; simp
    · have hne : a.1 ≠ k := by
        intro hak
        exact hn.1 (hak ▸ List.mem_map.mpr ⟨(k, v), h, rfl⟩)
      have : (a.1 == k) = false := by simpa using hne
      rw [this]
      exact ih hn.2 h

theorem getCount_mem_or_zero (pn : List (String × Int)) (k : String) :
    (k, getCount pn k) ∈ pn ∨ getCount pn k = 0 := by
  unfold getCount
  cases hf : pn.find? (fun e => e.1 == k) with
  | none => right; rfl
  | some e =>
    left
    have he : e.1 = k := by simpa using List.find?_some hf
    have hm := List.mem_of_find?_eq_some hf
    simp only
    rw [← he]
    exact hm

theorem getCount_setZero (pn : List (String × Int)) (k k2 : String) (v : Int)
    (h : (k, v) ∈ pn) :
    getCount (setZero pn k) k2 = if k2 = k then 0 else getCount pn k2 := by
  rw [setZero_of_mem pn k v h]
  unfold getCount
  rw [find?_map_upd k k2 (fun e => (e.1, 0)) (fun _ => rfl)]
  cases hf : pn.find? (fun e => e.1 == k2) with
  | none =>
    simp only [Option.map_none']
    split_ifs <;> rfl
  | some e =>
    have he : e.1 = k2 := by simpa using List.find?_some hf
    simp only [Option.map_some']
    by_cases hk : k2 = k
    · subst hk; simp [he]
    · have : ¬ e.1 = k := by rw [he]; exact hk
      simp [hk, this]

theorem setZero_keys_nodup (pn : List (String × Int)) (k : String) (v : Int)
    (h : (k, v) ∈ pn) (hn : (pn.map Prod.fst).Nodup) :
    ((setZero pn k).map Prod.fst).Nodup := by
  rw [setZero_of_mem pn k v h, map_upd_keys k (fun e => (e.1, 0)) (fun _ => rfl)]
  exact hn

theorem CacheMap.Load_Store (m : CacheMap) (k k2 : String) (ci : CacheInfo) :
    (m.Store k ci).Load k2 = if k2 = k then some ci else m.Load k2 := by
  unfold CacheMap.Store CacheMap.Load
  cases hany : m.any (fun e => e.1 == k)
  · simp only [Bool.false_eq_true, if_false]
    rw [find?_append_single k k2 ci m hany]
    split_ifs <;> rfl
  · simp only [if_true]
    rw [find?_map_upd2 k k2 (fun _ => (k, ci)) (fun e he => he.symm)]
    · cases hf : List.find? (fun e => e.1 == k2) m with
      | none =>
        have hk : k2 ≠ k := by
          intro hk
          subst hk
          rw [List.find?_eq_none] at hf
          obtain ⟨x, hx, hxk⟩ := List.any_eq_true.mp hany
          exact hf x hx hxk
        simp [hk]
      | some e =>
        have he : e.1 = k2 := by simpa using List.find?_some hf
        simp only [Option.map_some']
        by_cases hk : k2 = k
        · subst hk; simp [he]
        · have : ¬ e.1 = k := by rw [he]; exact hk
          simp [hk, this]

/-- The result of one pass of the inner loop: its count is at least 0 and at
least every count of the map, and when it is positive the pair is an entry of
the map. -/
theorem maxEntry_spec (l : List (String × Int)) :
    0 ≤ (maxEntry l).2 ∧ (∀ e ∈ l, e.2 ≤ (maxEntry l).2) ∧
      (0 < (maxEntry l).2 → maxEntry l ∈ l) := by
  unfold maxEntry
  have : ∀ (l : List (String × Int)) (acc : String × Int),
      acc.2 ≤ (l.foldl (fun acc e => if e.2 > acc.2 then (e.1, e.2) else acc) acc).2 ∧
      (∀ e ∈ l, e.2 ≤ (l.foldl (fun acc e => if e.2 > acc.2 then (e.1, e.2) else acc) acc).2) ∧
      (l.foldl (fun acc e => if e.2 > acc.2 then (e.1, e.2) else acc) acc = acc ∨
        l.foldl (fun acc e => if e.2 > acc.2 then (e.1, e.2) else acc) acc ∈ l) := by
    intro l
    induction l with
    | nil => intro acc; simp
    | cons a l ih =>
      intro acc
      rw [List.foldl_cons]
      obtain ⟨h1, h2, h3⟩ := ih (if a.2 > acc.2 then (a.1, a.2) else acc)
      by_cases ha : a.2 > acc.2
      · simp only [ha, if_true] at h1 h2 h3 ⊢
        refine ⟨by omega, ?_, ?_⟩
        · intro e he
          rcases List.mem_cons.mp he with he | he
          · subst he; exact h1
          · exact h2 e he
        · right
          rcases h3 with h3 | h3
          · rw [h3]; exact List.mem_cons_self _ _
          · exact List.mem_cons_of_mem _ h3
      · simp only [ha, if_false] at h1 h2 h3 ⊢
        refine ⟨h1, ?_, ?_⟩
        · intro e he
          rcases List.mem_cons.mp he with he | he
          · subst he; omega
          · exact h2 e he
        · rcases h3 with h3 | h3
          · left; exact h3
          · right; exact List.mem_cons_of_mem _ h3
  obtain ⟨h1, h2, h3⟩ := this l ("", 0)
  refine ⟨h1, h2, ?_⟩
  intro hpos
  rcases h3 with h3 | h3
  · rw [h3] at hpos; simp at hpos
  · exact h3

theorem countP_setZero_lt (pn : List (String × Int)) (k : String) (v : Int)
    (h : (k, v) ∈ pn) (hv : 16 ≤ v) :
    (setZero pn k).countP (fun e => decide (16 ≤ e.2)) < pn.countP (fun e => decide (16 ≤ e.2)) := by
  rw [setZero_of_mem pn k v h]
  have hle : ∀ l : List (String × Int),
      (l.map (fun e => if e.1 == k then (e.1, (0 : Int)) else e)).countP (fun e => decide (16 ≤ e.2))
        ≤ l.countP (fun e => decide (16 ≤ e.2)) := by
    intro l
    induction l with
    | nil => exact Nat.le_refl _
    | cons a l ih =>
      simp only [List.map_cons, List.countP_cons]
      generalize List.countP (fun e => decide (16 ≤ e.2))
        (List.map (fun e => if e.1 == k then (e.1, (0 : Int)) else e) l) = x at ih ⊢
      generalize List.countP (fun e => decide (16 ≤ e.2)) l = y at ih ⊢
      by_cases hak : a.1 = k
      · simp [hak]; omega
      · simp [hak]; omega
  induction pn with
  | nil => cases h
  | cons a pn ih =>
    simp only [List.map_cons, List.countP_cons]
    rcases List.mem_cons.mp h with h | h
    · subst h
      have := hle pn
      generalize List.countP (fun e => decide (16 ≤ e.2))
        (List.map (fun e => if e.1 == k then (e.1, (0 : Int)) else e) pn) = x at this ⊢
      generalize List.countP (fun e => decide (16 ≤ e.2)) pn = y at this ⊢
      simp [hv]
      omega
    · have := ih h
      generalize List.countP (fun e => decide (16 ≤ e.2))
        (List.map (fun e => if e.1 == k then (e.1, (0 : Int)) else e) pn) = x at this ⊢
      generalize List.countP (fun e => decide (16 ≤ e.2)) pn = y at this ⊢
      by_cases hak : a.1 = k
      · simp [hak]; omega
      · simp [hak]; omega
/-- The selection loop for any iteration order: when the keys of the map are
distinct and the entries with a count of at least 16 are fewer than the bound
on the iterations, the loop ends; afterwards a key whose count was at least 16
holds that count and no images, and every other key is as before. -/
theorem selectLoopWith_spec (order : Nat → List (String × Int) → List (String × Int))
    (horder : ∀ n l, (order n l).Perm l) :
    ∀ (fuel : Nat) (pn : List (String × Int)) (cm : CacheMap),
      (pn.map Prod.fst).Nodup → pn.countP (fun e => decide (16 ≤ e.2)) < fuel →
      ∃ cm2, selectLoopWith order fuel pn cm = some cm2 ∧
        ∀ k, cm2.Load k =
          if 16 ≤ getCount pn k then some { num := getCount pn k, img := [] } else cm.Load k := by
  intro fuel
  induction fuel with
  | zero => intro pn cm _ h; omega
  | succ n ih =>
    intro pn cm hn hlt
    obtain ⟨_, hmax, hmem⟩ := maxEntry_spec (order n pn)
    simp only [selectLoopWith]
    by_cases hm : (maxEntry (order n pn)).2 ≥ 16
    · rw [if_pos hm]
      have hin : ((maxEntry (order n pn)).1, (maxEntry (order n pn)).2) ∈ pn :=
        (horder n pn).mem_iff.mp (hmem (by omega))
      have hdec := countP_setZero_lt pn _ _ hin hm
      obtain ⟨cm2, hrun, hload⟩ := ih (setZero pn (maxEntry (order n pn)).1)
        (cm.Store (maxEntry (order n pn)).1 { num := (maxEntry (order n pn)).2, img := [] })
        (setZero_keys_nodup pn _ _ hin hn) (by omega)
      refine ⟨cm2, hrun, ?_⟩
      intro k
      rw [hload k, getCount_setZero pn _ k _ hin, CacheMap.Load_Store]
      by_cases hk : k = (maxEntry (order n pn)).1
      · have hg : getCount pn k = (maxEntry (order n pn)).2 := by
          rw [hk]; exact getCount_of_mem pn _ _ hn hin
        rw [if_pos hk, if_neg (by norm_num), if_pos hk, hg, if_pos hm]
      · rw [if_neg hk, if_neg hk]
    · rw [if_neg hm]
      refine ⟨cm, rfl, ?_⟩
      intro k
      have hsmall : ¬ 16 ≤ getCount pn k := by
        rcases getCount_mem_or_zero pn k with h | h
        · have := hmax _ ((horder n pn).mem_iff.mpr h)
          simp only at this
          omega
        · rw [h]; norm_num
      rw [if_neg hsmall]

theorem keyCount_make_string (img : Image) (r g b : uint8) :
    keyCount img (make_string r g b) = colourCount img r g b := by
  unfold keyCount colourCount
  congr 1
  apply List.countP_congr
  intro c _
  simp only [beq_iff_eq, decide_eq_true_eq]
  exact ⟨make_string_inj _ _ _ _ _ _, fun ⟨h1, h2, h3⟩ => by unfold Color16.key; rw [h1, h2, h3]⟩

/-- C14: for every source image and every iteration order of the map ranges,
the selection loop of `parse_src` ends (within one more iteration than there
are colours), and the cache map it returns holds under a key an entry exactly
when at least 16 pixels of the image have that key, with `num` the number of
those pixels and no images; the key of a colour counts the pixels of that
colour. -/
theorem parse_src_cache_keys (order : Nat → List (String × Int) → List (String × Int))
    (horder : ∀ n l, (order n l).Perm l) (img : Image) :
    ∃ cm, parse_src_cacheWith order img = some cm ∧
      (∀ k, cm.Load k =
        if 16 ≤ keyCount img k then some { num := keyCount img k, img := [] } else none) ∧
      (∀ r g b, keyCount img (make_string r g b) = colourCount img r g b) := by
  obtain ⟨cm, hrun, hload⟩ := selectLoopWith_spec order horder ((countPixels img).length + 1)
    (countPixels img) [] (countPixels_keys_nodup img)
    (Nat.lt_succ_of_le (List.countP_le_length _))
  refine ⟨cm, hrun, ?_, keyCount_make_string img⟩
  intro k
  rw [hload k, getCount_countPixels]
  rfl

/-- C14, witness: a 4 by 4 source of red pixels, the map ranged over in
reverse order; the cache map holds red with `num = 16`. -/
theorem parse_src_cache_keys_witness :
    (∀ l : List (String × Int), l.reverse.Perm l) ∧
    (parse_src_cacheWith (fun _ l => List.reverse l)
        (uniformSource 4 4 ⟨65535, 0, 0, 65535⟩)).map (fun cm => cm.map (fun e => (e.1, e.2.num)))
      = some [("r 255 g 0 b 0", 16)] ∧
    ∃ cm, parse_src_cacheWith (fun _ l => List.reverse l) (uniformSource 4 4 ⟨65535, 0, 0, 65535⟩)
        = some cm ∧
      (∀ k, cm.Load k =
        if 16 ≤ keyCount (uniformSource 4 4 ⟨65535, 0, 0, 65535⟩) k then
          some { num := keyCount (uniformSource 4 4 ⟨65535, 0, 0, 65535⟩) k, img := [] }
        else none) ∧
      (∀ r g b, keyCount (uniformSource 4 4 ⟨65535, 0, 0, 65535⟩) (make_string r g b)
        = colourCount (uniformSource 4 4 ⟨65535, 0, 0, 65535⟩) r g b) :=
  ⟨fun l => List.reverse_perm l, by decide,
   parse_src_cache_keys (fun _ l => List.reverse l) (fun _ l => List.reverse_perm l)
     (uniformSource 4 4 ⟨65535, 0, 0, 65535⟩)⟩

/-! ## Fingerprint colour, as stored -/

/-- After `b.Put(k, v)` the value under `k` is `v`. -/
theorem Store.Get_Put {V : Type} (b : Store V) (k : String) (v : V) :
    (b.Put k v).Get k = some v := by
  unfold Store.Put Store.Get
  cases hany : b.any (fun e => e.1 == k)
  · simp only [Bool.false_eq_true, if_false]
    rw [find?_append_single k k v b hany, if_pos rfl]
    rfl
  · simp only [if_true]
    rw [find?_map_upd2 k k (fun _ => (k, v)) (fun e he => he.symm)]
    obtain ⟨x, hx, hxk⟩ := List.any_eq_true.mp hany
    cases hf : b.find? (fun e => e.1 == k) with
    | none =>
      rw [List.find?_eq_none] at hf
      exact absurd hxk (hf x hx)
    | some e =>
      have he : (e.1 == k) = true := by simpa using List.find?_some hf
      simp only [Option.map_some', he, if_true]

/-- C10: for every library file that decodes and that `calc_img` prepares into
a tile with at least one pixel and at most `2 ^ 45` pixels (the RGBA buffer of
the tile takes 4 bytes per pixel, so this is every tile of at most `2 ^ 47`
bytes), `calc_avg_color` marks the entry `ok` and stores in its `FileInfo`, for
each of R, G and B, the value `floor(sum / count)` of the 8-bit channel values
of the tile; the stored value lies between any lower and upper bound of the
channel values of the tile, so between their minimum and maximum; a tile whose
pixels all have the colour `(r, g, b)` gets exactly `(r, g, b)`; and
`save_to_database` puts the encoding of that `FileInfo` under the file name. -/
theorem calc_avg_color_floor {V : Type} (env : Env V) (ovf : uint8) (pixelsize : Int)
    (cfi : CalFileInfo) (bytes : Bytes) (img tile : Image)
    (hfs : env.fs cfi.fi.Filename = some bytes) (hdec : env.imageDecode bytes = some img)
    (htile : calc_img env.draw img pixelsize = .ok tile)
    (hne : tile.pixels ≠ []) (hmem : tile.pixels.length ≤ 2 ^ 45) :
    (calc_avg_color env ovf pixelsize cfi).ok = true ∧
    ((calc_avg_color env ovf pixelsize cfi).fi.R.val
        = (tile.pixels.map Color16.R8).sum / tile.pixels.length ∧
      (calc_avg_color env ovf pixelsize cfi).fi.G.val
        = (tile.pixels.map Color16.G8).sum / tile.pixels.length ∧
      (calc_avg_color env ovf pixelsize cfi).fi.B.val
        = (tile.pixels.map Color16.B8).sum / tile.pixels.length) ∧
    (∀ lo hi, (∀ c ∈ tile.pixels, lo ≤ c.R8 ∧ c.R8 ≤ hi) →
      lo ≤ (calc_avg_color env ovf pixelsize cfi).fi.R.val ∧
      (calc_avg_color env ovf pixelsize cfi).fi.R.val ≤ hi) ∧
    (∀ lo hi, (∀ c ∈ tile.pixels, lo ≤ c.G8 ∧ c.G8 ≤ hi) →
      lo ≤ (calc_avg_color env ovf pixelsize cfi).fi.G.val ∧
      (calc_avg_color env ovf pixelsize cfi).fi.G.val ≤ hi) ∧
    (∀ lo hi, (∀ c ∈ tile.pixels, lo ≤ c.B8 ∧ c.B8 ≤ hi) →
      lo ≤ (calc_avg_color env ovf pixelsize cfi).fi.B.val ∧
      (calc_avg_color env ovf pixelsize cfi).fi.B.val ≤ hi) ∧
    (∀ r g b : uint8, (∀ c ∈ tile.pixels, c.R8 = r.val ∧ c.G8 = g.val ∧ c.B8 = b.val) →
      (calc_avg_color env ovf pixelsize cfi).fi.R = r ∧
      (calc_avg_color env ovf pixelsize cfi).fi.G = g ∧
      (calc_avg_color env ovf pixelsize cfi).fi.B = b) ∧
    (∀ b : Store V, (save_to_database env [calc_avg_color env ovf pixelsize cfi] b).Get
        cfi.fi.Filename = some (env.gobEncode (calc_avg_color env ovf pixelsize cfi).fi)) := by
  have e : calc_avg_color env ovf pixelsize cfi =
      { fi := { cfi.fi with R := (avgColor ovf tile.pixels).1, G := (avgColor ovf tile.pixels).2.1,
                            B := (avgColor ovf tile.pixels).2.2,
                            Hash := env.GetXXHashString bytes }
        ok := true
        done := true } := by
    unfold calc_avg_color
    simp only [hfs, hdec, htile]
  obtain ⟨⟨eR, eG, eB⟩, bR, bG, bB, hu⟩ := avgColor_floor ovf tile hne hmem
  rw [e]
  refine ⟨rfl, ⟨eR, eG, eB⟩, bR, bG, bB, ?_, ?_⟩
  · intro r g b h
    have := hu r g b h
    simp only [this]
    trivial
  · intro b
    simp only [save_to_database, List.foldl_cons, List.foldl_nil, if_true]
    exact Store.Get_Put b _ _

/-- C10, witness: the entry for `/lib/a.png` of the example library, whose
prepared tile is the 2 by 2 red tile; the stored colour is `(255, 0, 0)`. -/
theorem calc_avg_color_floor_witness :
    (demoEnv.fs demoEntry.fi.Filename = some [1] ∧
      demoEnv.imageDecode [1] = some redTile ∧
      calc_img demoEnv.draw redTile 2 = .ok redTile ∧
      redTile.pixels ≠ [] ∧ redTile.pixels.length ≤ 2 ^ 45) ∧
    (∀ c ∈ redTile.pixels, c.R8 = (255 : uint8).val ∧ c.G8 = (0 : uint8).val ∧
      c.B8 = (0 : uint8).val) ∧
    ((calc_avg_color demoEnv 0 2 demoEntry).ok = true ∧
      (calc_avg_color demoEnv 0 2 demoEntry).fi.R = 255 ∧
      (calc_avg_color demoEnv 0 2 demoEntry).fi.G = 0 ∧
      (calc_avg_color demoEnv 0 2 demoEntry).fi.B = 0) :=
  ⟨⟨rfl, rfl, rfl, by decide, by decide⟩, by decide,
   (calc_avg_color_floor demoEnv 0 2 demoEntry [1] redTile redTile rfl rfl rfl
      (by decide) (by decide)).1,
   (calc_avg_color_floor demoEnv 0 2 demoEntry [1] redTile redTile rfl rfl rfl
      (by decide) (by decide)).2.2.2.2.2.1 255 0 0 (by decide)⟩

end Mosaic
